import Mathlib

/-!
# gomaddness: a shallow embedding of the MADDNESS training and query pipeline

The Go package `gomaddness` is embedded over exact rational arithmetic: the
float element type `F` is `ℚ`, a `Vector[F]` is a `List ℚ` and a `Vectors[F]`
(a matrix, one row per vector) is a `List (List ℚ)`.

* A Go run-time panic (index or slice bound out of range, integer division by
  zero, an explicit `panic`) is the result `none`.
* Methods that mutate their receiver in place and return it are pure functions
  returning the new value.
* Machine integers are natural numbers, reduced `% 256` (`uint8`) or `% 65536`
  (`uint16`) wherever the Go operation can wrap around.
* A value that would be infinite or NaN in floating point (a division by zero)
  has no counterpart in `ℚ`; the two places where one can arise return `none`.
-/

namespace Gomaddness

/-! ## Standard-library functions used by the package -/

/-- The two ways the package calls Go's `math.Nextafter32`: `up x` stands for
`F(math.Nextafter32(float32(x), float32(math.Inf(+1))))` and `down x` for the
same call toward `math.Inf(-1)`. The function belongs to the Go standard
library and has no exact-arithmetic counterpart, so the embedding takes it as
a parameter. -/
structure Nextafter32 where
  up : ℚ → ℚ
  down : ℚ → ℚ

/-- A concrete instance used to evaluate the embedding on literal inputs: one
step is `2⁻²³`, the distance between `1` and the next `float32`. It is a
stand-in, not Go's function: the step of `math.Nextafter32` depends on the
magnitude of its argument (`3` goes down to `3 - 2⁻²²`), so a repaired value
computed with this instance is not the value of the Go program. The properties
of the program are stated for every `Nextafter32`. -/
def unitStep : Nextafter32 where
  up := fun x => x + 1 / 8388608
  down := fun x => x - 1 / 8388608

/-! ## vector.go -/

/-- The loop `for i, x := range other { v[i] = f v[i] x }`: the first
`len(other)` elements of `v` are combined with `other`, the rest is kept. -/
def Vector.rangeUpdate (f : ℚ → ℚ → ℚ) : List ℚ → List ℚ → List ℚ
  | a :: v, x :: other => f a x :: Vector.rangeUpdate f v other
  | v, [] => v
  | [], _ :: _ => []

/-- The bounds-check hint `_ = v[len(other)-1]`: it panics when `other` is
empty (index `-1`) or longer than `v`. -/
def Vector.boundsOK (v other : List ℚ) : Bool :=
  decide (0 < other.length) && decide (other.length ≤ v.length)

/-- The Go function `Vector.Add`: adds `other` to `v` element-wise. -/
def Vector.Add (v other : List ℚ) : Option (List ℚ) :=
  if Vector.boundsOK v other then some (Vector.rangeUpdate (fun a x => a + x) v other) else none

/-- The Go function `Vector.Sub`: subtracts `other` from `v` element-wise. -/
def Vector.Sub (v other : List ℚ) : Option (List ℚ) :=
  if Vector.boundsOK v other then some (Vector.rangeUpdate (fun a x => a - x) v other) else none

/-- The Go function `Vector.AddSquares`: adds the squares of `other` to `v` element-wise. -/
def Vector.AddSquares (v other : List ℚ) : Option (List ℚ) :=
  if Vector.boundsOK v other then some (Vector.rangeUpdate (fun a x => a + x * x) v other) else none

/-- The Go function `Vector.DivScalar`: divides each element by `x`. -/
def Vector.DivScalar (v : List ℚ) (x : ℚ) : List ℚ :=
  v.map (fun a => a / x)

/-- The Go function `Vector.Square`: squares each element. -/
def Vector.Square (v : List ℚ) : List ℚ :=
  v.map (fun x => x * x)

/-- The Go function `Vector.Reverse`. -/
def Vector.Reverse (v : List ℚ) : List ℚ :=
  v.reverse

/-- The loop of `Vector.ArgMin`: `i` is the index of the head of the remaining
elements, `(minIndex, minVal)` is the running minimum. -/
def Vector.argMinLoop : List ℚ → Nat → Nat → ℚ → Nat
  | [], _, minIndex, _ => minIndex
  | val :: rest, i, minIndex, minVal =>
    if val < minVal then Vector.argMinLoop rest (i + 1) i val
    else Vector.argMinLoop rest (i + 1) minIndex minVal

/-- The Go function `Vector.ArgMin`: the index of the first occurrence of the minimum; reading
`v[0]` panics on the empty vector. -/
def Vector.ArgMin (v : List ℚ) : Option Nat :=
  match v with
  | [] => none
  | x :: _ => some (Vector.argMinLoop v 0 0 x)

/-- The loop of `Vector.DotProduct`: `y += vi * other[i]`. -/
def Vector.dotLoop : List ℚ → List ℚ → ℚ → ℚ
  | vi :: v, oi :: other, y => Vector.dotLoop v other (y + vi * oi)
  | _, _, y => y

/-- The Go function `Vector.DotProduct`: the hint `_ = other[len(v)-1]` panics when `v` is
empty or longer than `other`. -/
def Vector.DotProduct (v other : List ℚ) : Option ℚ :=
  if Vector.boundsOK other v then some (Vector.dotLoop v other 0) else none

/-- The Go function `Vector.Copy`. -/
def Vector.Copy (v : List ℚ) : List ℚ := v

/-! ## vectors.go -/

/-- The loop of `ColumnWiseVariance`: `sum.Add(v); sumOfSquares.AddSquares(v)`
for every row. -/
def Vectors.sumLoop : List (List ℚ) → List ℚ → List ℚ → Option (List ℚ × List ℚ)
  | [], sum, sumOfSquares => some (sum, sumOfSquares)
  | v :: vs, sum, sumOfSquares =>
    (Vector.Add sum v).bind fun sum1 =>
    (Vector.AddSquares sumOfSquares v).bind fun sq1 =>
    Vectors.sumLoop vs sum1 sq1

/-- The Go function `Vectors.ColumnWiseVariance`: reading `vs[0]` panics on the empty
collection. -/
def Vectors.ColumnWiseVariance (vs : List (List ℚ)) : Option (List ℚ) :=
  match vs with
  | [] => none
  | v0 :: _ =>
    let vecSize := v0.length
    (Vectors.sumLoop vs (List.replicate vecSize 0) (List.replicate vecSize 0)).bind fun p =>
    let n : ℚ := (vs.length : ℚ)
    let mean := Vector.DivScalar p.1 n
    let squareMean := Vector.Square mean
    Vector.Sub (Vector.DivScalar p.2 n) squareMean

/-- The Go function `Vectors.SplitByThreshold`: `v[index]` panics on a row that is too short. -/
def Vectors.SplitByThreshold : List (List ℚ) → Nat → ℚ → Option (List (List ℚ) × List (List ℚ))
  | [], _, _ => some ([], [])
  | v :: vs, index, threshold =>
    match v.get? index with
    | none => none
    | some x =>
      (Vectors.SplitByThreshold vs index threshold).map fun p =>
        if x < threshold then (v :: p.1, p.2) else (p.1, v :: p.2)

/-- The Go function `Vectors.Copy` (a shallow copy). -/
def Vectors.Copy (vs : List (List ℚ)) : List (List ℚ) := vs

/-- The order handed to the stable sort: row `a` may stand before row `b` when
`b[index] < a[index]` does not hold. -/
def Vectors.colLE (index : Nat) (a b : List ℚ) : Prop :=
  a.getD index 0 ≤ b.getD index 0

instance Vectors.colLE.decidable (index : Nat) : DecidableRel (Vectors.colLE index) :=
  fun a b => inferInstanceAs (Decidable (a.getD index 0 ≤ b.getD index 0))

/-- The Go function `Vectors.SortByColumn`: `sort.SliceStable` with the comparison
`vs[i][index] < vs[j][index]`. The stable sort of the standard library is
embedded as insertion sort, which is stable too. With fewer than two rows no
comparison is made; otherwise every row is compared at least once, so a row
without an element `index` panics. -/
def Vectors.SortByColumn (vs : List (List ℚ)) (index : Nat) : Option (List (List ℚ)) :=
  if vs.length ≤ 1 then some vs
  else if vs.all (fun v => decide (index < v.length)) then
    some (vs.insertionSort (Vectors.colLE index))
  else none

/-- The Go function `Vectors.Reverse`. -/
def Vectors.Reverse (vs : List (List ℚ)) : List (List ℚ) :=
  vs.reverse

/-- The inner loop of `CumulativeSSE` for one row: after `sum` and
`sumOfSquares` have been updated, `out[i]` collects
`sumOfSquares[j] - sum[j]*sum[j]/F(i+1)` for every `j` in the range of the row. -/
def Vectors.rowSSE : List ℚ → List ℚ → Nat → Nat → ℚ → ℚ
  | s :: sum, q :: sumOfSquares, k + 1, i, out =>
    Vectors.rowSSE sum sumOfSquares k i (out + (q - s * s / ((i + 1 : Nat) : ℚ)))
  | _, _, _, _, out => out

/-- The outer loop `for i := 1; i < n; i++` of `CumulativeSSE`, returning
`out[i:]`. The hint `_ = sum[len(vs[i])-1]` panics on an empty row and on a row
longer than `vs[0]`. -/
def Vectors.sseLoop : List (List ℚ) → Nat → List ℚ → List ℚ → Option (List ℚ)
  | [], _, _, _ => some []
  | v :: vs, i, sum, sumOfSquares =>
    if Vector.boundsOK sum v then
      let sum1 := Vector.rangeUpdate (fun a x => a + x) sum v
      let sq1 := Vector.rangeUpdate (fun a x => a + x * x) sumOfSquares v
      (Vectors.sseLoop vs (i + 1) sum1 sq1).map fun out =>
        Vectors.rowSSE sum1 sq1 v.length i 0 :: out
    else none

/-- The Go function `Vectors.CumulativeSSE`: `vs[0]` panics on the empty collection and
`_ = sum[len(vs[0])-1]` on rows of width zero. -/
def Vectors.CumulativeSSE (vs : List (List ℚ)) : Option (List ℚ) :=
  match vs with
  | [] => none
  | v0 :: rest =>
    if v0.length = 0 then none
    else (Vectors.sseLoop rest 1 v0 (v0.map fun x => x * x)).map fun out => 0 :: out

/-- The Go function `Vectors.OptimalSplitThreshold`, returning `(threshold, loss)`. -/
def Vectors.OptimalSplitThreshold (na : Nextafter32) (vs : List (List ℚ)) (splitIndex : Nat) :
    Option (ℚ × ℚ) :=
  (Vectors.SortByColumn (Vectors.Copy vs) splitIndex).bind fun sorted0 =>
  let sorted := if sorted0.length = 1 then sorted0 ++ sorted0.take 1 else sorted0
  (Vectors.CumulativeSSE sorted).bind fun head =>
  ((Vectors.CumulativeSSE (Vectors.Reverse (Vectors.Copy sorted))).map
    Vector.Reverse).bind fun tail =>
  (Vector.Add (head.take (head.length - 1)) (tail.drop 1)).bind fun front =>
  let losses := front ++ head.drop (head.length - 1)
  (Vector.ArgMin losses).bind fun n =>
  (sorted.get? n).bind fun rowN =>
  (rowN.get? splitIndex).bind fun xN =>
  (if n < sorted.length - 1 then
    (sorted.get? (n + 1)).bind fun rowN1 =>
    (rowN1.get? splitIndex).map fun xN1 => (xN + xN1) / 2
  else some (na.up xN)).bind fun threshold =>
  (losses.get? n).map fun loss => (threshold, loss)

/-- The loop of `Vectors.Mean`: `sum.Add(v)` for every row after the first. -/
def Vectors.meanLoop : List (List ℚ) → List ℚ → Option (List ℚ)
  | [], sum => some sum
  | v :: vs, sum => (Vector.Add sum v).bind fun sum1 => Vectors.meanLoop vs sum1

/-- The Go function `Vectors.Mean`: `vs[0]` panics on the empty collection. -/
def Vectors.Mean (vs : List (List ℚ)) : Option (List ℚ) :=
  match vs with
  | [] => none
  | v0 :: rest =>
    (Vectors.meanLoop rest (Vector.Copy v0)).map fun sum =>
      Vector.DivScalar sum (vs.length : ℚ)

/-! ## argmaxheap.go, with `container/heap` of the standard library -/

/-- The Go type `ArgMaxHeap`: a max-heap over the indices of `vector`. -/
structure ArgMaxHeap where
  vector : List ℚ
  indices : List Nat

/-- The Go function `ArgMaxHeap.Less` on a given index slice: the value at the `i`-th index is
greater than the value at the `j`-th index. The heap algorithms only call it
with positions inside the slice. -/
def ArgMaxHeap.Less (vector : List ℚ) (indices : List Nat) (i j : Nat) : Bool :=
  decide (vector.getD (indices.getD j 0) 0 < vector.getD (indices.getD i 0) 0)

/-- The Go function `ArgMaxHeap.Swap` on a given index slice. -/
def ArgMaxHeap.Swap (indices : List Nat) (i j : Nat) : List Nat :=
  (indices.set i (indices.getD j 0)).set j (indices.getD i 0)

/-- The Go function `heap.down(h, i, n)` of `container/heap`: sifts position `i` down within
the first `n` positions. Each round moves `i` to a child, so `n` rounds of
fuel are enough. -/
def ArgMaxHeap.down (vector : List ℚ) : Nat → List Nat → Nat → Nat → List Nat
  | 0, indices, _, _ => indices
  | fuel + 1, indices, i, n =>
    let j1 := 2 * i + 1
    if n ≤ j1 then indices
    else
      let j := if j1 + 1 < n ∧ ArgMaxHeap.Less vector indices (j1 + 1) j1 = true then j1 + 1 else j1
      if ArgMaxHeap.Less vector indices j i = true then
        ArgMaxHeap.down vector fuel (ArgMaxHeap.Swap indices i j) j n
      else indices

/-- The Go function `heap.Init(h)`: `for i := n/2 - 1; i >= 0; i-- { down(h, i, n) }`. -/
def ArgMaxHeap.init (vector : List ℚ) (indices : List Nat) : List Nat :=
  let n := indices.length
  (List.range (n / 2)).foldr (fun i idx => ArgMaxHeap.down vector n idx i n) indices

/-- The Go function `NewArgMaxHeap`: the indices `0, 1, ..., len(v)-1`, heapified. -/
def NewArgMaxHeap (v : List ℚ) : ArgMaxHeap where
  vector := v
  indices := ArgMaxHeap.init v (List.range v.length)

/-- The Go function `heap.Pop(h)` followed by `ArgMaxHeap.Pop`: swap the root with the last
position, sift the new root down within the first `n` positions, and remove
the last index. It returns the remaining indices and the removed one;
`h.indices[lastIndex]` panics on an empty heap. -/
def ArgMaxHeap.heapPop (vector : List ℚ) (indices : List Nat) : Option (List Nat × Nat) :=
  let n := indices.length - 1
  let swapped := ArgMaxHeap.Swap indices 0 n
  let sifted := ArgMaxHeap.down vector n swapped 0 n
  (sifted.get? (sifted.length - 1)).map fun x => (sifted.take (sifted.length - 1), x)

/-- The loop `for i := range indices { indices[i] = heap.Pop(h).(int) }`. -/
def ArgMaxHeap.popLoop (vector : List ℚ) : Nat → List Nat → Option (List Nat)
  | 0, _ => some []
  | k + 1, indices =>
    (ArgMaxHeap.heapPop vector indices).bind fun p =>
    (ArgMaxHeap.popLoop vector k p.1).map fun rest => p.2 :: rest

/-- The Go function `ArgMaxHeap.FirstArgsMax(n)`: the first `n` arguments of the maxima, at
most `Len` of them. -/
def ArgMaxHeap.FirstArgsMax (h : ArgMaxHeap) (n : Nat) : Option (List Nat) :=
  let n1 := if h.indices.length < n then h.indices.length else n
  ArgMaxHeap.popLoop h.vector n1 h.indices

/-! ## bucket.go, buckets.go -/

/-- The Go type `Bucket`: a set of vectors with the tree level and node index kept for
logging. -/
structure Bucket where
  Level : Int
  NodeIndex : Int
  Vectors : List (List ℚ)
deriving DecidableEq

/-- The loop of `HeuristicSelectIndices`:
`sumOfVariance.Add(b.Vectors.ColumnWiseVariance())` for every later bucket. -/
def Buckets.varianceLoop : List Bucket → List ℚ → Option (List ℚ)
  | [], sumOfVariance => some sumOfVariance
  | b :: bs, sumOfVariance =>
    (Vectors.ColumnWiseVariance b.Vectors).bind fun var =>
    (Vector.Add sumOfVariance var).bind fun sum1 =>
    Buckets.varianceLoop bs sum1

/-- The Go function `Buckets.HeuristicSelectIndices`: the top four columns of the summed
column-wise variance; `bs[0]` panics on an empty list of buckets. -/
def Buckets.HeuristicSelectIndices (bs : List Bucket) : Option (List Nat) :=
  match bs with
  | [] => none
  | b0 :: rest =>
    (Vectors.ColumnWiseVariance b0.Vectors).bind fun var0 =>
    (Buckets.varianceLoop rest var0).bind fun sumOfVariance =>
    ArgMaxHeap.FirstArgsMax (NewArgMaxHeap sumOfVariance) 4

/-- The Go function `Buckets.Prototypes`: the mean of every bucket, in bucket order. -/
def Buckets.Prototypes : List Bucket → Option (List (List ℚ))
  | [] => some []
  | b :: bs =>
    (Vectors.Mean b.Vectors).bind fun proto =>
    (Buckets.Prototypes bs).map fun protos => proto :: protos

/-! ## hash.go -/

/-- The Go type `HashingTreeLevel`: one level of the binary tree of a `Hash`. A level
returned by training always carries a column that was selected, so the
embedding keeps `SplitIndex` as a natural number. -/
structure HashingTreeLevel where
  SplitIndex : Nat
  SplitThresholds : List ℚ
deriving DecidableEq

/-- The Go type `Hash`: the learned tree levels and the prototype vectors. -/
structure Hash where
  TreeLevels : List HashingTreeLevel
  Prototypes : List (List ℚ)
deriving DecidableEq

/-- The inner loop of `nextHashingTreeLevel` for one candidate column:
`t, l := bucket.Vectors.OptimalSplitThreshold(splitIndex)`,
`splitThresholds[j] = t`, `loss += l`. -/
def lossLoop (na : Nextafter32) (splitIndex : Nat) :
    List Bucket → List ℚ → ℚ → Option (List ℚ × ℚ)
  | [], splitThresholds, loss => some (splitThresholds, loss)
  | bucket :: rest, splitThresholds, loss =>
    (Vectors.OptimalSplitThreshold na bucket.Vectors splitIndex).bind fun tl =>
    lossLoop na splitIndex rest (splitThresholds ++ [tl.1]) (loss + tl.2)

/-- The outer loop of `nextHashingTreeLevel` over the candidate columns. The
running best is `(bestLoss, bestSplitIndex, bestSplitThresholds)`; `none` is
the initial state `(+Inf, -1, nil)`, which every finite loss beats. -/
def selectLoop (na : Nextafter32) (buckets : List Bucket) :
    List Nat → Option (ℚ × Nat × List ℚ) → Option (Option (ℚ × Nat × List ℚ))
  | [], best => some best
  | splitIndex :: rest, best =>
    (lossLoop na splitIndex buckets [] 0).bind fun tl =>
    let better : Bool :=
      match best with
      | none => true
      | some b => decide (tl.2 < b.1)
    selectLoop na buckets rest (if better then some (tl.2, splitIndex, tl.1) else best)

/-- The repair of an empty `lt`: the first row of `gte` sorted by the split
column, with its split value moved one step down. -/
def repairLt (na : Nextafter32) (gte : List (List ℚ)) (bestSplitIndex : Nat) :
    Option (List (List ℚ)) :=
  (Vectors.SortByColumn (Vectors.Copy gte) bestSplitIndex).bind fun sorted =>
  (sorted.get? 0).bind fun row =>
  let v := Vector.Copy row
  (v.get? bestSplitIndex).map fun x => [v.set bestSplitIndex (na.down x)]

/-- The repair of an empty `gte`: the last row of `lt` sorted by the split
column, with its split value moved one step up. -/
def repairGte (na : Nextafter32) (lt : List (List ℚ)) (bestSplitIndex : Nat) :
    Option (List (List ℚ)) :=
  (Vectors.SortByColumn (Vectors.Copy lt) bestSplitIndex).bind fun sorted =>
  if lt.length = 0 then none
  else
    (sorted.get? (lt.length - 1)).bind fun row =>
    let v := Vector.Copy row
    (v.get? bestSplitIndex).map fun x => [v.set bestSplitIndex (na.up x)]

/-- The second loop of `nextHashingTreeLevel`: every bucket `j` is split by
`bestSplitThresholds[j]`, an empty side is repaired, and the two children are
appended with node indices `2j` and `2j+1`. -/
def splitLoop (na : Nextafter32) (bestSplitIndex : Nat) (bestSplitThresholds : List ℚ) :
    List Bucket → Nat → Option (List Bucket)
  | [], _ => some []
  | bucket :: rest, j =>
    (bestSplitThresholds.get? j).bind fun threshold =>
    (Vectors.SplitByThreshold bucket.Vectors bestSplitIndex threshold).bind fun p =>
    (if p.1.length = 0 then repairLt na p.2 bestSplitIndex else some p.1).bind fun lt =>
    (if p.2.length = 0 then repairGte na lt bestSplitIndex else some p.2).bind fun gte =>
    (splitLoop na bestSplitIndex bestSplitThresholds rest (j + 1)).map fun newBuckets =>
      { Level := bucket.Level + 1, NodeIndex := (j : Int) * 2, Vectors := lt } ::
      { Level := bucket.Level + 1, NodeIndex := (j : Int) * 2 + 1, Vectors := gte } ::
      newBuckets

/-- The Go function `nextHashingTreeLevel`. When no candidate was accepted the best thresholds
are `nil` and the first `bestSplitThresholds[j]` panics; with no bucket at all
`HeuristicSelectIndices` has panicked before. -/
def nextHashingTreeLevel (na : Nextafter32) (buckets : List Bucket) :
    Option (List Bucket × HashingTreeLevel) :=
  (Buckets.HeuristicSelectIndices buckets).bind fun indices =>
  (selectLoop na buckets indices none).bind fun best =>
  match best with
  | none => none
  | some b =>
    (splitLoop na b.2.1 b.2.2 buckets 0).map fun newBuckets =>
      (newBuckets, { SplitIndex := b.2.1, SplitThresholds := b.2.2 })

/-- The loop `for i := range levels { buckets, levels[i] = nextHashingTreeLevel(buckets) }`
run `k` times. -/
def levelsLoop (na : Nextafter32) : Nat → List Bucket → Option (List Bucket × List HashingTreeLevel)
  | 0, buckets => some (buckets, [])
  | k + 1, buckets =>
    (nextHashingTreeLevel na buckets).bind fun p =>
    (levelsLoop na k p.1).map fun q => (q.1, p.2 :: q.2)

/-- The leaf buckets of `TrainHash`: the buckets after the four levels. -/
def trainBuckets (na : Nextafter32) (examples : List (List ℚ)) :
    Option (List Bucket × List HashingTreeLevel) :=
  levelsLoop na 4 [{ Level := -1, NodeIndex := 0, Vectors := examples }]

/-- The Go function `TrainHash`: four tree levels grown from the single bucket of all
examples, and the prototypes of the sixteen leaves. -/
def TrainHash (na : Nextafter32) (examples : List (List ℚ)) : Option Hash :=
  (trainBuckets na examples).bind fun p =>
  (Buckets.Prototypes p.1).map fun protos =>
    { TreeLevels := p.2, Prototypes := protos }

/-- The loop of `Hash.Hash` over the remaining levels, with the `uint8`
counter `i`. It returns the final `i` together with the indices at which
`SplitThresholds` was read, in order. Both `level.SplitThresholds[i-1]` and
`v[level.SplitIndex]` panic when out of range. -/
def Hash.hashLoop (v : List ℚ) : List HashingTreeLevel → Nat → Option (Nat × List Nat)
  | [], i => some (i, [])
  | level :: rest, i =>
    let at0 := (i + 255) % 256
    (level.SplitThresholds.get? at0).bind fun threshold =>
    let i2 := (2 * i) % 256
    (v.get? level.SplitIndex).bind fun x =>
    let i3 := if x < threshold then (i2 + 255) % 256 else i2
    (Hash.hashLoop v rest i3).map fun r => (r.1, at0 :: r.2)

/-- The indices of `SplitThresholds` read by `Hash.Hash`, level by level. -/
def Hash.reads (h : Hash) (v : List ℚ) : Option (List Nat) :=
  (Hash.hashLoop v h.TreeLevels 1).map fun r => r.2

/-- The Go function `Hash.Hash`: maps a vector to the index of a leaf; the result is the
`uint8` value `i - 1`. -/
def Hash.Hash (h : Hash) (v : List ℚ) : Option Nat :=
  (Hash.hashLoop v h.TreeLevels 1).map fun r => (r.1 + 255) % 256

/-! ## lookuptable.go, maddness.go -/

/-- The Go type `LookupTable`: the dot products of one query vector with every prototype,
quantized to bytes in row-major order (row = subspace, column = prototype),
with the two de-quantization parameters. -/
structure LookupTable where
  Bias : ℚ
  Scale : ℚ
  Data : List Nat
deriving DecidableEq

/-- The Go type `Maddness`: the root object. The three sizes are non-negative once the
checks of `TrainMaddness` have passed and are kept as natural numbers. An
entry `none` of `LookupTables` records a table whose `Scale` and `Data` have no
finite value (every dot product of the query equal, so `max - min = 0`). -/
structure Maddness where
  NumSubspaces : Nat
  VectorSize : Nat
  SubVectorSize : Nat
  Hashes : List Hash
  LookupTables : List (Option LookupTable)
deriving DecidableEq

/-- The slice expression `v[lo:hi]` of a slice whose capacity is its length:
it panics unless `lo ≤ hi ≤ len(v)`. -/
def sliceRange (v : List ℚ) (lo hi : Nat) : Option (List ℚ) :=
  if lo ≤ hi ∧ hi ≤ v.length then some ((v.drop lo).take (hi - lo)) else none

/-- The loop of `Maddness.subspaceExamples`: `ex[offset:end]` for every
example. -/
def Maddness.subspaceLoop (offset end1 : Nat) : List (List ℚ) → Option (List (List ℚ))
  | [] => some []
  | ex :: rest =>
    (sliceRange ex offset end1).bind fun sub =>
    (Maddness.subspaceLoop offset end1 rest).map fun subs => sub :: subs

/-- The Go function `Maddness.subspaceExamples`: the view of every example on the columns of
subspace `subIndex`. -/
def Maddness.subspaceExamples (m : Maddness) (subIndex : Nat) (allExamples : List (List ℚ)) :
    Option (List (List ℚ)) :=
  let offset := subIndex * m.SubVectorSize
  let end1 := offset + m.SubVectorSize
  Maddness.subspaceLoop offset end1 allExamples

/-- The Go function `Maddness.trainSubspaceHash`: the `Hash` of one subspace. -/
def Maddness.trainSubspaceHash (na : Nextafter32) (m : Maddness) (subIndex : Nat)
    (allExamples : List (List ℚ)) : Option Hash :=
  (Maddness.subspaceExamples m subIndex allExamples).bind fun subExamples =>
  TrainHash na subExamples

/-- The loop of `Maddness.trainAllHashes` over the subspaces `subIndex,
subIndex+1, ...`, `count` of them. The goroutines write disjoint entries of
`m.Hashes` and are joined before the function returns, so the result is the
one of the sequential loop. -/
def Maddness.hashesLoop (na : Nextafter32) (m : Maddness) (allExamples : List (List ℚ)) :
    Nat → Nat → Option (List Hash)
  | 0, _ => some []
  | count + 1, subIndex =>
    (Maddness.trainSubspaceHash na m subIndex allExamples).bind fun h =>
    (Maddness.hashesLoop na m allExamples count (subIndex + 1)).map fun hs => h :: hs

/-- The Go function `Maddness.trainAllHashes`. -/
def Maddness.trainAllHashes (na : Nextafter32) (m : Maddness) (examples : List (List ℚ)) :
    Option Maddness :=
  (Maddness.hashesLoop na m examples m.NumSubspaces 0).map fun hs => { m with Hashes := hs }

/-- The update `if v < min { min = v }`, where `none` is the initial `+Inf`. -/
def lowerMin (min : Option ℚ) (v : ℚ) : Option ℚ :=
  match min with
  | none => some v
  | some a => if v < a then some v else some a

/-- The update `if v > max { max = v }`, where `none` is the initial `-Inf`. -/
def raiseMax (max : Option ℚ) (v : ℚ) : Option ℚ :=
  match max with
  | none => some v
  | some a => if a < v then some v else some a

/-- The inner loop of `precomputeDotProducts` over the prototypes of one
subspace: the row of dot products and the updated `min` and `max`. -/
def Maddness.dotRowLoop (subVec : List ℚ) :
    List (List ℚ) → Option ℚ → Option ℚ → Option (List ℚ × Option ℚ × Option ℚ)
  | [], min, max => some ([], min, max)
  | proto :: rest, min, max =>
    (Vector.DotProduct subVec proto).bind fun v =>
    (Maddness.dotRowLoop subVec rest (lowerMin min v) (raiseMax max v)).map fun r =>
      (v :: r.1, r.2.1, r.2.2)

/-- The outer loop of `precomputeDotProducts` over the subspaces `i, i+1, ...`,
`count` of them. -/
def Maddness.dotRowsLoop (m : Maddness) (vec : List ℚ) :
    Nat → Nat → Option ℚ → Option ℚ → Option (List (List ℚ) × Option ℚ × Option ℚ)
  | 0, _, min, max => some ([], min, max)
  | count + 1, i, min, max =>
    let subOffset := i * m.SubVectorSize
    (sliceRange vec subOffset (subOffset + m.SubVectorSize)).bind fun subVec =>
    (m.Hashes.get? i).bind fun h =>
    (Maddness.dotRowLoop subVec h.Prototypes min max).bind fun row =>
    (Maddness.dotRowsLoop m vec count (i + 1) row.2.1 row.2.2).map fun r =>
      (row.1 :: r.1, r.2.1, r.2.2)

/-- The Go function `Maddness.precomputeDotProducts`: the table of dot products, and `(min,
scale)` with `scale = math.MaxUint8 / (max - min)`. The pair is `none` when it
has no finite value: no dot product was computed, or `max = min`. -/
def Maddness.precomputeDotProducts (m : Maddness) (vec : List ℚ) :
    Option (List (List ℚ) × Option (ℚ × ℚ)) :=
  (Maddness.dotRowsLoop m vec m.NumSubspaces 0 none none).map fun r =>
    (r.1,
      match r.2.1, r.2.2 with
      | some min, some max => if max - min = 0 then none else some (min, 255 / (max - min))
      | _, _ => none)

/-- The conversion `uint8(x)` of a float: the fraction is discarded, and the
result is the byte of that integer. The package only converts values between
`0` and `255`. -/
def toUint8 (x : ℚ) : Nat :=
  (if 0 ≤ x then ⌊x⌋ else ⌈x⌉).toNat % 256

/-- The Go function `Maddness.makeLookupTable`. The outer `none` is a panic
(`floatData[0]` with no subspace, or one inside `precomputeDotProducts`); the
inner `none` is a table without finite parameters. -/
def Maddness.makeLookupTable (m : Maddness) (queryVector : List ℚ) :
    Option (Option LookupTable) :=
  (Maddness.precomputeDotProducts m queryVector).bind fun r =>
  match r.1 with
  | [] => none
  | _ :: _ =>
    some (r.2.map fun ms =>
      { Bias := ms.1 * (m.NumSubspaces : ℚ)
        Scale := ms.2
        Data := (r.1.map fun fdRow => fdRow.map fun v => toUint8 ((v - ms.1) * ms.2)).flatten })

/-- The loop of `Maddness.makeLookupTables`. -/
def Maddness.tablesLoop (m : Maddness) : List (List ℚ) → Option (List (Option LookupTable))
  | [] => some []
  | qv :: rest =>
    (Maddness.makeLookupTable m qv).bind fun t =>
    (Maddness.tablesLoop m rest).map fun ts => t :: ts

/-- The Go function `Maddness.makeLookupTables`. -/
def Maddness.makeLookupTables (m : Maddness) (queryVectors : List (List ℚ)) : Option Maddness :=
  (Maddness.tablesLoop m queryVectors).map fun ts => { m with LookupTables := ts }

/-- The Go function `TrainMaddness`. The four explicit panics and the integer division by
zero of `vecSize%numSubspaces` are the result `none`. -/
def TrainMaddness (na : Nextafter32) (dataExamples queryVectors : List (List ℚ))
    (numSubspaces : Int) : Option Maddness :=
  match dataExamples with
  | [] => none
  | ex0 :: _ =>
    if queryVectors.length = 0 then none
    else
      let vecSize := ex0.length
      if vecSize = 0 then none
      else if numSubspaces < 0 ∨ (vecSize : Int) < numSubspaces then none
      else if numSubspaces = 0 then none
      else if (vecSize : Int) % numSubspaces ≠ 0 then none
      else
        let m : Maddness :=
          { NumSubspaces := numSubspaces.toNat
            VectorSize := vecSize
            SubVectorSize := vecSize / numSubspaces.toNat
            Hashes := []
            LookupTables := [] }
        (Maddness.trainAllHashes na m dataExamples).bind fun m1 =>
        Maddness.makeLookupTables m1 queryVectors

/-- The loop of `Maddness.Quantize` over the hashes `i, i+1, ...`. -/
def Maddness.quantizeLoop (subVectorSize : Nat) (v : List ℚ) : List Hash → Nat → Option (List Nat)
  | [], _ => some []
  | hash :: rest, i =>
    let offset := i * subVectorSize
    (sliceRange v offset (offset + subVectorSize)).bind fun subVector =>
    (Hash.Hash hash subVector).bind fun qi =>
    (Maddness.quantizeLoop subVectorSize v rest (i + 1)).map fun q => qi :: q

/-- The Go function `Maddness.Quantize`: one hash index per subspace. -/
def Maddness.Quantize (m : Maddness) (v : List ℚ) : Option (List Nat) :=
  Maddness.quantizeLoop m.SubVectorSize v m.Hashes 0

/-- The loop of `LookupTableIndices` over the positions `subspaceIndex,
subspaceIndex+1, ...`: `uint16(subspaceIndex*lutCols) + uint16(protoIndex)`. -/
def Maddness.indicesLoop (lutCols : Nat) : List Nat → Nat → List Nat
  | [], _ => []
  | protoIndex :: rest, subspaceIndex =>
    ((subspaceIndex * lutCols) % 65536 + protoIndex % 65536) % 65536 ::
      Maddness.indicesLoop lutCols rest (subspaceIndex + 1)

/-- The Go function `Maddness.LookupTableIndices`: `m.Hashes[0]` panics on a model without
hashes. The elements of `q` are bytes. -/
def Maddness.LookupTableIndices (m : Maddness) (q : List Nat) : Option (List Nat) :=
  (m.Hashes.get? 0).map fun h0 =>
    Maddness.indicesLoop h0.Prototypes.length q 0

/-- The loop of `Maddness.DotProduct`: `sum += uint16(lutData[lutIndex])` on a
`uint16` accumulator. -/
def Maddness.sumLoop (lutData : List Nat) : List Nat → Nat → Option Nat
  | [], sum => some sum
  | lutIndex :: rest, sum =>
    (lutData.get? lutIndex).bind fun ldi =>
    Maddness.sumLoop lutData rest ((sum + ldi) % 65536)

/-- The Go function `Maddness.DotProduct`: `F(sum)/lut.Scale + lut.Bias`. The result is `none`
on a panic (`queryVectorIndex` or a table index out of range), on a table
without finite parameters, and on the division by a zero `Scale`. -/
def Maddness.DotProduct (m : Maddness) (lutIndices : List Nat) (queryVectorIndex : Nat) :
    Option ℚ :=
  (m.LookupTables.get? queryVectorIndex).bind fun entry =>
  entry.bind fun lut =>
  (Maddness.sumLoop lut.Data lutIndices 0).bind fun sum =>
    if lut.Scale = 0 then none else some ((sum : ℚ) / lut.Scale + lut.Bias)

/-- The loop of `Maddness.Reconstruct` over the hashes `i, i+1, ...`:
`v = append(v, hash.Prototypes[q[i]]...)`. -/
def Maddness.reconstructLoop (q : List Nat) : List Hash → Nat → Option (List ℚ)
  | [], _ => some []
  | hash :: rest, i =>
    (q.get? i).bind fun qi =>
    (hash.Prototypes.get? qi).bind fun proto =>
    (Maddness.reconstructLoop q rest (i + 1)).map fun v => proto ++ v

/-- The Go function `Maddness.Reconstruct`: the concatenation of the selected prototypes. -/
def Maddness.Reconstruct (m : Maddness) (q : List Nat) : Option (List ℚ) :=
  Maddness.reconstructLoop q m.Hashes 0

/-! ## Auxiliary definitions used in the statements -/

/-- A matrix whose rows all have width `M`. -/
def Rect (M : Nat) (vs : List (List ℚ)) : Prop :=
  ∀ v ∈ vs, v.length = M

/-- A bucket list in which every bucket is non-empty and holds rows of width `M`. -/
def GoodBuckets (M : Nat) (bs : List Bucket) : Prop :=
  ∀ b ∈ bs, b.Vectors ≠ [] ∧ Rect M b.Vectors

/-- What the running best of the candidate loop satisfies: a column inside
the rows and one threshold per bucket. -/
def BestOK (M n : Nat) (best : Option (ℚ × Nat × List ℚ)) : Prop :=
  ∀ b, best = some b → b.2.1 < M ∧ b.2.2.length = n

/-- The test of `SplitByThreshold` on one row: `v[index] < threshold`. -/
def below (index : Nat) (threshold : ℚ) (v : List ℚ) : Bool :=
  decide (v.getD index 0 < threshold)

/-- The complement of `below`: the rows that go to `gte`. -/
def notBelow (index : Nat) (threshold : ℚ) (v : List ℚ) : Bool :=
  !below index threshold v

/-- Where training puts a row of bucket `k`: child `2k` when its split value is
below the threshold of the bucket, child `2k+1` otherwise. -/
def childIndex (c : Nat) (t : ℚ) (k : Nat) (e : List ℚ) : Nat :=
  if e.getD c 0 < t then 2 * k else 2 * k + 1

/-- The child of bucket `j` that receives row `e` when the buckets are split
for `level`: `2j` when `SplitByThreshold` puts `e` into `lt`, `2j+1` when it
puts it into `gte`. -/
def placeStep (buckets : List Bucket) (level : HashingTreeLevel) (j : Nat) (e : List ℚ) :
    Option Nat :=
  (buckets.get? j).bind fun b =>
  (level.SplitThresholds.get? j).bind fun t =>
  (Vectors.SplitByThreshold b.Vectors level.SplitIndex t).map fun p =>
    if e ∈ p.1 then 2 * j else 2 * j + 1

/-- The index of the bucket that holds row `e` after `k` levels of training,
when `e` starts in bucket `j`. -/
def placeLoop (na : Nextafter32) (e : List ℚ) : Nat → List Bucket → Nat → Option Nat
  | 0, _, j => some j
  | k + 1, buckets, j =>
    (nextHashingTreeLevel na buckets).bind fun p =>
    (placeStep buckets p.2 j e).bind fun j1 =>
    placeLoop na e k p.1 j1

/-- The leaf of `TrainHash` into which the training row `e` is placed by the
four successive splits. -/
def trainLeaf (na : Nextafter32) (examples : List (List ℚ)) (e : List ℚ) : Option Nat :=
  placeLoop na e 4 [{ Level := -1, NodeIndex := 0, Vectors := examples }] 0

/-- The sum of column `j` over the rows of a matrix. -/
def colSum (vs : List (List ℚ)) (j : Nat) : ℚ :=
  (vs.map fun r => r.getD j 0).sum

/-- The encoding loop as the specification writes it (section 4.5), on
unbounded integers: `threshold := level.SplitThresholds[i-1]`, `i := 2*i`, and
`i := i - 1` when `v[level.SplitIndex] < threshold`. It returns the final `i`
and the indices read. -/
def specHashLoop (v : List ℚ) : List HashingTreeLevel → Nat → Option (Nat × List Nat)
  | [], i => some (i, [])
  | level :: rest, i =>
    (level.SplitThresholds.get? (i - 1)).bind fun threshold =>
    (v.get? level.SplitIndex).bind fun x =>
    (specHashLoop v rest (if x < threshold then 2 * i - 1 else 2 * i)).map fun r =>
      (r.1, (i - 1) :: r.2)

/-- What `TrainMaddness` has established when it returns the model `m` for the
data examples `data` and the query vectors `queries`. -/
structure Trained (na : Nextafter32) (data queries : List (List ℚ)) (m : Maddness) : Prop where
  data_ne : data ≠ []
  subspaces_pos : 1 ≤ m.NumSubspaces
  width_pos : 1 ≤ m.SubVectorSize
  size_eq : m.VectorSize = m.NumSubspaces * m.SubVectorSize
  hashes_len : m.Hashes.length = m.NumSubspaces
  hashes : ∀ s, s < m.NumSubspaces → ∃ sub h,
    Maddness.subspaceExamples m s data = some sub ∧ TrainHash na sub = some h ∧
      m.Hashes.get? s = some h
  tables_len : m.LookupTables.length = queries.length
  tables : ∀ i q, queries.get? i = some q →
    ∃ t, Maddness.makeLookupTable m q = some t ∧ m.LookupTables.get? i = some t

/-- The dot product `f[s][k]` of the query sub-vector of subspace `s` with
prototype `k` of that subspace, computed with the slice and `DotProduct` of the
package. -/
def protoDot (m : Maddness) (q : List ℚ) (s k : Nat) : Option ℚ :=
  (sliceRange q (s * m.SubVectorSize) (s * m.SubVectorSize + m.SubVectorSize)).bind fun subVec =>
  (m.Hashes.get? s).bind fun h =>
  (h.Prototypes.get? k).bind fun proto =>
  Vector.DotProduct subVec proto

/-- A model of 4097 subspaces of width 1 whose hashes have the shape of trained
ones (four levels, sixteen prototypes). -/
def wideModel : Maddness where
  NumSubspaces := 4097
  VectorSize := 4097
  SubVectorSize := 1
  Hashes := List.replicate 4097
    { TreeLevels := [⟨0, [0]⟩, ⟨0, [0, 0]⟩, ⟨0, [0, 0, 0, 0]⟩, ⟨0, [0, 0, 0, 0, 0, 0, 0, 0]⟩]
      Prototypes := List.replicate 16 [0] }
  LookupTables := []

/-- The model trained on three rows of width 2 as a single subspace, with one
query vector. -/
def smallModel : Maddness :=
  (TrainMaddness unitStep [[0, 2], [0, 0], [2, 0]] [[1, 1]] 1).getD
    { NumSubspaces := 0, VectorSize := 0, SubVectorSize := 0, Hashes := [], LookupTables := [] }

/-- The exact sum of the dot products selected by the prototype indices
`k, ...` for the subspaces `s, s+1, ...`: the sum over `s` of
`<q_sub_s, Prototypes_s[k[s]]>`. -/
def exactDotLoop (m : Maddness) (q : List ℚ) : List Nat → Nat → ℚ
  | [], _ => 0
  | k :: rest, s => (protoDot m q s k).getD 0 + exactDotLoop m q rest (s + 1)

/-- The children `lt1`, `gte1` that `nextHashingTreeLevel` makes of the two
sides `p = (lt, gte)` of a split on column `c`: a non-empty side is kept, an
empty side is replaced by a single row, the copy of a row of the other side
whose value at column `c` is moved one step down (for `lt`) or up (for `gte`). -/
def RepairedSides (na : Nextafter32) (c : Nat) (p : List (List ℚ) × List (List ℚ))
    (lt1 gte1 : List (List ℚ)) : Prop :=
  (p.1 ≠ [] → lt1 = p.1) ∧
  (p.1 = [] → ∃ r x, r ∈ p.2 ∧ r.get? c = some x ∧ lt1 = [r.set c (na.down x)]) ∧
  (p.2 ≠ [] → gte1 = p.2) ∧
  (p.2 = [] → ∃ r x, r ∈ p.1 ∧ r.get? c = some x ∧ gte1 = [r.set c (na.up x)])

/-- The checks at the head of `TrainMaddness`, up to the construction of the
model that is handed to `trainAllHashes`: the four explicit panics and the
integer division by zero are the result `none`; otherwise the result is the
model with its three sizes set and neither hashes nor lookup tables. -/
def trainGuard (dataExamples queryVectors : List (List ℚ)) (numSubspaces : Int) :
    Option Maddness :=
  match dataExamples with
  | [] => none
  | ex0 :: _ =>
    if queryVectors.length = 0 then none
    else
      let vecSize := ex0.length
      if vecSize = 0 then none
      else if numSubspaces < 0 ∨ (vecSize : Int) < numSubspaces then none
      else if numSubspaces = 0 then none
      else if (vecSize : Int) % numSubspaces ≠ 0 then none
      else
        some
          { NumSubspaces := numSubspaces.toNat
            VectorSize := vecSize
            SubVectorSize := vecSize / numSubspaces.toNat
            Hashes := []
            LookupTables := [] }

/-- The 16 examples of width 8 of the training test of the package. -/
def testExamples : List (List ℚ) :=
  [[1, 2, 3, 1, 1, 2, 3, 4], [2, 4, 4, 2, 1, 2, 3, 4], [3, 6, 6, 3, 1, 2, 3, 4],
    [4, 8, 9, 4, 1, 2, 3, 4], [5, 10, 13, 10, 1, 2, 3, 4], [6, 12, 18, 11, 1, 2, 3, 4],
    [7, 14, 24, 12, 1, 2, 3, 4], [8, 16, 31, 13, 1, 2, 3, 4], [9, 18, 39, 50, 9, 8, 7, 6],
    [10, 20, 48, 51, 9, 8, 7, 6], [11, 22, 58, 52, 9, 8, 7, 6], [12, 24, 81, 53, 9, 8, 7, 6],
    [13, 26, 94, 100, 9, 8, 7, 6], [14, 28, 108, 101, 9, 8, 7, 6],
    [15, 30, 123, 102, 9, 8, 7, 6], [16, 32, 139, 103, 9, 8, 7, 6]]

/-- The two query vectors of the training test of the package. -/
def testQueries : List (List ℚ) :=
  [[1, 2, 3, 4, 5, 6, 7, 8], [9, 8, 7, 6, 5, 4, 3, 2]]

/-- The model of the training test: `TrainMaddness(examples, queryVectors, 4)`. -/
def testModel : Maddness :=
  (TrainMaddness unitStep testExamples testQueries 4).getD
    { NumSubspaces := 0, VectorSize := 0, SubVectorSize := 0, Hashes := [], LookupTables := [] }

/-- The value that the heap compares at position `p` of an index slice:
`vector[indices[p]]`. -/
def heapKey (vector : List ℚ) (indices : List Nat) (p : Nat) : ℚ :=
  vector.getD (indices.getD p 0) 0

/-- The max-heap order on the first `n` positions of an index slice, for every
child whose parent position is at least `lo`: the value at the parent
`(c-1)/2` is not below the value at the child `c`. -/
def HeapFrom (vector : List ℚ) (indices : List Nat) (n lo : Nat) : Prop :=
  ∀ c, c < n → 0 < c → lo ≤ (c - 1) / 2 →
    heapKey vector indices c ≤ heapKey vector indices ((c - 1) / 2)

/-- What holds when `down` is entered at position `i`: the heap order for every
parent at or after `lo` other than `i`, and the children of `i` are not above
the parent of `i` when that parent is at or after `lo`. -/
def SiftInv (vector : List ℚ) (indices : List Nat) (n lo i : Nat) : Prop :=
  (∀ c, c < n → 0 < c → lo ≤ (c - 1) / 2 → (c - 1) / 2 ≠ i →
    heapKey vector indices c ≤ heapKey vector indices ((c - 1) / 2)) ∧
  ∀ c, c < n → 0 < c → (c - 1) / 2 = i → 0 < i → lo ≤ (i - 1) / 2 →
    heapKey vector indices c ≤ heapKey vector indices ((i - 1) / 2)

/-- The element-wise sum, at column `j`, of the `ColumnWiseVariance` vectors
of the buckets. -/
def sumOfVariances (bs : List Bucket) (j : Nat) : ℚ :=
  (bs.map fun b => ((Vectors.ColumnWiseVariance b.Vectors).getD []).getD j 0).sum

/-- The two buckets of the test of `HeuristicSelectIndices`. -/
def testBuckets : List Bucket :=
  [{ Level := 0, NodeIndex := 0,
      Vectors := [[0, 12, 0, 0, 0], [3, 15, 0, 3, 0], [6, 21, 9, 3, 0]] },
    { Level := 0, NodeIndex := 1, Vectors := [[0, 0, 0, 0, 10], [4, 2, 0, 6, 30]] }]

/-- The sum of the squares of column `j` over the rows of a matrix. -/
def colSq (vs : List (List ℚ)) (j : Nat) : ℚ :=
  (vs.map fun r => r.getD j 0 * r.getD j 0).sum

/-- The mean of column `j` over the rows of a matrix. -/
def colMean (vs : List (List ℚ)) (j : Nat) : ℚ :=
  colSum vs j / (vs.length : ℚ)

/-- The error sum of squares of a matrix, in the words of the specification:
the sum, over the columns, of the squared deviations of the entries of the
column from the mean of the column. The columns are those of the first row. -/
def SSE (vs : List (List ℚ)) : ℚ :=
  ∑ j ∈ Finset.range (vs.headD []).length,
    (vs.map fun r => (r.getD j 0 - colMean vs j) ^ 2).sum

/-- The value that `CumulativeSSE` accumulates for the rows `vs`: the sum over
the first `M` columns of `sumOfSquares[j] - sum[j]*sum[j]/n`. -/
def sseRaw (M : Nat) (vs : List (List ℚ)) : ℚ :=
  ∑ j ∈ Finset.range M, (colSq vs j - colSum vs j * colSum vs j / (vs.length : ℚ))

/-- The loss of the contiguous split of `sorted` after position `n`:
`SSE(sorted[0..n]) + SSE(sorted[n+1..])`. -/
def splitLoss (sorted : List (List ℚ)) (n : Nat) : ℚ :=
  SSE (sorted.take (n + 1)) + SSE (sorted.drop (n + 1))

/-- The total loss of the candidate column `c`: the sum over the buckets of
the losses that `OptimalSplitThreshold` returns for `c`. -/
def totalLoss (na : Nextafter32) (bs : List Bucket) (c : Nat) : ℚ :=
  (bs.map fun b => ((Vectors.OptimalSplitThreshold na b.Vectors c).map Prod.snd).getD 0).sum

/-- The thresholds of the candidate column `c`: for every bucket, the
threshold that `OptimalSplitThreshold` returns for `c`. -/
def thresholdsOf (na : Nextafter32) (bs : List Bucket) (c : Nat) : List ℚ :=
  bs.map fun b => ((Vectors.OptimalSplitThreshold na b.Vectors c).map Prod.fst).getD 0

/-! # Theorems -/

theorem rect_tail {M : Nat} {v : List ℚ} {vs : List (List ℚ)} (h : Rect M (v :: vs)) :
    Rect M vs :=
  fun w hw => h w (List.mem_cons_of_mem _ hw)

theorem rect_head {M : Nat} {v : List ℚ} {vs : List (List ℚ)} (h : Rect M (v :: vs)) :
    v.length = M :=
  h v (List.mem_cons_self _ _)

theorem rect_of_perm {M : Nat} {vs ws : List (List ℚ)} (h : Rect M vs) (p : ws.Perm vs) :
    Rect M ws :=
  fun w hw => h w (p.subset hw)

theorem rangeUpdate_length (f : ℚ → ℚ → ℚ) (v other : List ℚ) :
    (Vector.rangeUpdate f v other).length = v.length := by
  induction v generalizing other with
  | nil => cases other <;> simp [Vector.rangeUpdate]
  | cons a v ih => cases other <;> simp [Vector.rangeUpdate, ih]

theorem rangeUpdate_eq_zipWith (f : ℚ → ℚ → ℚ) (v other : List ℚ)
    (h : other.length = v.length) :
    Vector.rangeUpdate f v other = List.zipWith f v other := by
  induction v generalizing other with
  | nil => cases other <;> simp [Vector.rangeUpdate]
  | cons a v ih =>
    cases other with
    | nil => simp at h
    | cons x other =>
      simp only [List.length_cons, Nat.add_right_cancel_iff] at h
      simp [Vector.rangeUpdate, ih other h]

theorem boundsOK_eq_true (v other : List ℚ) (h0 : 0 < other.length)
    (h1 : other.length ≤ v.length) : Vector.boundsOK v other = true := by
  simp [Vector.boundsOK, h0, h1]

theorem Add_eq_some (v other : List ℚ) (h0 : 0 < other.length)
    (h1 : other.length ≤ v.length) :
    Vector.Add v other = some (Vector.rangeUpdate (fun a x => a + x) v other) := by
  simp [Vector.Add, boundsOK_eq_true v other h0 h1]

theorem Sub_eq_some (v other : List ℚ) (h0 : 0 < other.length)
    (h1 : other.length ≤ v.length) :
    Vector.Sub v other = some (Vector.rangeUpdate (fun a x => a - x) v other) := by
  simp [Vector.Sub, boundsOK_eq_true v other h0 h1]

theorem AddSquares_eq_some (v other : List ℚ) (h0 : 0 < other.length)
    (h1 : other.length ≤ v.length) :
    Vector.AddSquares v other = some (Vector.rangeUpdate (fun a x => a + x * x) v other) := by
  simp [Vector.AddSquares, boundsOK_eq_true v other h0 h1]

theorem DivScalar_length (v : List ℚ) (x : ℚ) : (Vector.DivScalar v x).length = v.length := by
  simp [Vector.DivScalar]

theorem Square_length (v : List ℚ) : (Vector.Square v).length = v.length := by
  simp [Vector.Square]

/-! ### ColumnWiseVariance -/

theorem sumLoop_some {M : Nat} (hM : 0 < M) (vs : List (List ℚ)) (hr : Rect M vs) :
    ∀ sum sq : List ℚ, sum.length = M → sq.length = M →
      ∃ s q, Vectors.sumLoop vs sum sq = some (s, q) ∧ s.length = M ∧ q.length = M := by
  induction vs with
  | nil => intro sum sq hs hq; exact ⟨sum, sq, rfl, hs, hq⟩
  | cons v vs ih =>
    intro sum sq hs hq
    have hv : v.length = M := (rect_head hr)
    have h1 := Add_eq_some (sum)
      (v) (by omega) (by omega)
    have h2 := AddSquares_eq_some (sq)
      (v) (by omega) (by omega)
    simp only [Vectors.sumLoop, h1, h2, Option.some_bind]
    exact ih (rect_tail hr) _ _ (by simp [rangeUpdate_length, hs])
      (by simp [rangeUpdate_length, hq])

theorem ColumnWiseVariance_some {M : Nat} (hM : 0 < M) (vs : List (List ℚ)) (hne : vs ≠ [])
    (hr : Rect M vs) :
    ∃ var, Vectors.ColumnWiseVariance vs = some var ∧ var.length = M := by
  cases vs with
  | nil => exact absurd rfl hne
  | cons v0 rest =>
    have hv : v0.length = M := (rect_head hr)
    obtain ⟨s, q, hsq, hs, hq⟩ := sumLoop_some hM (v0 :: rest) hr
      (List.replicate v0.length 0) (List.replicate v0.length 0) (by simp [hv]) (by simp [hv])
    have h3 := Sub_eq_some (Vector.DivScalar q ((v0 :: rest).length : ℚ))
      (Vector.Square (Vector.DivScalar s ((v0 :: rest).length : ℚ)))
      (by simp [Square_length, DivScalar_length, hs, hM])
      (by simp [Square_length, DivScalar_length, hs, hq])
    have h4 : Vectors.ColumnWiseVariance (v0 :: rest) = some
        (Vector.rangeUpdate (fun a x => a - x) (Vector.DivScalar q ((v0 :: rest).length : ℚ))
          (Vector.Square (Vector.DivScalar s ((v0 :: rest).length : ℚ)))) := by
      simp only [Vectors.ColumnWiseVariance, hsq, Option.some_bind]
      exact h3
    exact ⟨_, h4, by simp [rangeUpdate_length, DivScalar_length, hq]⟩

/-! ### The heap keeps its indices inside the vector -/

theorem getD_lt_of_all_lt {M : Nat} (hM : 0 < M) {idx : List Nat} (h : ∀ x ∈ idx, x < M)
    (j : Nat) : idx.getD j 0 < M := by
  by_cases hj : j < idx.length
  · rw [List.getD_eq_getElem _ _ hj]
    exact h _ (List.getElem_mem _)
  · rw [List.getD_eq_default _ _ (by omega)]
    exact hM

theorem Swap_length (idx : List Nat) (i j : Nat) :
    (ArgMaxHeap.Swap idx i j).length = idx.length := by
  simp [ArgMaxHeap.Swap]

theorem Swap_all_lt {M : Nat} (hM : 0 < M) {idx : List Nat} (h : ∀ x ∈ idx, x < M)
    (i j : Nat) : ∀ x ∈ ArgMaxHeap.Swap idx i j, x < M := by
  intro x hx
  unfold ArgMaxHeap.Swap at hx
  rcases List.mem_or_eq_of_mem_set hx with h1 | h1
  · rcases List.mem_or_eq_of_mem_set h1 with h2 | h2
    · exact h x h2
    · rw [h2]; exact getD_lt_of_all_lt hM h j
  · rw [h1]; exact getD_lt_of_all_lt hM h i

theorem down_length (vector : List ℚ) (fuel : Nat) :
    ∀ (idx : List Nat) (i n : Nat), (ArgMaxHeap.down vector fuel idx i n).length = idx.length := by
  induction fuel with
  | zero => intro idx i n; rfl
  | succ fuel ih =>
    intro idx i n
    simp only [ArgMaxHeap.down]
    split_ifs <;> first | rfl | (rw [ih, Swap_length])

theorem down_all_lt {M : Nat} (hM : 0 < M) (vector : List ℚ) (fuel : Nat) :
    ∀ (idx : List Nat) (i n : Nat), (∀ x ∈ idx, x < M) →
      ∀ x ∈ ArgMaxHeap.down vector fuel idx i n, x < M := by
  induction fuel with
  | zero => intro idx i n h; exact h
  | succ fuel ih =>
    intro idx i n h
    simp only [ArgMaxHeap.down]
    split_ifs <;> first | exact h | exact ih _ _ _ (Swap_all_lt hM h _ _)

theorem foldr_down_spec {M : Nat} (hM : 0 < M) (vector : List ℚ) (n : Nat) (idx : List Nat)
    (h : ∀ x ∈ idx, x < M) (l : List Nat) :
    (l.foldr (fun i acc => ArgMaxHeap.down vector n acc i n) idx).length = idx.length ∧
      ∀ x ∈ l.foldr (fun i acc => ArgMaxHeap.down vector n acc i n) idx, x < M := by
  induction l with
  | nil => exact ⟨rfl, h⟩
  | cons i l ih =>
    simp only [List.foldr_cons]
    exact ⟨by rw [down_length]; exact ih.1, down_all_lt hM vector _ _ _ _ ih.2⟩

theorem init_spec {M : Nat} (hM : 0 < M) (vector : List ℚ) (idx : List Nat)
    (h : ∀ x ∈ idx, x < M) :
    (ArgMaxHeap.init vector idx).length = idx.length ∧
      ∀ x ∈ ArgMaxHeap.init vector idx, x < M :=
  foldr_down_spec hM vector idx.length idx h _

theorem heapPop_spec {M : Nat} (hM : 0 < M) (vector : List ℚ) (idx : List Nat)
    (hpos : 0 < idx.length) (h : ∀ x ∈ idx, x < M) :
    ∃ rest x, ArgMaxHeap.heapPop vector idx = some (rest, x) ∧
      rest.length = idx.length - 1 ∧ (∀ y ∈ rest, y < M) ∧ x < M := by
  have hl : (ArgMaxHeap.down vector (idx.length - 1) (ArgMaxHeap.Swap idx 0 (idx.length - 1)) 0
      (idx.length - 1)).length = idx.length := by
    rw [down_length, Swap_length]
  have hall := down_all_lt hM vector (idx.length - 1) _ 0 (idx.length - 1)
    (Swap_all_lt hM h 0 (idx.length - 1))
  simp only [ArgMaxHeap.heapPop]
  generalize ArgMaxHeap.down vector (idx.length - 1) (ArgMaxHeap.Swap idx 0 (idx.length - 1)) 0
      (idx.length - 1) = sifted at hl hall
  have hlt : sifted.length - 1 < sifted.length := by omega
  refine ⟨sifted.take (sifted.length - 1), sifted[sifted.length - 1], ?_, ?_, ?_, ?_⟩
  · rw [List.get?_eq_getElem?, List.getElem?_eq_getElem hlt]; rfl
  · simp [hl]
  · intro y hy; exact hall y (List.mem_of_mem_take hy)
  · exact hall _ (List.getElem_mem _)

theorem popLoop_spec {M : Nat} (hM : 0 < M) (vector : List ℚ) (k : Nat) :
    ∀ idx : List Nat, k ≤ idx.length → (∀ x ∈ idx, x < M) →
      ∃ out, ArgMaxHeap.popLoop vector k idx = some out ∧ out.length = k ∧
        ∀ x ∈ out, x < M := by
  induction k with
  | zero => intro idx _ _; exact ⟨[], rfl, rfl, by simp⟩
  | succ k ih =>
    intro idx hk h
    obtain ⟨rest, x, hpop, hlen, hrest, hx⟩ := heapPop_spec hM vector idx (by omega) h
    obtain ⟨out, hout, houtlen, houtall⟩ := ih rest (by omega) hrest
    refine ⟨x :: out, ?_, by simp [houtlen], ?_⟩
    · simp only [ArgMaxHeap.popLoop, hpop, Option.some_bind, hout, Option.map_some']
    · intro y hy
      rcases List.mem_cons.mp hy with h1 | h1
      · rw [h1]; exact hx
      · exact houtall y h1

theorem FirstArgsMax_spec (v : List ℚ) (hv : 0 < v.length) (n : Nat) :
    ∃ out, ArgMaxHeap.FirstArgsMax (NewArgMaxHeap v) n = some out ∧
      out.length = min n v.length ∧ ∀ x ∈ out, x < v.length := by
  have hr : ∀ x ∈ List.range v.length, x < v.length := fun x hx => List.mem_range.mp hx
  obtain ⟨hlen, hall⟩ := init_spec hv v (List.range v.length) hr
  rw [List.length_range] at hlen
  simp only [ArgMaxHeap.FirstArgsMax, NewArgMaxHeap, hlen]
  by_cases hn : v.length < n
  · obtain ⟨out, h1, h2, h3⟩ := popLoop_spec hv v v.length _ (by omega) hall
    exact ⟨out, by simp [hn, h1], by omega, h3⟩
  · obtain ⟨out, h1, h2, h3⟩ := popLoop_spec hv v n _ (by omega) hall
    exact ⟨out, by simp [hn, h1], by omega, h3⟩

/-! ### HeuristicSelectIndices -/

theorem varianceLoop_some {M : Nat} (hM : 0 < M) (bs : List Bucket) (hg : GoodBuckets M bs) :
    ∀ acc : List ℚ, acc.length = M →
      ∃ s, Buckets.varianceLoop bs acc = some s ∧ s.length = M := by
  induction bs with
  | nil => intro acc h; exact ⟨acc, rfl, h⟩
  | cons b bs ih =>
    intro acc h
    obtain ⟨var, hvar, hlen⟩ := ColumnWiseVariance_some hM b.Vectors
      (hg b (List.mem_cons_self _ _)).1 (hg b (List.mem_cons_self _ _)).2
    have hadd := Add_eq_some (acc)
      (var) (by omega) (by omega)
    simp only [Buckets.varianceLoop, hvar, Option.some_bind, hadd]
    exact ih (fun b hb => hg b (List.mem_cons_of_mem _ hb)) _ (by simp [rangeUpdate_length, h])

theorem HeuristicSelectIndices_spec {M : Nat} (hM : 0 < M) (bs : List Bucket) (hne : bs ≠ [])
    (hg : GoodBuckets M bs) :
    ∃ indices, Buckets.HeuristicSelectIndices bs = some indices ∧
      indices.length = min 4 M ∧ ∀ c ∈ indices, c < M := by
  cases bs with
  | nil => exact absurd rfl hne
  | cons b0 rest =>
    obtain ⟨var, hvar, hlen⟩ := ColumnWiseVariance_some hM b0.Vectors
      (hg b0 (List.mem_cons_self _ _)).1 (hg b0 (List.mem_cons_self _ _)).2
    obtain ⟨s, hs, hslen⟩ := varianceLoop_some hM rest
      (fun b hb => hg b (List.mem_cons_of_mem _ hb)) var hlen
    obtain ⟨out, h1, h2, h3⟩ := FirstArgsMax_spec s (by omega) 4
    refine ⟨out, ?_, by rw [h2, hslen], fun c hc => by rw [← hslen]; exact h3 c hc⟩
    simp only [Buckets.HeuristicSelectIndices, hvar, Option.some_bind, hs, h1]

/-! ### SortByColumn, CumulativeSSE, ArgMin -/

theorem SortByColumn_spec (vs : List (List ℚ)) (index : Nat)
    (h : ∀ v ∈ vs, index < v.length) :
    ∃ sorted, Vectors.SortByColumn vs index = some sorted ∧ sorted.Perm vs := by
  unfold Vectors.SortByColumn
  by_cases h1 : vs.length ≤ 1
  · exact ⟨vs, by simp [h1], List.Perm.refl _⟩
  · have hall : vs.all (fun v => decide (index < v.length)) = true := by
      simpa [List.all_eq_true] using h
    exact ⟨vs.insertionSort (Vectors.colLE index), by simp [h1, hall],
      List.perm_insertionSort _ _⟩

theorem sseLoop_some {M : Nat} (hM : 0 < M) (rest : List (List ℚ)) (hr : Rect M rest) :
    ∀ (i : Nat) (sum sq : List ℚ), sum.length = M → sq.length = M →
      ∃ out, Vectors.sseLoop rest i sum sq = some out ∧ out.length = rest.length := by
  induction rest with
  | nil => intro i sum sq _ _; exact ⟨[], rfl, rfl⟩
  | cons v rest ih =>
    intro i sum sq hs hq
    have hv : v.length = M := (rect_head hr)
    have hb : Vector.boundsOK sum v = true := boundsOK_eq_true sum v (by omega) (by omega)
    obtain ⟨out, hout, hlen⟩ := ih (rect_tail hr) (i + 1)
      (Vector.rangeUpdate (fun a x => a + x) sum v)
      (Vector.rangeUpdate (fun a x => a + x * x) sq v)
      (by simp [rangeUpdate_length, hs]) (by simp [rangeUpdate_length, hq])
    have h1 : Vectors.sseLoop (v :: rest) i sum sq = some
        (Vectors.rowSSE (Vector.rangeUpdate (fun a x => a + x) sum v)
          (Vector.rangeUpdate (fun a x => a + x * x) sq v) v.length i 0 :: out) := by
      simp only [Vectors.sseLoop, hb, if_true, hout, Option.map_some']
    exact ⟨_, h1, by simp [hlen]⟩

theorem CumulativeSSE_some {M : Nat} (hM : 0 < M) (vs : List (List ℚ)) (hne : vs ≠ [])
    (hr : Rect M vs) :
    ∃ out, Vectors.CumulativeSSE vs = some out ∧ out.length = vs.length := by
  cases vs with
  | nil => exact absurd rfl hne
  | cons v0 rest =>
    have hv : v0.length = M := (rect_head hr)
    obtain ⟨out, hout, hlen⟩ := sseLoop_some hM rest (rect_tail hr) 1 v0 (v0.map fun x => x * x) hv
      (by simp [hv])
    refine ⟨0 :: out, ?_, by simp [hlen]⟩
    have h0 : ¬ v0.length = 0 := by omega
    simp only [Vectors.CumulativeSSE, h0, if_false, hout, Option.map_some']

theorem argMinLoop_lt (rest : List ℚ) :
    ∀ (i minIndex : Nat) (minVal : ℚ),
      Vector.argMinLoop rest i minIndex minVal < max (minIndex + 1) (i + rest.length) := by
  induction rest with
  | nil => intro i mi mv; simp [Vector.argMinLoop]
  | cons val rest ih =>
    intro i mi mv
    simp only [Vector.argMinLoop, List.length_cons]
    split_ifs
    · have := ih (i + 1) i val
      omega
    · have := ih (i + 1) mi mv
      omega

theorem ArgMin_some (v : List ℚ) (hne : v ≠ []) :
    ∃ n, Vector.ArgMin v = some n ∧ n < v.length := by
  cases v with
  | nil => exact absurd rfl hne
  | cons x rest =>
    refine ⟨_, rfl, ?_⟩
    have := argMinLoop_lt (x :: rest) 0 0 x
    simp only [List.length_cons] at this ⊢
    omega

theorem get?_some_of_lt {α : Type} (l : List α) (n : Nat) (h : n < l.length) :
    l.get? n = some (l.get ⟨n, h⟩) := by
  simp [List.get?_eq_getElem?, List.getElem?_eq_getElem h]

/-! ### OptimalSplitThreshold returns a pair -/

theorem OptimalSplitThreshold_some (na : Nextafter32) {M : Nat} (vs : List (List ℚ))
    (hne : vs ≠ []) (hr : Rect M vs) (c : Nat) (hc : c < M) :
    ∃ t l, Vectors.OptimalSplitThreshold na vs c = some (t, l) := by
  have hM : 0 < M := by omega
  obtain ⟨sorted0, hsort, hperm⟩ := SortByColumn_spec vs c (fun v hv => by rw [hr v hv]; exact hc)
  have hr0 : Rect M sorted0 := rect_of_perm hr hperm
  have hlen0 : sorted0.length = vs.length := hperm.length_eq
  have hpos : 0 < vs.length := List.length_pos.mpr hne
  obtain ⟨sorted, hsdef⟩ :
      ∃ s, s = (if sorted0.length = 1 then sorted0 ++ sorted0.take 1 else sorted0) := ⟨_, rfl⟩
  have hrs : Rect M sorted := by
    rw [hsdef]
    split_ifs
    · intro v hv
      rcases List.mem_append.mp hv with h1 | h1
      · exact hr0 v h1
      · exact hr0 v (List.mem_of_mem_take h1)
    · exact hr0
  have hlen : 2 ≤ sorted.length := by
    rw [hsdef]
    split_ifs with h1
    · simp [h1]
    · omega
  have hsne : sorted ≠ [] := by
    intro h; rw [h] at hlen; simp at hlen
  obtain ⟨head, hhead, hheadlen⟩ := CumulativeSSE_some hM sorted hsne hrs
  obtain ⟨tail0, htail, htaillen⟩ := CumulativeSSE_some hM sorted.reverse
    (by simpa using hsne) (rect_of_perm hrs (List.reverse_perm _))
  rw [List.length_reverse] at htaillen
  have hadd := Add_eq_some (head.take (head.length - 1))
      ((Vector.Reverse tail0).drop 1)
    (by simp [Vector.Reverse]; omega) (by simp [Vector.Reverse]; omega)
  obtain ⟨front, hfdef⟩ : ∃ f, f = Vector.rangeUpdate (fun a x => a + x)
      (head.take (head.length - 1)) ((Vector.Reverse tail0).drop 1) := ⟨_, rfl⟩
  rw [← hfdef] at hadd
  have hfrontlen : front.length = sorted.length - 1 := by
    rw [hfdef, rangeUpdate_length]; simp; omega
  have hlosslen : (front ++ head.drop (head.length - 1)).length = sorted.length := by
    simp [hfrontlen]; omega
  obtain ⟨n, hn, hnlt⟩ := ArgMin_some (front ++ head.drop (head.length - 1))
    (by intro h; rw [h] at hlosslen; simp at hlosslen; omega)
  rw [hlosslen] at hnlt
  have hrow : (sorted.get ⟨n, hnlt⟩).length = M := hrs _ (List.get_mem _ _ _)
  have hx : c < (sorted.get ⟨n, hnlt⟩).length := by omega
  have hloss := get?_some_of_lt (front ++ head.drop (head.length - 1)) n (by omega)
  unfold Vectors.OptimalSplitThreshold
  simp only [Vectors.Copy, Vectors.Reverse, hsort, Option.some_bind, ← hsdef, hhead, htail,
    Option.map_some', hadd, hn, get?_some_of_lt sorted n hnlt, get?_some_of_lt _ c hx, hloss]
  by_cases hn1 : n < sorted.length - 1
  · have hn2 : n + 1 < sorted.length := by omega
    have hrow1 : (sorted.get ⟨n + 1, hn2⟩).length = M := hrs _ (List.get_mem _ _ _)
    have hx1 : c < (sorted.get ⟨n + 1, hn2⟩).length := by omega
    simp only [hn1, if_true, get?_some_of_lt sorted (n + 1) hn2, Option.some_bind,
      get?_some_of_lt _ c hx1, Option.map_some']
    exact ⟨_, _, rfl⟩
  · simp only [hn1, if_false, Option.some_bind]
    exact ⟨_, _, rfl⟩

/-! ### The candidate loops of nextHashingTreeLevel -/

theorem goodBuckets_tail {M : Nat} {b : Bucket} {bs : List Bucket} (h : GoodBuckets M (b :: bs)) :
    GoodBuckets M bs :=
  fun x hx => h x (List.mem_cons_of_mem _ hx)

theorem lossLoop_spec (na : Nextafter32) {M : Nat} (c : Nat) (hc : c < M) (bs : List Bucket)
    (hg : GoodBuckets M bs) :
    ∀ (ths : List ℚ) (loss : ℚ), ∃ ts l,
      lossLoop na c bs ths loss = some (ths ++ ts, l) ∧ ts.length = bs.length := by
  induction bs with
  | nil => intro ths loss; exact ⟨[], loss, by simp [lossLoop], rfl⟩
  | cons b bs ih =>
    intro ths loss
    obtain ⟨t, l, htl⟩ := OptimalSplitThreshold_some na b.Vectors
      (hg b (List.mem_cons_self _ _)).1 (hg b (List.mem_cons_self _ _)).2 c hc
    obtain ⟨ts, l2, h2, hlen⟩ := ih (goodBuckets_tail hg) (ths ++ [t]) (loss + l)
    refine ⟨t :: ts, l2, ?_, by simp [hlen]⟩
    simp only [lossLoop, htl, Option.some_bind, h2]
    simp

theorem selectLoop_spec (na : Nextafter32) {M : Nat} (bs : List Bucket)
    (hg : GoodBuckets M bs) (indices : List Nat) :
    (∀ c ∈ indices, c < M) → ∀ best, BestOK M bs.length best →
      ∃ r, selectLoop na bs indices best = some r ∧ BestOK M bs.length r ∧
        (indices ≠ [] → r ≠ none) ∧ (best ≠ none → r ≠ none) := by
  induction indices with
  | nil =>
    intro _ best hb
    exact ⟨best, rfl, hb, fun h => absurd rfl h, fun h => h⟩
  | cons c rest ih =>
    intro hidx best hb
    obtain ⟨ts, l, htl, hlen⟩ := lossLoop_spec na c (hidx c (List.mem_cons_self _ _)) bs hg [] 0
    simp only [List.nil_append] at htl
    simp only [selectLoop, htl, Option.some_bind]
    have hrest : ∀ x ∈ rest, x < M := fun x hx => hidx x (List.mem_cons_of_mem _ hx)
    cases best with
    | none =>
      obtain ⟨r, h1, h2, _, h4⟩ := ih hrest (some (l, c, ts))
        (by
          intro b hbe
          cases hbe
          exact ⟨hidx c (List.mem_cons_self _ _), hlen⟩)
      exact ⟨r, by simpa using h1, h2, fun _ => h4 (by simp), fun h => absurd rfl h⟩
    | some b0 =>
      by_cases hlt : l < b0.1
      · obtain ⟨r, h1, h2, _, h4⟩ := ih hrest (some (l, c, ts))
          (by
            intro b hbe
            cases hbe
            exact ⟨hidx c (List.mem_cons_self _ _), hlen⟩)
        exact ⟨r, by simpa [hlt] using h1, h2, fun _ => h4 (by simp), fun _ => h4 (by simp)⟩
      · obtain ⟨r, h1, h2, _, h4⟩ := ih hrest (some b0) hb
        exact ⟨r, by simpa [hlt] using h1, h2, fun _ => h4 (by simp), fun _ => h4 (by simp)⟩

/-! ### SplitByThreshold and the repair of an empty side -/

theorem SplitByThreshold_spec (vs : List (List ℚ)) (c : Nat) (t : ℚ)
    (h : ∀ v ∈ vs, c < v.length) :
    Vectors.SplitByThreshold vs c t = some (vs.filter (below c t), vs.filter (notBelow c t)) := by
  induction vs with
  | nil => rfl
  | cons v vs ih =>
    have hv : c < v.length := h v (List.mem_cons_self _ _)
    have ih1 := ih (fun w hw => h w (List.mem_cons_of_mem _ hw))
    have hget : v.get? c = some (v.getD c 0) := by
      rw [List.get?_eq_getElem?, List.getElem?_eq_getElem hv, List.getD_eq_getElem _ _ hv]
    simp only [Vectors.SplitByThreshold, hget, ih1, Option.map_some']
    by_cases hlt : v.getD c 0 < t
    · have h1 : below c t v = true := decide_eq_true hlt
      have h2 : ¬ (notBelow c t v = true) := by simp [notBelow, h1]
      rw [if_pos hlt, List.filter_cons_of_pos h1, List.filter_cons_of_neg h2]
    · have h0 : below c t v = false := decide_eq_false hlt
      have h1 : ¬ (below c t v = true) := by rw [h0]; exact Bool.false_ne_true
      have h2 : notBelow c t v = true := by unfold notBelow; rw [h0]; rfl
      rw [if_neg hlt, List.filter_cons_of_neg h1, List.filter_cons_of_pos h2]

theorem repairLt_spec (na : Nextafter32) {M : Nat} (gte : List (List ℚ)) (c : Nat) (hc : c < M)
    (hne : gte ≠ []) (hr : Rect M gte) :
    ∃ v, repairLt na gte c = some [v] ∧ v.length = M := by
  obtain ⟨sorted, hsort, hperm⟩ := SortByColumn_spec gte c (fun v hv => by rw [hr v hv]; exact hc)
  have hlen : 0 < sorted.length := by
    rw [hperm.length_eq]; exact List.length_pos.mpr hne
  have hrow : (sorted.get ⟨0, hlen⟩).length = M := (rect_of_perm hr hperm) _ (List.get_mem _ _ _)
  have hx : c < (sorted.get ⟨0, hlen⟩).length := by omega
  refine ⟨(sorted.get ⟨0, hlen⟩).set c (na.down ((sorted.get ⟨0, hlen⟩).get ⟨c, hx⟩)), ?_, ?_⟩
  · simp only [repairLt, Vectors.Copy, Vector.Copy, hsort, Option.some_bind,
      get?_some_of_lt sorted 0 hlen, get?_some_of_lt _ c hx, Option.map_some']
  · simpa using hrow

theorem repairGte_spec (na : Nextafter32) {M : Nat} (lt : List (List ℚ)) (c : Nat) (hc : c < M)
    (hne : lt ≠ []) (hr : Rect M lt) :
    ∃ v, repairGte na lt c = some [v] ∧ v.length = M := by
  obtain ⟨sorted, hsort, hperm⟩ := SortByColumn_spec lt c (fun v hv => by rw [hr v hv]; exact hc)
  have hpos : 0 < lt.length := List.length_pos.mpr hne
  have hlen : lt.length - 1 < sorted.length := by
    rw [hperm.length_eq]; omega
  have hrow : (sorted.get ⟨lt.length - 1, hlen⟩).length = M :=
    (rect_of_perm hr hperm) _ (List.get_mem _ _ _)
  have hx : c < (sorted.get ⟨lt.length - 1, hlen⟩).length := by omega
  have h0 : ¬ lt.length = 0 := by omega
  refine ⟨(sorted.get ⟨lt.length - 1, hlen⟩).set c
    (na.up ((sorted.get ⟨lt.length - 1, hlen⟩).get ⟨c, hx⟩)), ?_, ?_⟩
  · simp only [repairGte, Vectors.Copy, Vector.Copy, hsort, Option.some_bind, h0, if_false,
      get?_some_of_lt sorted _ hlen, get?_some_of_lt _ c hx, Option.map_some']
  · simpa using hrow

/-! ### One bucket is split into two non-empty children -/

theorem mem_filter_below {vs : List (List ℚ)} {c : Nat} {t : ℚ} {e : List ℚ} (he : e ∈ vs)
    (h : e.getD c 0 < t) : e ∈ vs.filter (below c t) :=
  List.mem_filter.mpr ⟨he, decide_eq_true h⟩

theorem mem_filter_notBelow {vs : List (List ℚ)} {c : Nat} {t : ℚ} {e : List ℚ} (he : e ∈ vs)
    (h : ¬ e.getD c 0 < t) : e ∈ vs.filter (notBelow c t) := by
  refine List.mem_filter.mpr ⟨he, ?_⟩
  unfold notBelow below
  rw [decide_eq_false h]
  rfl

theorem rect_filter {M : Nat} {vs : List (List ℚ)} (h : Rect M vs) (p : List ℚ → Bool) :
    Rect M (vs.filter p) :=
  fun v hv => h v (List.mem_filter.mp hv).1

theorem splitOne_spec (na : Nextafter32) {M : Nat} (vs : List (List ℚ)) (c : Nat) (hc : c < M)
    (t : ℚ) (hne : vs ≠ []) (hr : Rect M vs) :
    ∃ lt gte,
      (if (vs.filter (below c t)).length = 0 then repairLt na (vs.filter (notBelow c t)) c
        else some (vs.filter (below c t))) = some lt ∧
      (if (vs.filter (notBelow c t)).length = 0 then repairGte na lt c
        else some (vs.filter (notBelow c t))) = some gte ∧
      lt ≠ [] ∧ gte ≠ [] ∧ Rect M lt ∧ Rect M gte ∧
      (∀ e ∈ vs.filter (below c t), e ∈ lt) ∧ (∀ e ∈ vs.filter (notBelow c t), e ∈ gte) := by
  obtain ⟨v, hv⟩ := List.exists_mem_of_ne_nil vs hne
  by_cases h1 : (vs.filter (below c t)).length = 0
  · have hlt0 : vs.filter (below c t) = [] := List.length_eq_zero.mp h1
    have hvg : v ∈ vs.filter (notBelow c t) := by
      by_cases hb : v.getD c 0 < t
      · have := mem_filter_below hv hb
        rw [hlt0] at this
        exact absurd this (List.not_mem_nil _)
      · exact mem_filter_notBelow hv hb
    have hgne : vs.filter (notBelow c t) ≠ [] := List.ne_nil_of_mem hvg
    have hglen : ¬ (vs.filter (notBelow c t)).length = 0 := by
      intro h; exact hgne (List.length_eq_zero.mp h)
    obtain ⟨w, hw, hwlen⟩ := repairLt_spec na (vs.filter (notBelow c t)) c hc hgne
      (rect_filter hr _)
    refine ⟨[w], vs.filter (notBelow c t), by rw [if_pos h1]; exact hw, by rw [if_neg hglen],
      by simp, hgne, ?_, rect_filter hr _, ?_, fun e he => he⟩
    · intro x hx
      rw [List.mem_singleton.mp hx]; exact hwlen
    · intro e he
      rw [hlt0] at he
      exact absurd he (List.not_mem_nil _)
  · have hlne : vs.filter (below c t) ≠ [] := by
      intro h; exact h1 (by rw [h]; rfl)
    by_cases h2 : (vs.filter (notBelow c t)).length = 0
    · have hg0 : vs.filter (notBelow c t) = [] := List.length_eq_zero.mp h2
      obtain ⟨w, hw, hwlen⟩ := repairGte_spec na (vs.filter (below c t)) c hc hlne
        (rect_filter hr _)
      refine ⟨vs.filter (below c t), [w], by rw [if_neg h1], by rw [if_pos h2]; exact hw,
        hlne, by simp, rect_filter hr _, ?_, fun e he => he, ?_⟩
      · intro x hx
        rw [List.mem_singleton.mp hx]; exact hwlen
      · intro e he
        rw [hg0] at he
        exact absurd he (List.not_mem_nil _)
    · have hgne : vs.filter (notBelow c t) ≠ [] := by
        intro h; exact h2 (by rw [h]; rfl)
      exact ⟨vs.filter (below c t), vs.filter (notBelow c t), by rw [if_neg h1],
        by rw [if_neg h2], hlne, hgne, rect_filter hr _, rect_filter hr _, fun e he => he,
        fun e he => he⟩

theorem splitLoop_spec (na : Nextafter32) {M : Nat} (c : Nat) (hc : c < M) (ths : List ℚ)
    (bs : List Bucket) (hg : GoodBuckets M bs) :
    ∀ j, j + bs.length ≤ ths.length →
      ∃ nb, splitLoop na c ths bs j = some nb ∧ nb.length = 2 * bs.length ∧
        GoodBuckets M nb ∧
        ∀ k b, bs.get? k = some b → ∀ e ∈ b.Vectors,
          ∃ t child, ths.get? (j + k) = some t ∧
            nb.get? (childIndex c t k e) = some child ∧ e ∈ child.Vectors := by
  induction bs with
  | nil =>
    intro j _
    exact ⟨[], rfl, rfl, fun b hb => absurd hb (List.not_mem_nil _), fun k b hk => by simp at hk⟩
  | cons b rest ih =>
    intro j hj
    simp only [List.length_cons] at hj
    have hjlt : j < ths.length := by omega
    have hb := hg b (List.mem_cons_self _ _)
    have hcols : ∀ v ∈ b.Vectors, c < v.length := fun v hv => by rw [hb.2 v hv]; exact hc
    obtain ⟨lt, gte, h1, h2, hlne, hgne, hlr, hgr, hlsub, hgsub⟩ :=
      splitOne_spec na b.Vectors c hc (ths.get ⟨j, hjlt⟩) hb.1 hb.2
    obtain ⟨nb, hnb, hnblen, hnbg, hplace⟩ := ih (goodBuckets_tail hg) (j + 1) (by omega)
    refine ⟨{ Level := b.Level + 1, NodeIndex := (j : Int) * 2, Vectors := lt } ::
      { Level := b.Level + 1, NodeIndex := (j : Int) * 2 + 1, Vectors := gte } :: nb,
      ?_, by simp [hnblen]; omega, ?_, ?_⟩
    · simp only [splitLoop, get?_some_of_lt ths j hjlt, Option.some_bind,
        SplitByThreshold_spec b.Vectors c _ hcols, h1, h2, hnb, Option.map_some']
    · intro x hx
      rcases List.mem_cons.mp hx with h | h
      · rw [h]; exact ⟨hlne, hlr⟩
      · rcases List.mem_cons.mp h with h | h
        · rw [h]; exact ⟨hgne, hgr⟩
        · exact hnbg x h
    · intro k b1 hk e he
      cases k with
      | zero =>
        simp only [List.get?_cons_zero, Option.some.injEq] at hk
        rw [← hk] at he
        by_cases hlt : e.getD c 0 < ths.get ⟨j, hjlt⟩
        · refine ⟨ths.get ⟨j, hjlt⟩,
            { Level := b.Level + 1, NodeIndex := (j : Int) * 2, Vectors := lt },
            get?_some_of_lt ths j hjlt, ?_, hlsub e (mem_filter_below he hlt)⟩
          unfold childIndex
          rw [if_pos hlt]
          rfl
        · refine ⟨ths.get ⟨j, hjlt⟩,
            { Level := b.Level + 1, NodeIndex := (j : Int) * 2 + 1, Vectors := gte },
            get?_some_of_lt ths j hjlt, ?_, hgsub e (mem_filter_notBelow he hlt)⟩
          unfold childIndex
          rw [if_neg hlt]
          rfl
      | succ k =>
        simp only [List.get?_cons_succ] at hk
        obtain ⟨t, child, ht, hchild, hmem⟩ := hplace k b1 hk e he
        refine ⟨t, child, by rw [← ht]; congr 1; omega, ?_, hmem⟩
        rw [← hchild]
        unfold childIndex
        split_ifs
        · show List.get? _ (2 * k + 1 + 1) = _
          rfl
        · show List.get? _ (2 * k + 1 + 1 + 1) = _
          rfl

theorem nextHashingTreeLevel_spec (na : Nextafter32) {M : Nat} (hM : 0 < M) (bs : List Bucket)
    (hne : bs ≠ []) (hg : GoodBuckets M bs) :
    ∃ nb lvl, nextHashingTreeLevel na bs = some (nb, lvl) ∧ nb.length = 2 * bs.length ∧
      GoodBuckets M nb ∧ lvl.SplitIndex < M ∧ lvl.SplitThresholds.length = bs.length ∧
      ∀ k b, bs.get? k = some b → ∀ e ∈ b.Vectors,
        ∃ t child, lvl.SplitThresholds.get? k = some t ∧
          nb.get? (childIndex lvl.SplitIndex t k e) = some child ∧ e ∈ child.Vectors := by
  obtain ⟨indices, hidx, hilen, hiall⟩ := HeuristicSelectIndices_spec hM bs hne hg
  have hine : indices ≠ [] := by
    intro h; rw [h] at hilen; simp at hilen; omega
  obtain ⟨r, hr, hrok, hrne, _⟩ := selectLoop_spec na bs hg indices hiall none
    (fun b hb => by cases hb)
  cases r with
  | none => exact absurd rfl (hrne hine)
  | some best =>
    obtain ⟨hc, hlen⟩ := hrok best rfl
    obtain ⟨nb, hnb, hnblen, hnbg, hplace⟩ := splitLoop_spec na best.2.1 hc best.2.2 bs hg 0
      (by omega)
    refine ⟨nb, { SplitIndex := best.2.1, SplitThresholds := best.2.2 }, ?_, hnblen, hnbg, hc,
      hlen, ?_⟩
    · simp only [nextHashingTreeLevel, hidx, Option.some_bind, hr, hnb, Option.map_some']
    · intro k b hk e he
      obtain ⟨t, child, h1, h2, h3⟩ := hplace k b hk e he
      rw [Nat.zero_add] at h1
      exact ⟨t, child, h1, h2, h3⟩

theorem placeStep_eq (bs : List Bucket) (lvl : HashingTreeLevel) {M : Nat}
    (hc : lvl.SplitIndex < M) (k : Nat) (b : Bucket) (hk : bs.get? k = some b)
    (hr : Rect M b.Vectors) (t : ℚ) (ht : lvl.SplitThresholds.get? k = some t) (e : List ℚ)
    (he : e ∈ b.Vectors) :
    placeStep bs lvl k e = some (childIndex lvl.SplitIndex t k e) := by
  have hcols : ∀ v ∈ b.Vectors, lvl.SplitIndex < v.length := fun v hv => by rw [hr v hv]; exact hc
  simp only [placeStep, hk, ht, Option.some_bind, SplitByThreshold_spec _ _ _ hcols,
    Option.map_some', childIndex]
  congr 1
  by_cases hlt : e.getD lvl.SplitIndex 0 < t
  · rw [if_pos (mem_filter_below he hlt), if_pos hlt]
  · have hnm : e ∉ b.Vectors.filter (below lvl.SplitIndex t) := by
      intro hm
      exact hlt (of_decide_eq_true (List.mem_filter.mp hm).2)
    rw [if_neg hnm, if_neg hlt]

theorem childIndex_lt (c : Nat) (t : ℚ) (k : Nat) (e : List ℚ) (n : Nat) (hk : k < n) :
    childIndex c t k e < 2 * n := by
  unfold childIndex
  split_ifs <;> omega

theorem get?_lt_length {α : Type} {l : List α} {n : Nat} {a : α} (h : l.get? n = some a) :
    n < l.length := by
  by_contra hn
  rw [List.get?_eq_none.mpr (by omega)] at h
  cases h

theorem hashLoop_step (e : List ℚ) (lvl : HashingTreeLevel) (rest : List HashingTreeLevel)
    (k : Nat) (hk : 2 * k + 2 < 256) (t : ℚ) (ht : lvl.SplitThresholds.get? k = some t)
    (hc : lvl.SplitIndex < e.length) :
    Hash.hashLoop e (lvl :: rest) (k + 1) =
      (Hash.hashLoop e rest (childIndex lvl.SplitIndex t k e + 1)).map
        fun r => (r.1, k :: r.2) := by
  have h1 : (k + 1 + 255) % 256 = k := by omega
  have h2 : (2 * (k + 1)) % 256 = 2 * k + 2 := by omega
  have hget : e.get? lvl.SplitIndex = some (e.getD lvl.SplitIndex 0) := by
    rw [List.get?_eq_getElem?, List.getElem?_eq_getElem hc, List.getD_eq_getElem _ _ hc]
  simp only [Hash.hashLoop, h1, h2, ht, Option.some_bind, hget, childIndex]
  by_cases hlt : e.getD lvl.SplitIndex 0 < t
  · have h3 : (2 * k + 2 + 255) % 256 = 2 * k + 1 := by omega
    rw [if_pos hlt, if_pos hlt, h3]
  · rw [if_neg hlt, if_neg hlt]

theorem levelsLoop_spec (na : Nextafter32) {M : Nat} (hM : 0 < M) (k : Nat) :
    ∀ bs : List Bucket, bs ≠ [] → GoodBuckets M bs →
      ∃ leaves levels, levelsLoop na k bs = some (leaves, levels) ∧
        leaves.length = 2 ^ k * bs.length ∧ GoodBuckets M leaves ∧ levels.length = k ∧
        (∀ l lvl, levels.get? l = some lvl →
          lvl.SplitIndex < M ∧ lvl.SplitThresholds.length = 2 ^ l * bs.length) ∧
        (2 ^ k * bs.length < 256 → ∀ j b, bs.get? j = some b → ∀ e ∈ b.Vectors,
          ∃ kk reads leaf, placeLoop na e k bs j = some kk ∧
            Hash.hashLoop e levels (j + 1) = some (kk + 1, reads) ∧
            leaves.get? kk = some leaf ∧ e ∈ leaf.Vectors) := by
  induction k with
  | zero =>
    intro bs _ hg
    refine ⟨bs, [], rfl, by simp, hg, rfl, fun l lvl h => by simp at h, ?_⟩
    intro _ j b hj e he
    exact ⟨j, [], b, rfl, rfl, hj, he⟩
  | succ k ih =>
    intro bs hne hg
    obtain ⟨nb, lvl, hnb, hnblen, hnbg, hc, hthlen, hplace⟩ :=
      nextHashingTreeLevel_spec na hM bs hne hg
    have hpos : 0 < bs.length := List.length_pos.mpr hne
    have hnbne : nb ≠ [] := by
      intro h
      have h0 : nb.length = 0 := by rw [h]; rfl
      omega
    obtain ⟨leaves, levels, hll, hlen, hlg, hlevlen, hlev, htrack⟩ := ih nb hnbne hnbg
    refine ⟨leaves, lvl :: levels, ?_, ?_, hlg, by simp [hlevlen], ?_, ?_⟩
    · simp only [levelsLoop, hnb, Option.some_bind, hll, Option.map_some']
    · rw [hlen, hnblen, pow_succ]; ring
    · intro l lv hl
      cases l with
      | zero =>
        simp only [List.get?_cons_zero, Option.some.injEq] at hl
        rw [← hl]
        exact ⟨hc, by simp [hthlen]⟩
      | succ l =>
        simp only [List.get?_cons_succ] at hl
        obtain ⟨h1, h2⟩ := hlev l lv hl
        exact ⟨h1, by rw [h2, hnblen, pow_succ]; ring⟩
    · intro hsmall j b hj e he
      have hjlt : j < bs.length := get?_lt_length hj
      have hpow : 1 ≤ 2 ^ k := Nat.one_le_two_pow
      have hsmall1 : 2 ^ k * nb.length < 256 := by
        rw [hnblen]
        have : 2 ^ (k + 1) * bs.length = 2 ^ k * (2 * bs.length) := by rw [pow_succ]; ring
        omega
      have hbs : 2 * bs.length < 256 := by
        have : 1 * (2 * bs.length) ≤ 2 ^ k * (2 * bs.length) := Nat.mul_le_mul_right _ hpow
        have h2 : 2 ^ (k + 1) * bs.length = 2 ^ k * (2 * bs.length) := by rw [pow_succ]; ring
        omega
      obtain ⟨t, child, ht, hchild, hmem⟩ := hplace j b hj e he
      obtain ⟨kk, reads, leaf, h1, h2, h3, h4⟩ :=
        htrack hsmall1 (childIndex lvl.SplitIndex t j e) child hchild e hmem
      have hb := hg b (List.get?_mem hj)
      have hstep := placeStep_eq bs lvl hc j b hj hb.2 t ht e he
      refine ⟨kk, j :: reads, leaf, ?_, ?_, h3, h4⟩
      · simp only [placeLoop, hnb, Option.some_bind, hstep, h1]
      · rw [hashLoop_step e lvl levels j (by omega) t ht (by rw [hb.2 e he]; exact hc), h2]
        rfl

/-! ### Mean and Prototypes -/

theorem rangeUpdate_getD (f : ℚ → ℚ → ℚ) :
    ∀ (v other : List ℚ) (j : Nat), other.length = v.length → j < v.length →
      (Vector.rangeUpdate f v other).getD j 0 = f (v.getD j 0) (other.getD j 0) := by
  intro v
  induction v with
  | nil => intro other j _ hj; simp at hj
  | cons a v ih =>
    intro other j hlen hj
    cases other with
    | nil => simp at hlen
    | cons x other =>
      cases j with
      | zero => rfl
      | succ j =>
        simp only [List.length_cons, Nat.add_lt_add_iff_right, Nat.add_right_cancel_iff] at hj hlen
        simpa [Vector.rangeUpdate] using ih other j hlen hj

theorem meanLoop_spec {M : Nat} (hM : 0 < M) (rest : List (List ℚ)) (hr : Rect M rest) :
    ∀ sum : List ℚ, sum.length = M →
      ∃ s, Vectors.meanLoop rest sum = some s ∧ s.length = M ∧
        ∀ j, j < M → s.getD j 0 = sum.getD j 0 + colSum rest j := by
  induction rest with
  | nil => intro sum hs; exact ⟨sum, rfl, hs, fun j _ => by simp [colSum]⟩
  | cons v rest ih =>
    intro sum hs
    have hv : v.length = M := (rect_head hr)
    have hadd := Add_eq_some (sum)
      (v) (by omega) (by omega)
    obtain ⟨s, h1, h2, h3⟩ := ih (rect_tail hr) (Vector.rangeUpdate (fun a x => a + x) sum v)
      (by rw [rangeUpdate_length, hs])
    refine ⟨s, by simp only [Vectors.meanLoop, hadd, Option.some_bind, h1], h2, ?_⟩
    intro j hj
    rw [h3 j hj, rangeUpdate_getD _ sum v j (by omega) (by omega)]
    simp only [colSum, List.map_cons, List.sum_cons]
    ring

theorem Mean_spec {M : Nat} (hM : 0 < M) (vs : List (List ℚ)) (hne : vs ≠ []) (hr : Rect M vs) :
    ∃ m, Vectors.Mean vs = some m ∧ m.length = M ∧
      ∀ j, j < M → m.get? j = some (colSum vs j / (vs.length : ℚ)) := by
  cases vs with
  | nil => exact absurd rfl hne
  | cons v0 rest =>
    obtain ⟨s, h1, h2, h3⟩ := meanLoop_spec hM rest (rect_tail hr) v0 (rect_head hr)
    refine ⟨Vector.DivScalar s (((v0 :: rest).length : Nat) : ℚ), ?_, by
      rw [DivScalar_length, h2], ?_⟩
    · simp only [Vectors.Mean, Vector.Copy, h1, Option.map_some']
    · intro j hj
      have hjs : j < s.length := by omega
      have h4 := h3 j hj
      rw [List.getD_eq_getElem _ _ hjs] at h4
      simp only [Vector.DivScalar, List.get?_eq_getElem?, List.getElem?_map,
        List.getElem?_eq_getElem hjs, Option.map_some', h4, colSum, List.map_cons, List.sum_cons]

theorem Mean_single (r : List ℚ) : Vectors.Mean [r] = some r := by
  simp [Vectors.Mean, Vectors.meanLoop, Vector.Copy, Vector.DivScalar]

theorem Prototypes_spec {M : Nat} (hM : 0 < M) (bs : List Bucket) (hg : GoodBuckets M bs) :
    ∃ protos, Buckets.Prototypes bs = some protos ∧ protos.length = bs.length ∧
      ∀ k b, bs.get? k = some b → ∃ p, protos.get? k = some p ∧ p.length = M ∧
        Vectors.Mean b.Vectors = some p ∧
        ∀ j, j < M → p.get? j = some (colSum b.Vectors j / (b.Vectors.length : ℚ)) := by
  induction bs with
  | nil => exact ⟨[], rfl, rfl, fun k b hk => by simp at hk⟩
  | cons b0 rest ih =>
    obtain ⟨m, hm, hmlen, hmval⟩ := Mean_spec hM b0.Vectors
      (hg b0 (List.mem_cons_self _ _)).1 (hg b0 (List.mem_cons_self _ _)).2
    obtain ⟨protos, hp, hplen, hpval⟩ := ih (goodBuckets_tail hg)
    refine ⟨m :: protos, by simp only [Buckets.Prototypes, hm, Option.some_bind, hp,
      Option.map_some'], by simp [hplen], ?_⟩
    intro k b hk
    cases k with
    | zero =>
      simp only [List.get?_cons_zero, Option.some.injEq] at hk
      rw [← hk]
      exact ⟨m, rfl, hmlen, hm, hmval⟩
    | succ k =>
      simp only [List.get?_cons_succ] at hk
      exact hpval k b hk

/-! ### Whatever nextHashingTreeLevel returns has non-empty children -/

theorem repairLt_ne_nil (na : Nextafter32) (gte : List (List ℚ)) (c : Nat) (lt : List (List ℚ))
    (h : repairLt na gte c = some lt) : lt ≠ [] := by
  simp only [repairLt, Option.bind_eq_some, Option.map_eq_some'] at h
  obtain ⟨_, _, _, _, _, _, h1⟩ := h
  rw [← h1]
  exact List.cons_ne_nil _ _

theorem repairGte_ne_nil (na : Nextafter32) (lt : List (List ℚ)) (c : Nat) (gte : List (List ℚ))
    (h : repairGte na lt c = some gte) : gte ≠ [] := by
  simp only [repairGte, Option.bind_eq_some] at h
  obtain ⟨_, _, h1⟩ := h
  split_ifs at h1
  simp only [Option.bind_eq_some, Option.map_eq_some'] at h1
  obtain ⟨_, _, _, _, h2⟩ := h1
  rw [← h2]
  exact List.cons_ne_nil _ _

theorem splitLoop_children (na : Nextafter32) (c : Nat) (ths : List ℚ) (bs : List Bucket) :
    ∀ j nb, splitLoop na c ths bs j = some nb →
      nb.length = 2 * bs.length ∧ ∀ b ∈ nb, b.Vectors ≠ [] := by
  induction bs with
  | nil =>
    intro j nb h
    simp only [splitLoop, Option.some.injEq] at h
    rw [← h]
    exact ⟨rfl, fun b hb => absurd hb (List.not_mem_nil _)⟩
  | cons b rest ih =>
    intro j nb h
    simp only [splitLoop, Option.bind_eq_some, Option.map_eq_some'] at h
    obtain ⟨t, _, p, _, lt, hlt, gte, hgte, nb1, hnb1, hnb⟩ := h
    obtain ⟨hlen, hall⟩ := ih (j + 1) nb1 hnb1
    have hltne : lt ≠ [] := by
      split_ifs at hlt with h0
      · exact repairLt_ne_nil na _ _ _ hlt
      · simp only [Option.some.injEq] at hlt
        rw [← hlt]
        intro h1; exact h0 (by rw [h1]; rfl)
    have hgtene : gte ≠ [] := by
      split_ifs at hgte with h0
      · exact repairGte_ne_nil na _ _ _ hgte
      · simp only [Option.some.injEq] at hgte
        rw [← hgte]
        intro h1; exact h0 (by rw [h1]; rfl)
    rw [← hnb]
    refine ⟨by simp [hlen]; omega, ?_⟩
    intro x hx
    rcases List.mem_cons.mp hx with h1 | h1
    · rw [h1]; exact hltne
    · rcases List.mem_cons.mp h1 with h2 | h2
      · rw [h2]; exact hgtene
      · exact hall x h2

theorem nextHashingTreeLevel_children (na : Nextafter32) (bs nb : List Bucket)
    (lvl : HashingTreeLevel) (h : nextHashingTreeLevel na bs = some (nb, lvl)) :
    nb.length = 2 * bs.length ∧ ∀ b ∈ nb, b.Vectors ≠ [] := by
  simp only [nextHashingTreeLevel, Option.bind_eq_some] at h
  obtain ⟨indices, _, best, _, h1⟩ := h
  cases best with
  | none => cases h1
  | some b =>
    simp only [Option.map_eq_some', Prod.mk.injEq] at h1
    obtain ⟨nb1, h2, h3, _⟩ := h1
    rw [← h3]
    exact splitLoop_children na _ _ bs 0 nb1 h2

/-! ### An empty side is replaced by a one-row clone -/

theorem SortByColumn_mem (vs sorted : List (List ℚ)) (c : Nat)
    (h : Vectors.SortByColumn vs c = some sorted) : ∀ r ∈ sorted, r ∈ vs := by
  unfold Vectors.SortByColumn at h
  split_ifs at h
  · simp only [Option.some.injEq] at h
    rw [← h]
    exact fun r hr => hr
  · simp only [Option.some.injEq] at h
    rw [← h]
    exact fun r hr => (List.perm_insertionSort _ _).subset hr

theorem repairLt_clone (na : Nextafter32) (gte : List (List ℚ)) (c : Nat) (lt : List (List ℚ))
    (h : repairLt na gte c = some lt) :
    ∃ r x, r ∈ gte ∧ r.get? c = some x ∧ lt = [r.set c (na.down x)] := by
  simp only [repairLt, Vectors.Copy, Vector.Copy, Option.bind_eq_some,
    Option.map_eq_some'] at h
  obtain ⟨sorted, hsort, row, hrow, x, hx, h1⟩ := h
  exact ⟨row, x, SortByColumn_mem gte sorted c hsort row (List.get?_mem hrow), hx, h1.symm⟩

theorem repairGte_clone (na : Nextafter32) (lt : List (List ℚ)) (c : Nat) (gte : List (List ℚ))
    (h : repairGte na lt c = some gte) :
    ∃ r x, r ∈ lt ∧ r.get? c = some x ∧ gte = [r.set c (na.up x)] := by
  simp only [repairGte, Vectors.Copy, Vector.Copy, Option.bind_eq_some] at h
  obtain ⟨sorted, hsort, h1⟩ := h
  split_ifs at h1
  simp only [Option.bind_eq_some, Option.map_eq_some'] at h1
  obtain ⟨row, hrow, x, hx, h2⟩ := h1
  exact ⟨row, x, SortByColumn_mem lt sorted c hsort row (List.get?_mem hrow), hx, h2.symm⟩

theorem splitLoop_repair (na : Nextafter32) (c : Nat) (ths : List ℚ) (bs : List Bucket) :
    ∀ j nb, splitLoop na c ths bs j = some nb →
      ∀ k b, bs.get? k = some b → ∃ t p c0 c1, ths.get? (j + k) = some t ∧
        Vectors.SplitByThreshold b.Vectors c t = some p ∧
        nb.get? (2 * k) = some c0 ∧ nb.get? (2 * k + 1) = some c1 ∧
        RepairedSides na c p c0.Vectors c1.Vectors := by
  induction bs with
  | nil => intro j nb _ k b hk; simp at hk
  | cons b0 rest ih =>
    intro j nb h k b hk
    simp only [splitLoop, Option.bind_eq_some, Option.map_eq_some'] at h
    obtain ⟨t, ht, p, hp, lt, hlt, gte, hgte, nb1, hnb1, hnb⟩ := h
    cases k with
    | zero =>
      simp only [List.get?_cons_zero, Option.some.injEq] at hk
      rw [← hk, ← hnb]
      refine ⟨t, p, _, _, ht, hp, rfl, rfl, ?_⟩
      show RepairedSides na c p lt gte
      by_cases h1 : p.1.length = 0
      · have hp1 : p.1 = [] := List.length_eq_zero.mp h1
        rw [if_pos h1] at hlt
        have hltne := repairLt_ne_nil na _ _ _ hlt
        obtain ⟨r, x, hr, hx, hlt1⟩ := repairLt_clone na _ _ _ hlt
        have hp2 : p.2 ≠ [] := List.ne_nil_of_mem hr
        have h2 : ¬ p.2.length = 0 := fun h0 => hp2 (List.length_eq_zero.mp h0)
        rw [if_neg h2] at hgte
        simp only [Option.some.injEq] at hgte
        exact ⟨fun hne => absurd hp1 hne, fun _ => ⟨r, x, hr, hx, hlt1⟩, fun _ => hgte.symm,
          fun he => absurd he hp2⟩
      · have hp1 : p.1 ≠ [] := fun h0 => h1 (by rw [h0]; rfl)
        rw [if_neg h1] at hlt
        simp only [Option.some.injEq] at hlt
        by_cases h2 : p.2.length = 0
        · have hp2 : p.2 = [] := List.length_eq_zero.mp h2
          rw [if_pos h2] at hgte
          obtain ⟨r, x, hr, hx, hgte1⟩ := repairGte_clone na _ _ _ hgte
          rw [← hlt] at hr
          exact ⟨fun _ => hlt.symm, fun he => absurd he hp1, fun hne => absurd hp2 hne,
            fun _ => ⟨r, x, hr, hx, hgte1⟩⟩
        · have hp2 : p.2 ≠ [] := fun h0 => h2 (by rw [h0]; rfl)
          rw [if_neg h2] at hgte
          simp only [Option.some.injEq] at hgte
          exact ⟨fun _ => hlt.symm, fun he => absurd he hp1, fun _ => hgte.symm,
            fun he => absurd he hp2⟩
    | succ k =>
      simp only [List.get?_cons_succ] at hk
      obtain ⟨t1, p1, c0, c1, h1, h2, h3, h4, h5⟩ := ih (j + 1) nb1 hnb1 k b hk
      rw [← hnb]
      refine ⟨t1, p1, c0, c1, ?_, h2, ?_, ?_, h5⟩
      · rw [← h1]
        congr 1
        omega
      · rw [← h3]
        show List.get? _ (2 * k + 1 + 1) = _
        rfl
      · rw [← h4]
        show List.get? _ (2 * k + 1 + 1 + 1) = _
        rfl

theorem nextHashingTreeLevel_repair (na : Nextafter32) (bs nb : List Bucket)
    (lvl : HashingTreeLevel) (h : nextHashingTreeLevel na bs = some (nb, lvl)) :
    ∀ k b, bs.get? k = some b → ∃ t p c0 c1, lvl.SplitThresholds.get? k = some t ∧
      Vectors.SplitByThreshold b.Vectors lvl.SplitIndex t = some p ∧
      nb.get? (2 * k) = some c0 ∧ nb.get? (2 * k + 1) = some c1 ∧
      RepairedSides na lvl.SplitIndex p c0.Vectors c1.Vectors := by
  simp only [nextHashingTreeLevel, Option.bind_eq_some] at h
  obtain ⟨indices, _, best, _, h1⟩ := h
  cases best with
  | none => cases h1
  | some b0 =>
    simp only [Option.map_eq_some', Prod.mk.injEq] at h1
    obtain ⟨nb1, h2, h3, h4⟩ := h1
    rw [← h3, ← h4]
    intro k b hk
    obtain ⟨t, p, c0, c1, h5, h6⟩ := splitLoop_repair na _ _ bs 0 nb1 h2 k b hk
    rw [Nat.zero_add] at h5
    exact ⟨t, p, c0, c1, h5, h6⟩

theorem levelsLoop_children (na : Nextafter32) (k : Nat) :
    ∀ (bs leaves : List Bucket) (levels : List HashingTreeLevel),
      levelsLoop na (k + 1) bs = some (leaves, levels) →
      leaves.length = 2 ^ (k + 1) * bs.length ∧ ∀ b ∈ leaves, b.Vectors ≠ [] := by
  induction k with
  | zero =>
    intro bs leaves levels h
    simp only [levelsLoop, Option.bind_eq_some, Option.map_eq_some', Option.some.injEq,
      Prod.mk.injEq] at h
    obtain ⟨p, hp, q, hq, h1, _⟩ := h
    rw [← h1, ← hq]
    have := nextHashingTreeLevel_children na bs p.1 p.2 hp
    exact ⟨by rw [this.1]; simp, this.2⟩
  | succ k ih =>
    intro bs leaves levels h
    rw [levelsLoop] at h
    simp only [Option.bind_eq_some, Option.map_eq_some', Prod.mk.injEq] at h
    obtain ⟨p, hp, q, hq, h1, _⟩ := h
    have hc := nextHashingTreeLevel_children na bs p.1 p.2 hp
    obtain ⟨h2, h3⟩ := ih p.1 q.1 q.2 hq
    rw [← h1]
    refine ⟨?_, h3⟩
    rw [h2, hc.1, pow_succ 2 (k + 1)]
    ring

theorem goodBuckets_root {M : Nat} (examples : List (List ℚ)) (hne : examples ≠ [])
    (hr : Rect M examples) :
    GoodBuckets M [{ Level := -1, NodeIndex := 0, Vectors := examples }] := by
  intro b hb
  rw [List.mem_singleton.mp hb]
  exact ⟨hne, hr⟩

theorem trainHash_shape (na : Nextafter32) {M : Nat} (hM : 0 < M)
    (examples : List (List ℚ)) (hex : examples ≠ []) (hrect : Rect M examples) :
    ∃ h, TrainHash na examples = some h ∧ h.TreeLevels.length = 4 ∧
      (∀ l lvl, h.TreeLevels.get? l = some lvl →
        lvl.SplitIndex < M ∧ lvl.SplitThresholds.length = 2 ^ l) ∧
      h.Prototypes.length = 16 ∧ ∀ p ∈ h.Prototypes, p.length = M := by
  obtain ⟨leaves, levels, h1, h2, h3, h4, h5, _⟩ := levelsLoop_spec na hM 4 _
    (List.cons_ne_nil _ _) (goodBuckets_root examples hex hrect)
  obtain ⟨protos, hp, hplen, hpval⟩ := Prototypes_spec hM leaves h3
  refine ⟨{ TreeLevels := levels, Prototypes := protos }, ?_, h4, ?_, ?_, ?_⟩
  · simp only [TrainHash, trainBuckets, h1, Option.some_bind, hp, Option.map_some']
  · intro l lvl hl
    have := h5 l lvl hl
    simpa using this
  · show protos.length = 16
    rw [hplen, h2]; rfl
  · intro p hp1
    show p.length = M
    obtain ⟨k, hk⟩ := List.get?_of_mem hp1
    have hklt : k < leaves.length := by rw [← hplen]; exact get?_lt_length hk
    obtain ⟨p1, hp2, hp3, _⟩ := hpval k _ (get?_some_of_lt leaves k hklt)
    rw [hk] at hp2
    cases hp2
    exact hp3

/-- C3 (leaf non-emptiness). Whatever `nextHashingTreeLevel` returns holds two
children per bucket, all non-empty: child `2k` and child `2k+1` are the two
sides of `SplitByThreshold` on bucket `k`, an empty side being replaced by a
one-row clone taken from the other side. On a non-empty list of non-empty
buckets of rows of width `M ≥ 1` the function does return, and for a non-empty
matrix of rows of width `M ≥ 1` the four levels of `TrainHash` end in 16
non-empty leaf buckets. -/
theorem C3_children_and_leaves_nonempty (na : Nextafter32) (M : Nat) (hM : 0 < M)
    (bs : List Bucket) (hne : bs ≠ []) (hg : GoodBuckets M bs)
    (examples : List (List ℚ)) (hex : examples ≠ []) (hrect : Rect M examples) :
    (∀ (bs1 nb : List Bucket) (lvl : HashingTreeLevel),
        nextHashingTreeLevel na bs1 = some (nb, lvl) →
        nb.length = 2 * bs1.length ∧ (∀ b ∈ nb, b.Vectors ≠ []) ∧
        ∀ k b, bs1.get? k = some b → ∃ t p c0 c1, lvl.SplitThresholds.get? k = some t ∧
          Vectors.SplitByThreshold b.Vectors lvl.SplitIndex t = some p ∧
          nb.get? (2 * k) = some c0 ∧ nb.get? (2 * k + 1) = some c1 ∧
          RepairedSides na lvl.SplitIndex p c0.Vectors c1.Vectors) ∧
      (∃ nb lvl, nextHashingTreeLevel na bs = some (nb, lvl) ∧ nb.length = 2 * bs.length ∧
        ∀ b ∈ nb, b.Vectors ≠ []) ∧
      (∃ leaves levels, trainBuckets na examples = some (leaves, levels) ∧
        leaves.length = 16 ∧ ∀ b ∈ leaves, b.Vectors ≠ []) := by
  refine ⟨fun bs1 nb lvl h => ?_, ?_, ?_⟩
  · obtain ⟨h1, h2⟩ := nextHashingTreeLevel_children na bs1 nb lvl h
    exact ⟨h1, h2, nextHashingTreeLevel_repair na bs1 nb lvl h⟩
  · obtain ⟨nb, lvl, h1, h2, h3, _⟩ := nextHashingTreeLevel_spec na hM bs hne hg
    exact ⟨nb, lvl, h1, h2, fun b hb => (h3 b hb).1⟩
  · obtain ⟨leaves, levels, h1, h2, h3, _⟩ := levelsLoop_spec na hM 4 _ (List.cons_ne_nil _ _)
      (goodBuckets_root examples hex hrect)
    exact ⟨leaves, levels, h1, by simpa using h2, fun b hb => (h3 b hb).1⟩

theorem C3_children_and_leaves_nonempty_witness :
    (∀ (bs1 nb : List Bucket) (lvl : HashingTreeLevel),
        nextHashingTreeLevel unitStep bs1 = some (nb, lvl) →
        nb.length = 2 * bs1.length ∧ (∀ b ∈ nb, b.Vectors ≠ []) ∧
        ∀ k b, bs1.get? k = some b → ∃ t p c0 c1, lvl.SplitThresholds.get? k = some t ∧
          Vectors.SplitByThreshold b.Vectors lvl.SplitIndex t = some p ∧
          nb.get? (2 * k) = some c0 ∧ nb.get? (2 * k + 1) = some c1 ∧
          RepairedSides unitStep lvl.SplitIndex p c0.Vectors c1.Vectors) ∧
      (∃ nb lvl, nextHashingTreeLevel unitStep
          [{ Level := 0, NodeIndex := 0, Vectors := [[0, 9], [2, 6]] },
            { Level := 0, NodeIndex := 1, Vectors := [[3, 4]] }] = some (nb, lvl) ∧
        nb.length = 2 * [({ Level := 0, NodeIndex := 0, Vectors := [[0, 9], [2, 6]] } : Bucket),
            { Level := 0, NodeIndex := 1, Vectors := [[3, 4]] }].length ∧
        ∀ b ∈ nb, b.Vectors ≠ []) ∧
      (∃ leaves levels, trainBuckets unitStep [[0, 0], [0, 1], [1, 0]] = some (leaves, levels) ∧
        leaves.length = 16 ∧ ∀ b ∈ leaves, b.Vectors ≠ []) :=
  C3_children_and_leaves_nonempty unitStep 2 (by decide)
    [{ Level := 0, NodeIndex := 0, Vectors := [[0, 9], [2, 6]] },
      { Level := 0, NodeIndex := 1, Vectors := [[3, 4]] }]
    (by decide) (by simp [GoodBuckets, Rect]) [[0, 0], [0, 1], [1, 0]] (by decide)
    (by simp [Rect])

/-- C5 (shape of a trained hash). For a non-empty matrix of rows of width
`M ≥ 1`, `TrainHash` returns a hash with exactly 4 tree levels, level `l`
carrying a split index below `M` and exactly `2^l` thresholds, and with exactly
16 prototypes, each of length `M`. -/
theorem C5_trainHash_shape (na : Nextafter32) (M : Nat) (hM : 0 < M)
    (examples : List (List ℚ)) (hex : examples ≠ []) (hrect : Rect M examples) :
    ∃ h, TrainHash na examples = some h ∧ h.TreeLevels.length = 4 ∧
      (∀ l lvl, h.TreeLevels.get? l = some lvl →
        lvl.SplitIndex < M ∧ lvl.SplitThresholds.length = 2 ^ l) ∧
      h.Prototypes.length = 16 ∧ ∀ p ∈ h.Prototypes, p.length = M :=
  trainHash_shape na hM examples hex hrect

theorem C5_trainHash_shape_witness :
    ∃ h, TrainHash unitStep [[0, 0], [0, 1], [1, 0]] = some h ∧ h.TreeLevels.length = 4 ∧
      (∀ l lvl, h.TreeLevels.get? l = some lvl →
        lvl.SplitIndex < 2 ∧ lvl.SplitThresholds.length = 2 ^ l) ∧
      h.Prototypes.length = 16 ∧ ∀ p ∈ h.Prototypes, p.length = 2 :=
  C5_trainHash_shape unitStep 2 (by decide) [[0, 0], [0, 1], [1, 0]] (by decide) (by simp [Rect])

/-- C6 (prototypes are bucket means). For non-empty buckets of rows of width
`M ≥ 1`, `Buckets.Prototypes` returns one vector per bucket, in bucket order;
vector `k` is `Mean` of bucket `k`, has length `M`, and its entry `j` is the sum
of the `j`-th entries of the rows divided by the number of rows; the prototype
of a one-row bucket is that row. Hence prototype `k` of a trained hash is the
column-wise mean of leaf bucket `k`. -/
theorem C6_prototypes_are_bucket_means (na : Nextafter32) (M : Nat) (hM : 0 < M)
    (bs : List Bucket) (hg : GoodBuckets M bs)
    (examples : List (List ℚ)) (hex : examples ≠ []) (hrect : Rect M examples) :
    (∃ protos, Buckets.Prototypes bs = some protos ∧ protos.length = bs.length ∧
      ∀ k b, bs.get? k = some b → ∃ p, protos.get? k = some p ∧ p.length = M ∧
        (∀ j, j < M → p.get? j = some (colSum b.Vectors j / (b.Vectors.length : ℚ))) ∧
        (∀ r, b.Vectors = [r] → p = r)) ∧
      (∃ h leaves levels, TrainHash na examples = some h ∧
        trainBuckets na examples = some (leaves, levels) ∧
        h.Prototypes.length = leaves.length ∧
        ∀ k leaf, leaves.get? k = some leaf → ∃ p, h.Prototypes.get? k = some p ∧
          ∀ j, j < M → p.get? j = some (colSum leaf.Vectors j / (leaf.Vectors.length : ℚ))) := by
  constructor
  · obtain ⟨protos, hp, hplen, hpval⟩ := Prototypes_spec hM bs hg
    refine ⟨protos, hp, hplen, ?_⟩
    intro k b hk
    obtain ⟨p, h1, h2, h3, h4⟩ := hpval k b hk
    refine ⟨p, h1, h2, h4, ?_⟩
    intro r hr
    rw [hr, Mean_single] at h3
    cases h3
    rfl
  · obtain ⟨leaves, levels, h1, h2, h3, _⟩ := levelsLoop_spec na hM 4 _
      (List.cons_ne_nil _ _) (goodBuckets_root examples hex hrect)
    obtain ⟨protos, hp, hplen, hpval⟩ := Prototypes_spec hM leaves h3
    refine ⟨{ TreeLevels := levels, Prototypes := protos }, leaves, levels, ?_, h1, hplen, ?_⟩
    · simp only [TrainHash, trainBuckets, h1, Option.some_bind, hp, Option.map_some']
    · intro k leaf hk
      obtain ⟨p, h4, _, _, h5⟩ := hpval k leaf hk
      exact ⟨p, h4, h5⟩

theorem C6_prototypes_are_bucket_means_witness :
    (∃ protos, Buckets.Prototypes
        [{ Level := 0, NodeIndex := 0, Vectors := [[0, 2, 3], [4, 6, 9]] },
          { Level := 0, NodeIndex := 1, Vectors := [[1, 2, 3], [3, 8, 9], [5, 5, 9]] }]
          = some protos ∧
      protos.length = [({ Level := 0, NodeIndex := 0, Vectors := [[0, 2, 3], [4, 6, 9]] } : Bucket),
          { Level := 0, NodeIndex := 1, Vectors := [[1, 2, 3], [3, 8, 9], [5, 5, 9]] }].length ∧
      ∀ k b, [({ Level := 0, NodeIndex := 0, Vectors := [[0, 2, 3], [4, 6, 9]] } : Bucket),
          { Level := 0, NodeIndex := 1, Vectors := [[1, 2, 3], [3, 8, 9], [5, 5, 9]] }].get? k
            = some b →
        ∃ p, protos.get? k = some p ∧ p.length = 3 ∧
          (∀ j, j < 3 → p.get? j = some (colSum b.Vectors j / (b.Vectors.length : ℚ))) ∧
          (∀ r, b.Vectors = [r] → p = r)) ∧
      (∃ h leaves levels, TrainHash unitStep [[1, 2, 3], [3, 8, 9], [5, 5, 9]] = some h ∧
        trainBuckets unitStep [[1, 2, 3], [3, 8, 9], [5, 5, 9]] = some (leaves, levels) ∧
        h.Prototypes.length = leaves.length ∧
        ∀ k leaf, leaves.get? k = some leaf → ∃ p, h.Prototypes.get? k = some p ∧
          ∀ j, j < 3 → p.get? j = some (colSum leaf.Vectors j / (leaf.Vectors.length : ℚ))) :=
  C6_prototypes_are_bucket_means unitStep 3 (by decide)
    [{ Level := 0, NodeIndex := 0, Vectors := [[0, 2, 3], [4, 6, 9]] },
      { Level := 0, NodeIndex := 1, Vectors := [[1, 2, 3], [3, 8, 9], [5, 5, 9]] }]
    (by simp [GoodBuckets, Rect]) [[1, 2, 3], [3, 8, 9], [5, 5, 9]] (by decide) (by simp [Rect])
/-! ### What a successful TrainMaddness has built -/

theorem sliceRange_inv {v : List ℚ} {lo hi : Nat} {out : List ℚ}
    (h : sliceRange v lo hi = some out) :
    out = (v.drop lo).take (hi - lo) ∧ out.length = hi - lo ∧ lo ≤ hi ∧ hi ≤ v.length := by
  unfold sliceRange at h
  split_ifs at h with h1
  simp only [Option.some.injEq] at h
  refine ⟨h.symm, ?_, h1.1, h1.2⟩
  rw [← h, List.length_take, List.length_drop]
  omega

theorem sliceRange_some (v : List ℚ) (lo hi : Nat) (h1 : lo ≤ hi) (h2 : hi ≤ v.length) :
    sliceRange v lo hi = some ((v.drop lo).take (hi - lo)) := by
  unfold sliceRange
  rw [if_pos ⟨h1, h2⟩]

theorem subspaceLoop_inv (lo hi : Nat) :
    ∀ data sub, Maddness.subspaceLoop lo hi data = some sub →
      sub.length = data.length ∧ Rect (hi - lo) sub ∧
      ∀ a ∈ data, ∃ a1, sliceRange a lo hi = some a1 ∧ a1 ∈ sub := by
  intro data
  induction data with
  | nil =>
    intro sub h
    simp only [Maddness.subspaceLoop, Option.some.injEq] at h
    rw [← h]
    exact ⟨rfl, fun v hv => absurd hv (List.not_mem_nil _),
      fun a ha => absurd ha (List.not_mem_nil _)⟩
  | cons ex rest ih =>
    intro sub h
    simp only [Maddness.subspaceLoop, Option.bind_eq_some, Option.map_eq_some'] at h
    obtain ⟨s1, hs1, subs, hsubs, hsub⟩ := h
    obtain ⟨h1, h2, h3⟩ := ih subs hsubs
    rw [← hsub]
    refine ⟨by simp [h1], ?_, ?_⟩
    · intro v hv
      rcases List.mem_cons.mp hv with h4 | h4
      · rw [h4]; exact (sliceRange_inv hs1).2.1
      · exact h2 v h4
    · intro a ha
      rcases List.mem_cons.mp ha with h4 | h4
      · rw [h4]; exact ⟨s1, hs1, List.mem_cons_self _ _⟩
      · obtain ⟨a1, h5, h6⟩ := h3 a h4
        exact ⟨a1, h5, List.mem_cons_of_mem _ h6⟩

theorem hashesLoop_inv (na : Nextafter32) (m : Maddness) (data : List (List ℚ)) :
    ∀ count i hs, Maddness.hashesLoop na m data count i = some hs →
      hs.length = count ∧
      ∀ s, s < count → ∃ sub h, Maddness.subspaceExamples m (i + s) data = some sub ∧
        TrainHash na sub = some h ∧ hs.get? s = some h := by
  intro count
  induction count with
  | zero =>
    intro i hs h
    simp only [Maddness.hashesLoop, Option.some.injEq] at h
    rw [← h]
    exact ⟨rfl, fun s hs => absurd hs (Nat.not_lt_zero _)⟩
  | succ count ih =>
    intro i hs h
    simp only [Maddness.hashesLoop, Maddness.trainSubspaceHash, Option.bind_eq_some,
      Option.map_eq_some'] at h
    obtain ⟨h0, ⟨sub, hsub, hh0⟩, hs1, hhs1, hhs⟩ := h
    obtain ⟨h1, h2⟩ := ih (i + 1) hs1 hhs1
    rw [← hhs]
    refine ⟨by simp [h1], ?_⟩
    intro s hs
    cases s with
    | zero => exact ⟨sub, h0, hsub, hh0, rfl⟩
    | succ s =>
      obtain ⟨sub1, h3, h4, h5, h6⟩ := h2 s (by omega)
      refine ⟨sub1, h3, ?_, h5, h6⟩
      rw [← h4]
      congr 1
      omega

theorem tablesLoop_inv (m : Maddness) :
    ∀ queries ts, Maddness.tablesLoop m queries = some ts →
      ts.length = queries.length ∧
      ∀ i q, queries.get? i = some q →
        ∃ t, Maddness.makeLookupTable m q = some t ∧ ts.get? i = some t := by
  intro queries
  induction queries with
  | nil =>
    intro ts h
    simp only [Maddness.tablesLoop, Option.some.injEq] at h
    rw [← h]
    exact ⟨rfl, fun i q hq => by simp at hq⟩
  | cons qv rest ih =>
    intro ts h
    simp only [Maddness.tablesLoop, Option.bind_eq_some, Option.map_eq_some'] at h
    obtain ⟨t, ht, ts1, hts1, hts⟩ := h
    obtain ⟨h1, h2⟩ := ih ts1 hts1
    rw [← hts]
    refine ⟨by simp [h1], ?_⟩
    intro i q hq
    cases i with
    | zero =>
      simp only [List.get?_cons_zero, Option.some.injEq] at hq
      rw [← hq]
      exact ⟨t, ht, rfl⟩
    | succ i =>
      simp only [List.get?_cons_succ] at hq
      exact h2 i q hq

theorem dotRowsLoop_congr (m m1 : Maddness) (hw : m.SubVectorSize = m1.SubVectorSize)
    (hh : m.Hashes = m1.Hashes) (vec : List ℚ) :
    ∀ count i mn mx, Maddness.dotRowsLoop m vec count i mn mx =
      Maddness.dotRowsLoop m1 vec count i mn mx := by
  intro count
  induction count with
  | zero => intro i mn mx; rfl
  | succ count ih =>
    intro i mn mx
    simp only [Maddness.dotRowsLoop, hw, hh, ih]

theorem makeLookupTable_congr (m m1 : Maddness) (hn : m.NumSubspaces = m1.NumSubspaces)
    (hw : m.SubVectorSize = m1.SubVectorSize) (hh : m.Hashes = m1.Hashes) (vec : List ℚ) :
    Maddness.makeLookupTable m vec = Maddness.makeLookupTable m1 vec := by
  simp only [Maddness.makeLookupTable, Maddness.precomputeDotProducts, hn,
    dotRowsLoop_congr m m1 hw hh]

theorem TrainMaddness_inv (na : Nextafter32) (data queries : List (List ℚ)) (N : Int)
    (m : Maddness) (h : TrainMaddness na data queries N = some m) :
    Trained na data queries m ∧ N = (m.NumSubspaces : Int) ∧
      ∃ ex0 rest, data = ex0 :: rest ∧ m.VectorSize = ex0.length := by
  unfold TrainMaddness at h
  cases data with
  | nil => cases h
  | cons ex0 rest =>
    simp only at h
    split_ifs at h with h1 h2 h3 h4 h5
    simp only [Maddness.trainAllHashes, Maddness.makeLookupTables, Option.bind_eq_some,
      Option.map_eq_some'] at h
    obtain ⟨m1, ⟨hs, hhs, hm1⟩, ts, hts, hm⟩ := h
    have hN0 : 0 ≤ N := by omega
    have hNn : N = (N.toNat : Int) := (Int.toNat_of_nonneg hN0).symm
    have hn1 : 1 ≤ N.toNat := by omega
    have hnM : N.toNat ≤ ex0.length := by omega
    have hmod : ex0.length % N.toNat = 0 := by
      have h6 : (ex0.length : Int) % (N.toNat : Int) = 0 := by
        rw [← hNn]; exact not_not.mp h5
      exact_mod_cast h6
    have hdiv : ex0.length = N.toNat * (ex0.length / N.toNat) :=
      (Nat.mul_div_cancel' (Nat.dvd_of_mod_eq_zero hmod)).symm
    have hw1 : 1 ≤ ex0.length / N.toNat := (Nat.one_le_div_iff (by omega)).mpr hnM
    obtain ⟨hl, hall⟩ := hashesLoop_inv na _ _ _ _ _ hhs
    subst hm1
    obtain ⟨tl, tall⟩ := tablesLoop_inv _ _ _ hts
    subst hm
    refine ⟨⟨List.cons_ne_nil _ _, hn1, hw1, hdiv, hl, ?_, tl, ?_⟩, hNn, ex0, rest, rfl, rfl⟩
    · intro s hs1
      obtain ⟨sub, h0, h6, h7, h8⟩ := hall s hs1
      rw [Nat.zero_add] at h6
      exact ⟨sub, h0, h6, h7, h8⟩
    · intro i q hq
      obtain ⟨t, h6, h7⟩ := tall i q hq
      refine ⟨t, ?_, h7⟩
      rw [← h6]
      apply makeLookupTable_congr <;> rfl

/-! ### Hash follows the placement of training -/

theorem hash_agrees (na : Nextafter32) {M : Nat} (hM : 0 < M) (examples : List (List ℚ))
    (hex : examples ≠ []) (hrect : Rect M examples) (e : List ℚ) (he : e ∈ examples) :
    ∃ h leaves levels k leaf, TrainHash na examples = some h ∧
      trainBuckets na examples = some (leaves, levels) ∧
      trainLeaf na examples e = some k ∧ leaves.get? k = some leaf ∧ e ∈ leaf.Vectors ∧
      Hash.Hash h e = some k := by
  obtain ⟨leaves, levels, h1, h2, h3, _, _, htrack⟩ := levelsLoop_spec na hM 4 _
    (List.cons_ne_nil _ _) (goodBuckets_root examples hex hrect)
  obtain ⟨protos, hp, _, _⟩ := Prototypes_spec hM leaves h3
  obtain ⟨k, reads, leaf, h4, h5, h6, h7⟩ := htrack (by simp) 0 _ rfl e he
  refine ⟨{ TreeLevels := levels, Prototypes := protos }, leaves, levels, k, leaf, ?_, h1, h4,
    h6, h7, ?_⟩
  · simp only [TrainHash, trainBuckets, h1, Option.some_bind, hp, Option.map_some']
  · have hk : k < leaves.length := get?_lt_length h6
    have hk16 : k < 16 := by rw [h2] at hk; simpa using hk
    simp only [Hash.Hash, h5, Option.map_some']
    congr 1
    omega

theorem subspaceExamples_good (m : Maddness) (s : Nat) (data sub : List (List ℚ))
    (hne : data ≠ []) (h : Maddness.subspaceExamples m s data = some sub) :
    sub ≠ [] ∧ Rect m.SubVectorSize sub ∧
      ∀ a ∈ data, ∃ a1, sliceRange a (s * m.SubVectorSize)
        (s * m.SubVectorSize + m.SubVectorSize) = some a1 ∧ a1 ∈ sub := by
  obtain ⟨h1, h2, h3⟩ := subspaceLoop_inv _ _ _ _ h
  refine ⟨?_, ?_, h3⟩
  · intro h0
    rw [h0] at h1
    exact hne (List.length_eq_zero.mp h1.symm)
  · have : s * m.SubVectorSize + m.SubVectorSize - s * m.SubVectorSize = m.SubVectorSize := by
      omega
    rw [this] at h2
    exact h2

theorem quantizeLoop_congr (w : Nat) (a b : List ℚ) :
    ∀ (hs : List Hash) (i : Nat),
      (∀ s h, hs.get? s = some h → ∃ sa sb k,
        sliceRange a ((i + s) * w) ((i + s) * w + w) = some sa ∧
        sliceRange b ((i + s) * w) ((i + s) * w + w) = some sb ∧
        Hash.Hash h sa = some k ∧ Hash.Hash h sb = some k) →
      ∃ q, Maddness.quantizeLoop w a hs i = some q ∧ Maddness.quantizeLoop w b hs i = some q ∧
        q.length = hs.length := by
  intro hs
  induction hs with
  | nil => intro i _; exact ⟨[], rfl, rfl, rfl⟩
  | cons h rest ih =>
    intro i hall
    obtain ⟨sa, sb, k, h1, h2, h3, h4⟩ := hall 0 h rfl
    rw [Nat.add_zero] at h1 h2
    obtain ⟨q, h5, h6, h7⟩ := ih (i + 1) (fun s h0 hs0 => by
      obtain ⟨sa1, sb1, k1, h8⟩ := hall (s + 1) h0 hs0
      have : i + (s + 1) = i + 1 + s := by omega
      rw [this] at h8
      exact ⟨sa1, sb1, k1, h8⟩)
    refine ⟨k :: q, ?_, ?_, by simp [h7]⟩
    · simp only [Maddness.quantizeLoop, h1, Option.some_bind, h3, h5, Option.map_some']
    · simp only [Maddness.quantizeLoop, h2, Option.some_bind, h4, h6, Option.map_some']

/-- C2 (encoding agrees with training). For a non-empty training matrix of
rows of width `M ≥ 1` and every row `e` of it, `Hash.Hash(e)` on the tree
returned by `TrainHash` is the index `k` of the leaf bucket into which `e` was
placed by the four successive `SplitByThreshold` steps (`trainLeaf`), and that
leaf bucket contains `e`. Consequently, on a model returned by `TrainMaddness`,
two data examples `a`, `b` whose sub-vectors were placed in the same leaf in
every subspace have the same `Quantize` result. -/
theorem C2_hash_agrees_with_training (na : Nextafter32) (M : Nat) (hM : 0 < M)
    (examples : List (List ℚ)) (hex : examples ≠ []) (hrect : Rect M examples)
    (e : List ℚ) (he : e ∈ examples)
    (data queries : List (List ℚ)) (N : Int) (m : Maddness)
    (htrain : TrainMaddness na data queries N = some m)
    (a b : List ℚ) (ha : a ∈ data) (hb : b ∈ data)
    (hsame : ∀ s sub sa sb, s < m.NumSubspaces →
      Maddness.subspaceExamples m s data = some sub →
      sliceRange a (s * m.SubVectorSize) (s * m.SubVectorSize + m.SubVectorSize) = some sa →
      sliceRange b (s * m.SubVectorSize) (s * m.SubVectorSize + m.SubVectorSize) = some sb →
      trainLeaf na sub sa = trainLeaf na sub sb) :
    (∃ h leaves levels k leaf, TrainHash na examples = some h ∧
      trainBuckets na examples = some (leaves, levels) ∧
      trainLeaf na examples e = some k ∧ leaves.get? k = some leaf ∧ e ∈ leaf.Vectors ∧
      Hash.Hash h e = some k) ∧
    (∃ q, Maddness.Quantize m a = some q ∧ Maddness.Quantize m b = some q ∧
      q.length = m.NumSubspaces) := by
  refine ⟨hash_agrees na hM examples hex hrect e he, ?_⟩
  obtain ⟨ht, _, _⟩ := TrainMaddness_inv na data queries N m htrain
  obtain ⟨q, h1, h2, h3⟩ := quantizeLoop_congr m.SubVectorSize a b m.Hashes 0 (by
    intro s h hs
    have hslt : s < m.NumSubspaces := by rw [← ht.hashes_len]; exact get?_lt_length hs
    obtain ⟨sub, h0, hsub, hh0, hget⟩ := ht.hashes s hslt
    rw [hs] at hget
    cases hget
    obtain ⟨hsne, hsrect, hslice⟩ := subspaceExamples_good m s data sub ht.data_ne hsub
    obtain ⟨sa, hsa, hsamem⟩ := hslice a ha
    obtain ⟨sb, hsb, hsbmem⟩ := hslice b hb
    obtain ⟨h1, _, _, ka, _, hh1, _, hla, _, _, hka⟩ :=
      hash_agrees na ht.width_pos sub hsne hsrect sa hsamem
    obtain ⟨h2, _, _, kb, _, hh2, _, hlb, _, _, hkb⟩ :=
      hash_agrees na ht.width_pos sub hsne hsrect sb hsbmem
    rw [hh0] at hh1 hh2
    cases hh1
    cases hh2
    have hk : ka = kb := by
      have := hsame s sub sa sb hslt hsub hsa hsb
      rw [hla, hlb] at this
      exact Option.some.inj this
    rw [Nat.zero_add]
    exact ⟨sa, sb, ka, hsa, hsb, hka, by rw [hk]; exact hkb⟩)
  exact ⟨q, h1, h2, by rw [h3, ht.hashes_len]⟩

theorem C2_hash_agrees_with_training_witness :
    (∃ h leaves levels k leaf, TrainHash unitStep [[0, 2], [0, 0], [2, 0]] = some h ∧
      trainBuckets unitStep [[0, 2], [0, 0], [2, 0]] = some (leaves, levels) ∧
      trainLeaf unitStep [[0, 2], [0, 0], [2, 0]] [0, 2] = some k ∧
      leaves.get? k = some leaf ∧ [0, 2] ∈ leaf.Vectors ∧ Hash.Hash h [0, 2] = some k) ∧
    (∃ q, Maddness.Quantize smallModel [0, 2] = some q ∧
      Maddness.Quantize smallModel [2, 0] = some q ∧ q.length = smallModel.NumSubspaces) :=
  C2_hash_agrees_with_training unitStep 2 (by decide) [[0, 2], [0, 0], [2, 0]] (by decide)
    (by simp [Rect]) [0, 2] (by simp)
    [[0, 2], [0, 0], [2, 0]] [[1, 1]] 1 smallModel (by decide!) [0, 2] [2, 0] (by simp) (by simp)
    (by
      intro s sub sa sb hs h1 h2 h3
      have hn : smallModel.NumSubspaces = 1 := by decide!
      have hs0 : s = 0 := by omega
      subst hs0
      have e1 : Maddness.subspaceExamples smallModel 0 [[0, 2], [0, 0], [2, 0]]
          = some [[0, 2], [0, 0], [2, 0]] := by decide!
      have e2 : sliceRange [0, 2] (0 * smallModel.SubVectorSize)
          (0 * smallModel.SubVectorSize + smallModel.SubVectorSize) = some [0, 2] := by decide!
      have e3 : sliceRange [2, 0] (0 * smallModel.SubVectorSize)
          (0 * smallModel.SubVectorSize + smallModel.SubVectorSize) = some [2, 0] := by decide!
      rw [e1] at h1
      rw [e2] at h2
      rw [e3] at h3
      cases h1
      cases h2
      cases h3
      decide!)
/-! ### The encoding loop stays inside the tree -/

theorem hashLoop_bounded (v : List ℚ) :
    ∀ (levels : List HashingTreeLevel) (l i : Nat), 1 ≤ i → i ≤ 2 ^ l →
      2 ^ (l + levels.length) ≤ 128 →
      (∀ l1 lvl, levels.get? l1 = some lvl →
        2 ^ (l + l1) ≤ lvl.SplitThresholds.length ∧ lvl.SplitIndex < v.length) →
      ∃ i1 reads, Hash.hashLoop v levels i = some (i1, reads) ∧
        specHashLoop v levels i = some (i1, reads) ∧ 1 ≤ i1 ∧ i1 ≤ 2 ^ (l + levels.length) ∧
        reads.length = levels.length ∧ ∀ l1 r, reads.get? l1 = some r → r < 2 ^ (l + l1) := by
  intro levels
  induction levels with
  | nil =>
    intro l i h1 h2 _ _
    exact ⟨i, [], rfl, rfl, h1, by simpa using h2, rfl, fun l1 r h => by simp at h⟩
  | cons lvl rest ih =>
    intro l i h1 h2 h3 h4
    obtain ⟨hth, hidx⟩ := h4 0 lvl rfl
    rw [Nat.add_zero] at hth
    have hmono : 2 ^ (l + 1) ≤ 2 ^ (l + (lvl :: rest).length) :=
      Nat.pow_le_pow_right (by norm_num) (by simp)
    have hsucc : 2 ^ (l + 1) = 2 * 2 ^ l := by rw [pow_succ]; ring
    have hlen : l + (lvl :: rest).length = l + 1 + rest.length := by simp; omega
    have hat : (i + 255) % 256 = i - 1 := by omega
    have hi2 : (2 * i) % 256 = 2 * i := by omega
    have hi3 : (2 * i + 255) % 256 = 2 * i - 1 := by omega
    have hread : i - 1 < lvl.SplitThresholds.length := by omega
    obtain ⟨i1, reads, h5, h6, h7, h8, h9, h10⟩ :=
      ih (l + 1) (if v.get ⟨lvl.SplitIndex, hidx⟩ < lvl.SplitThresholds.get ⟨i - 1, hread⟩
        then 2 * i - 1 else 2 * i)
        (by split_ifs <;> omega) (by split_ifs <;> omega) (by rw [← hlen]; exact h3)
        (fun l1 lv hl => by
          have := h4 (l1 + 1) lv hl
          have he : l + 1 + l1 = l + (l1 + 1) := by omega
          rw [he]
          exact this)
    refine ⟨i1, (i - 1) :: reads, ?_, ?_, h7, by rw [hlen]; exact h8, by simp [h9], ?_⟩
    · simp only [Hash.hashLoop, hat, hi2, get?_some_of_lt _ _ hread, Option.some_bind,
        get?_some_of_lt _ _ hidx]
      by_cases hlt : v.get ⟨lvl.SplitIndex, hidx⟩ < lvl.SplitThresholds.get ⟨i - 1, hread⟩
      · rw [if_pos hlt] at h5
        rw [if_pos hlt, hi3, h5]
        rfl
      · rw [if_neg hlt] at h5
        rw [if_neg hlt, h5]
        rfl
    · simp only [specHashLoop, get?_some_of_lt _ _ hread, Option.some_bind,
        get?_some_of_lt _ _ hidx, h6, Option.map_some']
    · intro l1 r hr
      cases l1 with
      | zero =>
        simp only [List.get?_cons_zero, Option.some.injEq] at hr
        rw [← hr, Nat.add_zero]
        omega
      | succ l1 =>
        simp only [List.get?_cons_succ] at hr
        have := h10 l1 r hr
        have he : l + 1 + l1 = l + (l1 + 1) := by omega
        rw [← he]
        exact this

/-- C4 (encoding stays in range). For a hash with exactly 4 tree levels, level
`l` holding at least `2^l` thresholds, and a vector `v` that has an element at
every split index, `Hash.Hash(v)` returns a value below 16 and reads
`SplitThresholds` at level `l` only at an index below `2^l`; the `uint8`
counter never wraps around: it takes the same values as the counter of the
specification's loop on unbounded integers. -/
theorem C4_hash_reads_in_range (h : Hash) (v : List ℚ) (h4 : h.TreeLevels.length = 4)
    (hth : ∀ l lvl, h.TreeLevels.get? l = some lvl → 2 ^ l ≤ lvl.SplitThresholds.length)
    (hv : ∀ lvl ∈ h.TreeLevels, lvl.SplitIndex < v.length) :
    ∃ k reads, Hash.Hash h v = some k ∧ k < 16 ∧ Hash.reads h v = some reads ∧
      reads.length = 4 ∧ (∀ l r, reads.get? l = some r → r < 2 ^ l) ∧
      Hash.hashLoop v h.TreeLevels 1 = some (k + 1, reads) ∧
      specHashLoop v h.TreeLevels 1 = some (k + 1, reads) := by
  obtain ⟨i1, reads, h5, h6, h7, h8, h9, h10⟩ := hashLoop_bounded v h.TreeLevels 0 1
    (le_refl 1) (by simp) (by rw [h4]; norm_num)
    (fun l1 lvl hl => by
      rw [Nat.zero_add]
      exact ⟨hth l1 lvl hl, hv lvl (List.get?_mem hl)⟩)
  rw [h4] at h8
  have h16 : i1 ≤ 16 := by simpa using h8
  have hk : i1 - 1 + 1 = i1 := by omega
  refine ⟨i1 - 1, reads, ?_, by omega, ?_, by rw [h9, h4], ?_, by rw [hk]; exact h5,
    by rw [hk]; exact h6⟩
  · simp only [Hash.Hash, h5, Option.map_some']
    congr 1
    omega
  · simp only [Hash.reads, h5, Option.map_some']
  · intro l r hr
    have := h10 l r hr
    rw [Nat.zero_add] at this
    exact this

theorem C4_hash_reads_in_range_witness :
    ∃ k reads,
      Hash.Hash { TreeLevels := [⟨0, [5]⟩, ⟨1, [2, 7]⟩, ⟨0, [1, 3, 6, 8]⟩,
          ⟨1, [0, 1, 2, 3, 4, 5, 6, 7]⟩], Prototypes := [] } [6, 3] = some k ∧ k < 16 ∧
      Hash.reads { TreeLevels := [⟨0, [5]⟩, ⟨1, [2, 7]⟩, ⟨0, [1, 3, 6, 8]⟩,
          ⟨1, [0, 1, 2, 3, 4, 5, 6, 7]⟩], Prototypes := [] } [6, 3] = some reads ∧
      reads.length = 4 ∧ (∀ l r, reads.get? l = some r → r < 2 ^ l) ∧
      Hash.hashLoop [6, 3] [⟨0, [5]⟩, ⟨1, [2, 7]⟩, ⟨0, [1, 3, 6, 8]⟩,
          ⟨1, [0, 1, 2, 3, 4, 5, 6, 7]⟩] 1 = some (k + 1, reads) ∧
      specHashLoop [6, 3] [⟨0, [5]⟩, ⟨1, [2, 7]⟩, ⟨0, [1, 3, 6, 8]⟩,
          ⟨1, [0, 1, 2, 3, 4, 5, 6, 7]⟩] 1 = some (k + 1, reads) :=
  C4_hash_reads_in_range
    { TreeLevels := [⟨0, [5]⟩, ⟨1, [2, 7]⟩, ⟨0, [1, 3, 6, 8]⟩, ⟨1, [0, 1, 2, 3, 4, 5, 6, 7]⟩],
      Prototypes := [] } [6, 3] (by decide)
    (by
      intro l lvl hl
      have hl4 : l < 4 := get?_lt_length hl
      interval_cases l <;> simp at hl <;> rw [← hl] <;> simp)
    (by
      intro lvl hlvl
      simp at hlvl
      rcases hlvl with h | h | h | h <;> rw [h] <;> simp)

/-! ### The 16-bit accumulator of DotProduct -/

theorem getD_lt_256 (data : List Nat) (hb : ∀ b ∈ data, b < 256) (i : Nat) :
    data.getD i 0 < 256 := by
  by_cases hi : i < data.length
  · rw [List.getD_eq_getElem _ _ hi]
    exact hb _ (List.getElem_mem _)
  · rw [List.getD_eq_default _ _ (by omega)]
    norm_num

theorem sumLoop_exact (data : List Nat) (hb : ∀ b ∈ data, b < 256) :
    ∀ (idxs : List Nat) (acc : Nat), (∀ i ∈ idxs, i < data.length) →
      acc + 255 * idxs.length < 65536 →
      Maddness.sumLoop data idxs acc = some (acc + (idxs.map fun i => data.getD i 0).sum) ∧
        acc + (idxs.map fun i => data.getD i 0).sum ≤ acc + 255 * idxs.length := by
  intro idxs
  induction idxs with
  | nil => intro acc _ _; exact ⟨by simp [Maddness.sumLoop], by simp⟩
  | cons i rest ih =>
    intro acc hin hacc
    have hi : i < data.length := hin i (List.mem_cons_self _ _)
    have hget : data.get? i = some (data.getD i 0) := by
      rw [List.get?_eq_getElem?, List.getElem?_eq_getElem hi, List.getD_eq_getElem _ _ hi]
    have hlt := getD_lt_256 data hb i
    simp only [List.length_cons] at hacc
    have hmod : (acc + data.getD i 0) % 65536 = acc + data.getD i 0 := by omega
    obtain ⟨h1, h2⟩ := ih (acc + data.getD i 0)
      (fun j hj => hin j (List.mem_cons_of_mem _ hj)) (by omega)
    refine ⟨?_, ?_⟩
    · simp only [Maddness.sumLoop, hget, Option.some_bind, hmod, h1, List.map_cons,
        List.sum_cons]
      congr 1
      omega
    · simp only [List.map_cons, List.sum_cons, List.length_cons]
      omega

/-- C8 (the accumulator does not wrap). For a table of bytes with a non-zero
`Scale` and at most 257 table indices, all in range, the 16-bit accumulator of
`Maddness.DotProduct` ends as the exact sum of the addressed bytes, which is at
most `257 * 255 = 65535`, and `DotProduct` returns that sum divided by `Scale`
plus `Bias`. -/
theorem C8_accumulator_exact (m : Maddness) (lutIndices : List Nat) (queryVectorIndex : Nat)
    (lut : LookupTable) (hlut : m.LookupTables.get? queryVectorIndex = some (some lut))
    (hbytes : ∀ b ∈ lut.Data, b < 256) (hscale : lut.Scale ≠ 0)
    (hlen : lutIndices.length ≤ 257) (hin : ∀ i ∈ lutIndices, i < lut.Data.length) :
    Maddness.sumLoop lut.Data lutIndices 0
        = some (lutIndices.map fun i => lut.Data.getD i 0).sum ∧
      (lutIndices.map fun i => lut.Data.getD i 0).sum ≤ 65535 ∧
      Maddness.DotProduct m lutIndices queryVectorIndex
        = some ((((lutIndices.map fun i => lut.Data.getD i 0).sum : Nat) : ℚ) / lut.Scale
            + lut.Bias) := by
  obtain ⟨h1, h2⟩ := sumLoop_exact lut.Data hbytes lutIndices 0 hin (by omega)
  rw [Nat.zero_add] at h1 h2
  refine ⟨h1, by omega, ?_⟩
  simp only [Maddness.DotProduct, hlut, Option.some_bind, h1, if_neg hscale]

theorem C8_accumulator_exact_witness :
    Maddness.sumLoop [255, 0, 7, 255] [0, 3, 2, 0] 0
        = some ([0, 3, 2, 0].map fun i => [255, 0, 7, 255].getD i 0).sum ∧
      ([0, 3, 2, 0].map fun i => [255, 0, 7, 255].getD i 0).sum ≤ 65535 ∧
      Maddness.DotProduct
          { NumSubspaces := 1, VectorSize := 1, SubVectorSize := 1, Hashes := [],
            LookupTables := [some { Bias := 3, Scale := 5, Data := [255, 0, 7, 255] }] }
          [0, 3, 2, 0] 0
        = some (((([0, 3, 2, 0].map fun i => [255, 0, 7, 255].getD i 0).sum : Nat) : ℚ) / 5
            + 3) :=
  C8_accumulator_exact
    { NumSubspaces := 1, VectorSize := 1, SubVectorSize := 1, Hashes := [],
      LookupTables := [some { Bias := 3, Scale := 5, Data := [255, 0, 7, 255] }] }
    [0, 3, 2, 0] 0 { Bias := 3, Scale := 5, Data := [255, 0, 7, 255] } rfl
    (by decide) (by decide!) (by decide) (by decide)

/-! ### LookupTableIndices -/

theorem indicesLoop_spec (lutCols : Nat) :
    ∀ (q : List Nat) (i : Nat),
      (Maddness.indicesLoop lutCols q i).length = q.length ∧
      ∀ s x, q.get? s = some x →
        (Maddness.indicesLoop lutCols q i).get? s = some (((i + s) * lutCols + x) % 65536) := by
  intro q
  induction q with
  | nil => intro i; exact ⟨rfl, fun s x h => by simp at h⟩
  | cons p rest ih =>
    intro i
    obtain ⟨h1, h2⟩ := ih (i + 1)
    refine ⟨by simp [Maddness.indicesLoop, h1], ?_⟩
    intro s x hs
    cases s with
    | zero =>
      simp only [List.get?_cons_zero, Option.some.injEq] at hs
      simp only [Maddness.indicesLoop, List.get?_cons_zero, Option.some.injEq, hs, Nat.add_zero]
      omega
    | succ s =>
      simp only [List.get?_cons_succ] at hs
      simp only [Maddness.indicesLoop, List.get?_cons_succ]
      rw [h2 s x hs]
      have he : i + 1 + s = i + (s + 1) := by omega
      rw [he]

/-- C10 as stated fails on the code: with 4097 subspaces the element at
position 4096 of `LookupTableIndices` for the prototype index 0 is the 16-bit
word 0, not `4096 * 16 + 0 = 65536`. -/
theorem C10_counterexample :
    (List.replicate 4097 0).get? 4096 = some 0 ∧
      (Maddness.LookupTableIndices wideModel (List.replicate 4097 0)).bind
          (fun indices => indices.get? 4096) = some 0 ∧
      4096 * 16 + 0 = 65536 := by
  decide!

/-- C10, amended. For a model whose first hash has 16 prototypes (as every
trained model has) and every vector `q` of prototype indices,
`LookupTableIndices(q)` returns a vector as long as `q` whose element `s`
equals `s*16 + q[s]` whenever that number is below `65536`; this covers every
position when there are at most 4096 subspaces and the indices are below 16. -/
theorem C10_lookupTableIndices (m : Maddness) (h0 : Hash) (hm : m.Hashes.get? 0 = some h0)
    (h16 : h0.Prototypes.length = 16) (q : List Nat) :
    ∃ indices, Maddness.LookupTableIndices m q = some indices ∧ indices.length = q.length ∧
      ∀ s x, q.get? s = some x →
        (s * 16 + x < 65536 → indices.get? s = some (s * 16 + x)) ∧
        (q.length ≤ 4096 → x < 16 → indices.get? s = some (s * 16 + x)) := by
  obtain ⟨h1, h2⟩ := indicesLoop_spec 16 q 0
  refine ⟨Maddness.indicesLoop 16 q 0, ?_, h1, ?_⟩
  · simp only [Maddness.LookupTableIndices, hm, Option.map_some', h16]
  · intro s x hs
    have h3 := h2 s x hs
    rw [Nat.zero_add] at h3
    have hslt : s < q.length := get?_lt_length hs
    refine ⟨?_, ?_⟩
    · intro hlt
      rw [h3, Nat.mod_eq_of_lt hlt]
    · intro hq hx
      rw [h3, Nat.mod_eq_of_lt (by omega)]

theorem C10_lookupTableIndices_witness :
    ∃ indices, Maddness.LookupTableIndices smallModel [15] = some indices ∧
      indices.length = [15].length ∧
      ∀ s x, [15].get? s = some x →
        (s * 16 + x < 65536 → indices.get? s = some (s * 16 + x)) ∧
        ([15].length ≤ 4096 → x < 16 → indices.get? s = some (s * 16 + x)) :=
  C10_lookupTableIndices smallModel
    (smallModel.Hashes.getD 0 { TreeLevels := [], Prototypes := [] })
    (by decide!) (by decide!) [15]

/-! ### The table of dot products -/

theorem trained_protos {na : Nextafter32} {data queries : List (List ℚ)} {m : Maddness}
    (ht : Trained na data queries m) (s : Nat) (h : Hash) (hs : m.Hashes.get? s = some h) :
    h.Prototypes.length = 16 ∧ ∀ p ∈ h.Prototypes, p.length = m.SubVectorSize := by
  have hslt : s < m.NumSubspaces := by rw [← ht.hashes_len]; exact get?_lt_length hs
  obtain ⟨sub, h1, hsub, htr, hget⟩ := ht.hashes s hslt
  rw [hs] at hget
  cases hget
  obtain ⟨hne, hrect, _⟩ := subspaceExamples_good m s data sub ht.data_ne hsub
  obtain ⟨h2, htr2, _, _, h16, hp⟩ := trainHash_shape na ht.width_pos sub hne hrect
  rw [htr] at htr2
  cases htr2
  exact ⟨h16, hp⟩

theorem foldl_lowerMin_some (vals : List ℚ) :
    ∀ a : ℚ, ∃ lo, vals.foldl lowerMin (some a) = some lo ∧ (lo = a ∨ lo ∈ vals) ∧ lo ≤ a ∧
      ∀ x ∈ vals, lo ≤ x := by
  induction vals with
  | nil =>
    intro a
    exact ⟨a, rfl, Or.inl rfl, le_refl a, fun x hx => absurd hx (List.not_mem_nil _)⟩
  | cons v rest ih =>
    intro a
    simp only [List.foldl_cons, lowerMin]
    by_cases hlt : v < a
    · rw [if_pos hlt]
      obtain ⟨lo, h1, h2, h3, h4⟩ := ih v
      refine ⟨lo, h1, Or.inr ?_, by linarith, ?_⟩
      · rcases h2 with h2 | h2
        · rw [h2]; exact List.mem_cons_self _ _
        · exact List.mem_cons_of_mem _ h2
      · intro x hx
        rcases List.mem_cons.mp hx with h5 | h5
        · rw [h5]; exact h3
        · exact h4 x h5
    · rw [if_neg hlt]
      obtain ⟨lo, h1, h2, h3, h4⟩ := ih a
      refine ⟨lo, h1, ?_, h3, ?_⟩
      · rcases h2 with h2 | h2
        · exact Or.inl h2
        · exact Or.inr (List.mem_cons_of_mem _ h2)
      · intro x hx
        rcases List.mem_cons.mp hx with h5 | h5
        · rw [h5]; linarith [not_lt.mp hlt]
        · exact h4 x h5

theorem foldl_raiseMax_some (vals : List ℚ) :
    ∀ a : ℚ, ∃ hi, vals.foldl raiseMax (some a) = some hi ∧ (hi = a ∨ hi ∈ vals) ∧ a ≤ hi ∧
      ∀ x ∈ vals, x ≤ hi := by
  induction vals with
  | nil =>
    intro a
    exact ⟨a, rfl, Or.inl rfl, le_refl a, fun x hx => absurd hx (List.not_mem_nil _)⟩
  | cons v rest ih =>
    intro a
    simp only [List.foldl_cons, raiseMax]
    by_cases hlt : a < v
    · rw [if_pos hlt]
      obtain ⟨hi, h1, h2, h3, h4⟩ := ih v
      refine ⟨hi, h1, Or.inr ?_, by linarith, ?_⟩
      · rcases h2 with h2 | h2
        · rw [h2]; exact List.mem_cons_self _ _
        · exact List.mem_cons_of_mem _ h2
      · intro x hx
        rcases List.mem_cons.mp hx with h5 | h5
        · rw [h5]; exact h3
        · exact h4 x h5
    · rw [if_neg hlt]
      obtain ⟨hi, h1, h2, h3, h4⟩ := ih a
      refine ⟨hi, h1, ?_, h3, ?_⟩
      · rcases h2 with h2 | h2
        · exact Or.inl h2
        · exact Or.inr (List.mem_cons_of_mem _ h2)
      · intro x hx
        rcases List.mem_cons.mp hx with h5 | h5
        · rw [h5]; linarith [not_lt.mp hlt]
        · exact h4 x h5

theorem foldl_lowerMin_none (vals : List ℚ) (hne : vals ≠ []) :
    ∃ lo, vals.foldl lowerMin none = some lo ∧ lo ∈ vals ∧ ∀ x ∈ vals, lo ≤ x := by
  cases vals with
  | nil => exact absurd rfl hne
  | cons v rest =>
    obtain ⟨lo, h1, h2, h3, h4⟩ := foldl_lowerMin_some rest v
    refine ⟨lo, h1, ?_, ?_⟩
    · rcases h2 with h2 | h2
      · rw [h2]; exact List.mem_cons_self _ _
      · exact List.mem_cons_of_mem _ h2
    · intro x hx
      rcases List.mem_cons.mp hx with h5 | h5
      · rw [h5]; exact h3
      · exact h4 x h5

theorem foldl_raiseMax_none (vals : List ℚ) (hne : vals ≠ []) :
    ∃ hi, vals.foldl raiseMax none = some hi ∧ hi ∈ vals ∧ ∀ x ∈ vals, x ≤ hi := by
  cases vals with
  | nil => exact absurd rfl hne
  | cons v rest =>
    obtain ⟨hi, h1, h2, h3, h4⟩ := foldl_raiseMax_some rest v
    refine ⟨hi, h1, ?_, ?_⟩
    · rcases h2 with h2 | h2
      · rw [h2]; exact List.mem_cons_self _ _
      · exact List.mem_cons_of_mem _ h2
    · intro x hx
      rcases List.mem_cons.mp hx with h5 | h5
      · rw [h5]; exact h3
      · exact h4 x h5

theorem dotRowLoop_spec (sub : List ℚ) (hsub : 0 < sub.length) :
    ∀ (protos : List (List ℚ)) (mn mx : Option ℚ), (∀ p ∈ protos, sub.length ≤ p.length) →
      ∃ row, Maddness.dotRowLoop sub protos mn mx
          = some (row, row.foldl lowerMin mn, row.foldl raiseMax mx) ∧
        row.length = protos.length ∧
        ∀ k p, protos.get? k = some p → Vector.DotProduct sub p = row.get? k := by
  intro protos
  induction protos with
  | nil => intro mn mx _; exact ⟨[], rfl, rfl, fun k p h => by simp at h⟩
  | cons p rest ih =>
    intro mn mx hall
    have hb : Vector.boundsOK p sub = true :=
      boundsOK_eq_true p sub hsub (hall p (List.mem_cons_self _ _))
    have hdot : Vector.DotProduct sub p = some (Vector.dotLoop sub p 0) := by
      simp [Vector.DotProduct, hb]
    obtain ⟨row, h1, h2, h3⟩ := ih (lowerMin mn (Vector.dotLoop sub p 0))
      (raiseMax mx (Vector.dotLoop sub p 0)) (fun x hx => hall x (List.mem_cons_of_mem _ hx))
    refine ⟨Vector.dotLoop sub p 0 :: row, ?_, by simp [h2], ?_⟩
    · simp only [Maddness.dotRowLoop, hdot, Option.some_bind, h1, Option.map_some',
        List.foldl_cons]
    · intro k x hk
      cases k with
      | zero =>
        simp only [List.get?_cons_zero, Option.some.injEq] at hk
        rw [← hk, hdot]
        rfl
      | succ k =>
        simp only [List.get?_cons_succ] at hk
        rw [h3 k x hk]
        rfl

theorem dotRowsLoop_spec (m : Maddness) (q : List ℚ) (hw : 1 ≤ m.SubVectorSize)
    (hq : m.NumSubspaces * m.SubVectorSize ≤ q.length)
    (hlen : m.Hashes.length = m.NumSubspaces)
    (hp : ∀ s h, m.Hashes.get? s = some h →
      h.Prototypes.length = 16 ∧ ∀ p ∈ h.Prototypes, p.length = m.SubVectorSize) :
    ∀ (count i : Nat) (mn mx : Option ℚ), i + count ≤ m.NumSubspaces →
      ∃ rows, Maddness.dotRowsLoop m q count i mn mx
          = some (rows, rows.flatten.foldl lowerMin mn, rows.flatten.foldl raiseMax mx) ∧
        rows.length = count ∧ (∀ row ∈ rows, row.length = 16) ∧
        ∀ s k, s < count → k < 16 →
          protoDot m q (i + s) k = (rows.get? s).bind fun row => row.get? k := by
  intro count
  induction count with
  | zero =>
    intro i mn mx _
    exact ⟨[], rfl, rfl, fun row h => absurd h (List.not_mem_nil _),
      fun s k hs => absurd hs (Nat.not_lt_zero _)⟩
  | succ count ih =>
    intro i mn mx hi
    have hilt : i < m.Hashes.length := by omega
    have hmul : (i + 1) * m.SubVectorSize ≤ m.NumSubspaces * m.SubVectorSize :=
      Nat.mul_le_mul_right _ (by omega)
    have hexp : (i + 1) * m.SubVectorSize = i * m.SubVectorSize + m.SubVectorSize := by ring
    have hslice := sliceRange_some q (i * m.SubVectorSize)
      (i * m.SubVectorSize + m.SubVectorSize) (by omega) (by omega)
    obtain ⟨hsub, hsublen, _, _⟩ := sliceRange_inv hslice
    have hsublen1 : ((q.drop (i * m.SubVectorSize)).take
        (i * m.SubVectorSize + m.SubVectorSize - i * m.SubVectorSize)).length
          = m.SubVectorSize := by
      rw [hsublen]; omega
    obtain ⟨h16, hpl⟩ := hp i _ (get?_some_of_lt m.Hashes i hilt)
    obtain ⟨row, hrow, hrowlen, hrowval⟩ := dotRowLoop_spec _ (by rw [hsublen1]; omega)
      (m.Hashes.get ⟨i, hilt⟩).Prototypes mn mx
      (fun p hpm => by rw [hsublen1, hpl p hpm])
    obtain ⟨rows, hrows, hrowslen, hrows16, hrowsval⟩ := ih (i + 1) (row.foldl lowerMin mn)
      (row.foldl raiseMax mx) (by omega)
    refine ⟨row :: rows, ?_, by simp [hrowslen], ?_, ?_⟩
    · simp only [Maddness.dotRowsLoop, hslice, Option.some_bind,
        get?_some_of_lt m.Hashes i hilt, hrow, hrows, Option.map_some', List.flatten_cons,
        List.foldl_append]
    · intro r hr
      rcases List.mem_cons.mp hr with h1 | h1
      · rw [h1, hrowlen, h16]
      · exact hrows16 r h1
    · intro s k hs hk
      cases s with
      | zero =>
        simp only [Nat.add_zero, List.get?_cons_zero, Option.some_bind]
        simp only [protoDot, hslice, Option.some_bind, get?_some_of_lt m.Hashes i hilt]
        have hklt : k < (m.Hashes.get ⟨i, hilt⟩).Prototypes.length := by omega
        rw [get?_some_of_lt _ k hklt, Option.some_bind]
        exact hrowval k _ (get?_some_of_lt _ k hklt)
      | succ s =>
        simp only [List.get?_cons_succ]
        have he : i + (s + 1) = i + 1 + s := by omega
        rw [he]
        exact hrowsval s k (by omega) hk

theorem flatten_get? {α : Type} (c : Nat) :
    ∀ (rows : List (List α)), (∀ row ∈ rows, row.length = c) → ∀ s k, k < c →
      rows.flatten.get? (s * c + k) = (rows.get? s).bind fun row => row.get? k := by
  intro rows
  induction rows with
  | nil => intro _ s k _; simp
  | cons row rest ih =>
    intro hall s k hk
    have hrow : row.length = c := hall row (List.mem_cons_self _ _)
    cases s with
    | zero =>
      rw [Nat.zero_mul, Nat.zero_add, List.flatten_cons, List.get?_cons_zero, Option.some_bind,
        List.get?_eq_getElem?, List.get?_eq_getElem?, List.getElem?_append_left (by omega)]
    | succ s =>
      have he : (s + 1) * c + k - row.length = s * c + k := by
        rw [hrow, Nat.succ_mul]; omega
      have hge : row.length ≤ (s + 1) * c + k := by
        rw [hrow, Nat.succ_mul]; omega
      rw [List.flatten_cons, List.get?_cons_succ,
        ← ih (fun r hr => hall r (List.mem_cons_of_mem _ hr)) s k hk, List.get?_eq_getElem?,
        List.get?_eq_getElem?, List.getElem?_append_right hge, he]

theorem flatten_length {α : Type} (c : Nat) :
    ∀ (rows : List (List α)), (∀ row ∈ rows, row.length = c) →
      rows.flatten.length = rows.length * c := by
  intro rows
  induction rows with
  | nil => intro _; simp
  | cons row rest ih =>
    intro hall
    rw [List.flatten_cons, List.length_append, hall row (List.mem_cons_self _ _),
      ih (fun r hr => hall r (List.mem_cons_of_mem _ hr)), List.length_cons, Nat.succ_mul]
    omega

/-! ### makeLookupTable -/

theorem toUint8_of_range (x : ℚ) (h0 : 0 ≤ x) (h1 : x ≤ 255) :
    toUint8 x = ⌊x⌋.toNat ∧ ⌊x⌋.toNat ≤ 255 := by
  have hf0 : 0 ≤ ⌊x⌋ := Int.floor_nonneg.mpr h0
  have hf1 : ⌊x⌋ ≤ 255 := by
    have h2 : (⌊x⌋ : ℚ) ≤ 255 := le_trans (Int.floor_le x) h1
    exact_mod_cast h2
  have h3 : ⌊x⌋.toNat ≤ 255 := by omega
  refine ⟨?_, h3⟩
  unfold toUint8
  rw [if_pos h0]
  omega

theorem scaled_range (f lo hi : ℚ) (h1 : lo ≤ f) (h2 : f ≤ hi) (h3 : lo < hi) :
    0 ≤ (f - lo) * (255 / (hi - lo)) ∧ (f - lo) * (255 / (hi - lo)) ≤ 255 := by
  have hpos : 0 < hi - lo := by linarith
  constructor
  · apply mul_nonneg (by linarith)
    exact div_nonneg (by norm_num) (le_of_lt hpos)
  · rw [mul_div_assoc', div_le_iff₀ hpos]
    nlinarith

theorem mem_flatten_of_get? {rows : List (List ℚ)} (h16 : ∀ row ∈ rows, row.length = 16)
    {s k : Nat} (hs : s < rows.length) (hk : k < 16) :
    ∃ v, ((rows.get? s).bind fun row => row.get? k) = some v ∧ v ∈ rows.flatten ∧
      rows.flatten.get? (s * 16 + k) = some v := by
  have hrow : (rows.get ⟨s, hs⟩).length = 16 := h16 _ (List.get_mem _ _ _)
  have hk1 : k < (rows.get ⟨s, hs⟩).length := by omega
  have h1 : ((rows.get? s).bind fun row => row.get? k)
      = some ((rows.get ⟨s, hs⟩).get ⟨k, hk1⟩) := by
    rw [get?_some_of_lt rows s hs, Option.some_bind, get?_some_of_lt _ k hk1]
  have h2 := flatten_get? 16 rows h16 s k hk
  rw [h1] at h2
  exact ⟨_, h1, List.get?_mem h2, h2⟩

theorem get?_of_mem_flatten {rows : List (List ℚ)} (h16 : ∀ row ∈ rows, row.length = 16)
    {v : ℚ} (hv : v ∈ rows.flatten) :
    ∃ s k, s < rows.length ∧ k < 16 ∧ ((rows.get? s).bind fun row => row.get? k) = some v := by
  obtain ⟨row, hrow, hvrow⟩ := List.mem_flatten.mp hv
  obtain ⟨s, hs⟩ := List.get?_of_mem hrow
  obtain ⟨k, hk⟩ := List.get?_of_mem hvrow
  have hklt : k < row.length := get?_lt_length hk
  rw [h16 row hrow] at hklt
  exact ⟨s, k, get?_lt_length hs, hklt, by rw [hs, Option.some_bind, hk]⟩

theorem makeLookupTable_spec (m : Maddness) (q : List ℚ) (hn : 1 ≤ m.NumSubspaces)
    (hw : 1 ≤ m.SubVectorSize) (hq : m.NumSubspaces * m.SubVectorSize ≤ q.length)
    (hlen : m.Hashes.length = m.NumSubspaces)
    (hp : ∀ s h, m.Hashes.get? s = some h →
      h.Prototypes.length = 16 ∧ ∀ p ∈ h.Prototypes, p.length = m.SubVectorSize)
    (hne : ∃ s k s1 k1, s < m.NumSubspaces ∧ k < 16 ∧ s1 < m.NumSubspaces ∧ k1 < 16 ∧
      protoDot m q s k ≠ protoDot m q s1 k1) :
    ∃ (rows : List (List ℚ)) (lo hi : ℚ), rows.length = m.NumSubspaces ∧
      (∀ row ∈ rows, row.length = 16) ∧
      (∀ s k, s < m.NumSubspaces → k < 16 →
        protoDot m q s k = (rows.get? s).bind fun row => row.get? k) ∧
      lo ∈ rows.flatten ∧ hi ∈ rows.flatten ∧ (∀ x ∈ rows.flatten, lo ≤ x ∧ x ≤ hi) ∧
      lo < hi ∧
      Maddness.makeLookupTable m q = some (some
        { Bias := lo * (m.NumSubspaces : ℚ)
          Scale := 255 / (hi - lo)
          Data := rows.flatten.map fun v => toUint8 ((v - lo) * (255 / (hi - lo))) }) := by
  obtain ⟨rows, hrows, hrowslen, h16, hval⟩ := dotRowsLoop_spec m q hw hq hlen hp
    m.NumSubspaces 0 none none (by omega)
  have hval1 : ∀ s k, s < m.NumSubspaces → k < 16 →
      protoDot m q s k = (rows.get? s).bind fun row => row.get? k := by
    intro s k hs hk
    have := hval s k hs hk
    rw [Nat.zero_add] at this
    exact this
  have hflat : rows.flatten ≠ [] := by
    intro h0
    have := flatten_length 16 rows h16
    rw [h0, hrowslen] at this
    simp at this
    omega
  obtain ⟨lo, hlo, hlomem, hlole⟩ := foldl_lowerMin_none rows.flatten hflat
  obtain ⟨hi, hhi, hhimem, hhile⟩ := foldl_raiseMax_none rows.flatten hflat
  have hlt : lo < hi := by
    obtain ⟨s, k, s1, k1, hs, hk, hs1, hk1, hdiff⟩ := hne
    obtain ⟨v, hv, hvmem, _⟩ := mem_flatten_of_get? h16 (by rw [hrowslen]; exact hs) hk
    obtain ⟨v1, hv1, hv1mem, _⟩ := mem_flatten_of_get? h16 (by rw [hrowslen]; exact hs1) hk1
    rw [hval1 s k hs hk, hval1 s1 k1 hs1 hk1, hv, hv1] at hdiff
    have hvne : v ≠ v1 := fun h => hdiff (by rw [h])
    rcases lt_or_gt_of_ne hvne with h | h
    · linarith [hlole v hvmem, hhile v1 hv1mem]
    · linarith [hlole v1 hv1mem, hhile v hvmem]
  have hsub : ¬ (hi - lo = 0) := by
    intro h; linarith
  have hrne : ∃ r0 rs, rows = r0 :: rs := by
    cases rows with
    | nil => simp at hrowslen; omega
    | cons r0 rs => exact ⟨r0, rs, rfl⟩
  obtain ⟨r0, rs, hrs⟩ := hrne
  refine ⟨rows, lo, hi, hrowslen, h16, hval1, hlomem, hhimem,
    fun x hx => ⟨hlole x hx, hhile x hx⟩, hlt, ?_⟩
  simp only [Maddness.makeLookupTable, Maddness.precomputeDotProducts, hrows, Option.map_some',
    Option.some_bind, hlo, hhi, if_neg hsub]
  rw [hrs]
  simp only [Option.map_some', List.map_flatten, List.map_map]

theorem dotRowsLoop_fits (m : Maddness) (q : List ℚ) :
    ∀ (count i : Nat) (mn mx : Option ℚ) r, Maddness.dotRowsLoop m q count i mn mx = some r →
      1 ≤ count → (i + count) * m.SubVectorSize ≤ q.length := by
  intro count
  induction count with
  | zero => intro i mn mx r _ h; omega
  | succ count ih =>
    intro i mn mx r h _
    simp only [Maddness.dotRowsLoop, Option.bind_eq_some, Option.map_eq_some'] at h
    obtain ⟨sub, hsub, _, _, row, _, r1, hr1, _⟩ := h
    obtain ⟨_, _, _, hle⟩ := sliceRange_inv hsub
    by_cases hc : count = 0
    · subst hc
      have : (i + (0 + 1)) * m.SubVectorSize = i * m.SubVectorSize + m.SubVectorSize := by ring
      omega
    · have := ih (i + 1) _ _ r1 hr1 (by omega)
      have he : i + (count + 1) = i + 1 + count := by omega
      rw [he]
      exact this

theorem makeLookupTable_fits (m : Maddness) (q : List ℚ) (t : Option LookupTable)
    (hn : 1 ≤ m.NumSubspaces) (h : Maddness.makeLookupTable m q = some t) :
    m.NumSubspaces * m.SubVectorSize ≤ q.length := by
  simp only [Maddness.makeLookupTable, Maddness.precomputeDotProducts, Option.bind_eq_some,
    Option.map_eq_some'] at h
  obtain ⟨_, ⟨r, hr, _⟩, _⟩ := h
  have := dotRowsLoop_fits m q m.NumSubspaces 0 none none r hr hn
  rw [Nat.zero_add] at this
  exact this

/-- What the table built for the query `q` stores, entry by entry. -/
theorem table_entries (m : Maddness) (q : List ℚ) (hn : 1 ≤ m.NumSubspaces)
    (hw : 1 ≤ m.SubVectorSize) (hq : m.NumSubspaces * m.SubVectorSize ≤ q.length)
    (hlen : m.Hashes.length = m.NumSubspaces)
    (hp : ∀ s h, m.Hashes.get? s = some h →
      h.Prototypes.length = 16 ∧ ∀ p ∈ h.Prototypes, p.length = m.SubVectorSize)
    (hne : ∃ s k s1 k1, s < m.NumSubspaces ∧ k < 16 ∧ s1 < m.NumSubspaces ∧ k1 < 16 ∧
      protoDot m q s k ≠ protoDot m q s1 k1) :
    ∃ (lut : LookupTable) (lo hi : ℚ), Maddness.makeLookupTable m q = some (some lut) ∧
      lo < hi ∧ lut.Scale = 255 / (hi - lo) ∧ lut.Bias = lo * (m.NumSubspaces : ℚ) ∧
      lut.Data.length = m.NumSubspaces * 16 ∧ (∀ b ∈ lut.Data, b < 256) ∧
      (∃ s k, s < m.NumSubspaces ∧ k < 16 ∧ protoDot m q s k = some lo) ∧
      (∃ s k, s < m.NumSubspaces ∧ k < 16 ∧ protoDot m q s k = some hi) ∧
      ∀ s k, s < m.NumSubspaces → k < 16 → ∃ f, protoDot m q s k = some f ∧ lo ≤ f ∧ f ≤ hi ∧
        lut.Data.get? (s * 16 + k) = some (toUint8 ((f - lo) * (255 / (hi - lo)))) := by
  obtain ⟨rows, lo, hi, hrowslen, h16, hval, hlomem, hhimem, hbounds, hlt, htable⟩ :=
    makeLookupTable_spec m q hn hw hq hlen hp hne
  refine ⟨_, lo, hi, htable, hlt, rfl, rfl, ?_, ?_, ?_, ?_, ?_⟩
  · simp only [List.length_map]
    rw [flatten_length 16 rows h16, hrowslen]
  · intro b hb
    obtain ⟨v, _, hv⟩ := List.mem_map.mp hb
    rw [← hv]
    unfold toUint8
    exact Nat.mod_lt _ (by norm_num)
  · obtain ⟨s, k, hs, hk, h1⟩ := get?_of_mem_flatten h16 hlomem
    rw [hrowslen] at hs
    exact ⟨s, k, hs, hk, by rw [hval s k hs hk, h1]⟩
  · obtain ⟨s, k, hs, hk, h1⟩ := get?_of_mem_flatten h16 hhimem
    rw [hrowslen] at hs
    exact ⟨s, k, hs, hk, by rw [hval s k hs hk, h1]⟩
  · intro s k hs hk
    obtain ⟨v, hv, hvmem, hvget⟩ := mem_flatten_of_get? h16 (by rw [hrowslen]; exact hs) hk
    refine ⟨v, by rw [hval s k hs hk, hv], (hbounds v hvmem).1, (hbounds v hvmem).2, ?_⟩
    show List.get? (List.map _ rows.flatten) (s * 16 + k) = _
    rw [List.get?_eq_getElem?, List.getElem?_map, ← List.get?_eq_getElem?, hvget]
    rfl

/-! ### The quantization error of one table entry and of a sum of entries -/

theorem entry_error (f lo hi : ℚ) (h1 : lo ≤ f) (h2 : f ≤ hi) (h3 : lo < hi) :
    ∃ d : Nat, toUint8 ((f - lo) * (255 / (hi - lo))) = d ∧
      (d : Int) = ⌊(f - lo) * (255 / (hi - lo))⌋ ∧ d ≤ 255 ∧
      0 ≤ f - ((d : ℚ) / (255 / (hi - lo)) + lo) ∧
      f - ((d : ℚ) / (255 / (hi - lo)) + lo) ≤ (hi - lo) / 255 := by
  obtain ⟨hx0, hx1⟩ := scaled_range f lo hi h1 h2 h3
  obtain ⟨hd, hd255⟩ := toUint8_of_range _ hx0 hx1
  have hpos : 0 < hi - lo := by linarith
  have hscale : 0 < 255 / (hi - lo) := div_pos (by norm_num) hpos
  have hf0 : 0 ≤ ⌊(f - lo) * (255 / (hi - lo))⌋ := Int.floor_nonneg.mpr hx0
  have hcast : ((⌊(f - lo) * (255 / (hi - lo))⌋.toNat : Nat) : Int)
      = ⌊(f - lo) * (255 / (hi - lo))⌋ := Int.toNat_of_nonneg hf0
  have hcastq : ((⌊(f - lo) * (255 / (hi - lo))⌋.toNat : Nat) : ℚ)
      = ((⌊(f - lo) * (255 / (hi - lo))⌋ : Int) : ℚ) := by
    rw [← Int.cast_natCast, hcast]
  have hle : ((⌊(f - lo) * (255 / (hi - lo))⌋ : Int) : ℚ) ≤ (f - lo) * (255 / (hi - lo)) :=
    Int.floor_le _
  have hlt : (f - lo) * (255 / (hi - lo)) < ((⌊(f - lo) * (255 / (hi - lo))⌋ : Int) : ℚ) + 1 :=
    Int.lt_floor_add_one _
  refine ⟨_, hd, hcast, hd255, ?_, ?_⟩
  · rw [hcastq]
    have : ((⌊(f - lo) * (255 / (hi - lo))⌋ : Int) : ℚ) / (255 / (hi - lo)) ≤ f - lo := by
      rw [div_le_iff₀ hscale]
      exact hle
    linarith
  · rw [hcastq]
    have h4 : f - lo < (((⌊(f - lo) * (255 / (hi - lo))⌋ : Int) : ℚ) + 1) / (255 / (hi - lo)) := by
      rw [lt_div_iff₀ hscale]
      exact hlt
    have h5 : (((⌊(f - lo) * (255 / (hi - lo))⌋ : Int) : ℚ) + 1) / (255 / (hi - lo))
        = ((⌊(f - lo) * (255 / (hi - lo))⌋ : Int) : ℚ) / (255 / (hi - lo)) + (hi - lo) / 255 := by
      field_simp
      ring
    rw [h5] at h4
    linarith

theorem sum_error (m : Maddness) (q : List ℚ) (data : List Nat) (lo hi : ℚ) (hlt : lo < hi)
    (hdata : ∀ s k, s < m.NumSubspaces → k < 16 → ∃ f, protoDot m q s k = some f ∧ lo ≤ f ∧
      f ≤ hi ∧ data.get? (s * 16 + k) = some (toUint8 ((f - lo) * (255 / (hi - lo))))) :
    ∀ (kvec : List Nat) (i acc : Nat), i + kvec.length ≤ m.NumSubspaces →
      m.NumSubspaces ≤ 257 → (∀ x ∈ kvec, x < 16) → acc + 255 * kvec.length < 65536 →
      ∃ S : Nat, Maddness.sumLoop data (Maddness.indicesLoop 16 kvec i) acc = some (acc + S) ∧
        0 ≤ exactDotLoop m q kvec i - ((S : ℚ) / (255 / (hi - lo)) + lo * (kvec.length : ℚ)) ∧
        exactDotLoop m q kvec i - ((S : ℚ) / (255 / (hi - lo)) + lo * (kvec.length : ℚ))
          ≤ (kvec.length : ℚ) * ((hi - lo) / 255) := by
  intro kvec
  induction kvec with
  | nil =>
    intro i acc _ _ _ _
    exact ⟨0, by simp [Maddness.indicesLoop, Maddness.sumLoop], by simp [exactDotLoop],
      by simp [exactDotLoop]⟩
  | cons k rest ih =>
    intro i acc hi1 hN hk hacc
    simp only [List.length_cons] at hi1 hacc
    have hk16 : k < 16 := hk k (List.mem_cons_self _ _)
    obtain ⟨f, hf, hlo, hhi, hget⟩ := hdata i k (by omega) hk16
    obtain ⟨d, hd, _, hd255, he0, he1⟩ := entry_error f lo hi hlo hhi hlt
    rw [hd] at hget
    have hidx : ((i * 16) % 65536 + k % 65536) % 65536 = i * 16 + k := by omega
    have hmod : (acc + d) % 65536 = acc + d := by omega
    obtain ⟨S, hS, hS0, hS1⟩ := ih (i + 1) (acc + d) (by omega) hN
      (fun x hx => hk x (List.mem_cons_of_mem _ hx)) (by omega)
    refine ⟨d + S, ?_, ?_, ?_⟩
    · simp only [Maddness.indicesLoop, Maddness.sumLoop, hidx, hget, Option.some_bind, hmod, hS]
      congr 1
      omega
    · simp only [exactDotLoop, hf, Option.getD_some, List.length_cons]
      push_cast
      have : ((d : ℚ) + (S : ℚ)) / (255 / (hi - lo))
          = (d : ℚ) / (255 / (hi - lo)) + (S : ℚ) / (255 / (hi - lo)) := by ring
      rw [this]
      linarith
    · simp only [exactDotLoop, hf, Option.getD_some, List.length_cons]
      push_cast
      have : ((d : ℚ) + (S : ℚ)) / (255 / (hi - lo))
          = (d : ℚ) / (255 / (hi - lo)) + (S : ℚ) / (255 / (hi - lo)) := by ring
      rw [this]
      linarith

/-- C9 (lookup-table construction). On a model returned by `TrainMaddness`
with `N` subspaces, for every query vector `q` at least as long as the vector
size whose `16 * N` prototype dot products `f[s][k]` are not all equal,
`makeLookupTable` returns a table whose `Data` has length `N * 16` and holds at
position `s*16 + k` the integer `floor((f[s][k] - min) * Scale)`, where `min`
and `max` are the least and the greatest dot product (both attained),
`Scale = 255 / (max - min)` and `Bias = min * N`; every stored value is at most
255, an entry equal to `min` is stored as 0 and an entry equal to `max` as 255. -/
theorem C9_lookup_table_construction (na : Nextafter32) (data queries : List (List ℚ))
    (N : Int) (m : Maddness) (htrain : TrainMaddness na data queries N = some m)
    (q : List ℚ) (hq : m.VectorSize ≤ q.length)
    (hne : ∃ s k s1 k1, s < m.NumSubspaces ∧ k < 16 ∧ s1 < m.NumSubspaces ∧ k1 < 16 ∧
      protoDot m q s k ≠ protoDot m q s1 k1) :
    ∃ (lut : LookupTable) (min max : ℚ), Maddness.makeLookupTable m q = some (some lut) ∧
      min < max ∧
      (∃ s k, s < m.NumSubspaces ∧ k < 16 ∧ protoDot m q s k = some min) ∧
      (∃ s k, s < m.NumSubspaces ∧ k < 16 ∧ protoDot m q s k = some max) ∧
      lut.Scale = 255 / (max - min) ∧ lut.Bias = min * (m.NumSubspaces : ℚ) ∧
      lut.Data.length = m.NumSubspaces * 16 ∧
      ∀ s k, s < m.NumSubspaces → k < 16 → ∃ (f : ℚ) (d : Nat),
        protoDot m q s k = some f ∧ min ≤ f ∧ f ≤ max ∧
        lut.Data.get? (s * 16 + k) = some d ∧ (d : Int) = ⌊(f - min) * lut.Scale⌋ ∧ d ≤ 255 ∧
        (f = min → d = 0) ∧ (f = max → d = 255) := by
  obtain ⟨ht, _, _⟩ := TrainMaddness_inv na data queries N m htrain
  obtain ⟨lut, lo, hi, h1, h2, h3, h4, h5, _, h7, h8, h9⟩ := table_entries m q ht.subspaces_pos
    ht.width_pos (by rw [← ht.size_eq]; exact hq) ht.hashes_len (trained_protos ht) hne
  refine ⟨lut, lo, hi, h1, h2, h7, h8, h3, h4, h5, ?_⟩
  intro s k hs hk
  obtain ⟨f, hf, hlo, hhi, hget⟩ := h9 s k hs hk
  obtain ⟨d, hd, hfloor, hd255, _, _⟩ := entry_error f lo hi hlo hhi h2
  rw [hd] at hget
  refine ⟨f, d, hf, hlo, hhi, hget, by rw [h3]; exact hfloor, hd255, ?_, ?_⟩
  · intro hfl
    rw [hfl, sub_self, zero_mul, Int.floor_zero] at hfloor
    exact_mod_cast hfloor
  · intro hfh
    have hpos : hi - lo ≠ 0 := by linarith
    have h255 : (hi - lo) * (255 / (hi - lo)) = (255 : ℚ) := by field_simp
    rw [hfh, h255] at hfloor
    have : ⌊(255 : ℚ)⌋ = 255 := by
      simp
    rw [this] at hfloor
    exact_mod_cast hfloor

theorem C9_lookup_table_construction_witness :
    ∃ (lut : LookupTable) (min max : ℚ),
      Maddness.makeLookupTable smallModel [1, 1] = some (some lut) ∧ min < max ∧
      (∃ s k, s < smallModel.NumSubspaces ∧ k < 16 ∧ protoDot smallModel [1, 1] s k = some min) ∧
      (∃ s k, s < smallModel.NumSubspaces ∧ k < 16 ∧ protoDot smallModel [1, 1] s k = some max) ∧
      lut.Scale = 255 / (max - min) ∧ lut.Bias = min * (smallModel.NumSubspaces : ℚ) ∧
      lut.Data.length = smallModel.NumSubspaces * 16 ∧
      ∀ s k, s < smallModel.NumSubspaces → k < 16 → ∃ (f : ℚ) (d : Nat),
        protoDot smallModel [1, 1] s k = some f ∧ min ≤ f ∧ f ≤ max ∧
        lut.Data.get? (s * 16 + k) = some d ∧ (d : Int) = ⌊(f - min) * lut.Scale⌋ ∧ d ≤ 255 ∧
        (f = min → d = 0) ∧ (f = max → d = 255) :=
  C9_lookup_table_construction unitStep [[0, 2], [0, 0], [2, 0]] [[1, 1]] 1 smallModel
    (by decide!) [1, 1] (by decide!)
    ⟨0, 15, 0, 0, by decide!, by decide, by decide!, by decide, by decide!⟩

/-- C7 (LUT identity with bounded error). On a model returned by
`TrainMaddness` with `N ≤ 257` subspaces, for every registered query `q`
(index `idx`) whose `16 * N` prototype dot products are not all equal, and
every vector `k` of `N` prototype indices below 16,
`DotProduct(LookupTableIndices(k), idx)` differs from the exact sum over `s` of
`<q_sub_s, Prototypes_s[k[s]]>` by at most `N * (max - min) / 255`, where `min`
and `max` are the least and the greatest of the dot products. -/
theorem C7_lut_error_bound (na : Nextafter32) (data queries : List (List ℚ))
    (N : Int) (m : Maddness) (htrain : TrainMaddness na data queries N = some m)
    (hN : m.NumSubspaces ≤ 257) (idx : Nat) (q : List ℚ) (hq : queries.get? idx = some q)
    (hne : ∃ s k s1 k1, s < m.NumSubspaces ∧ k < 16 ∧ s1 < m.NumSubspaces ∧ k1 < 16 ∧
      protoDot m q s k ≠ protoDot m q s1 k1)
    (kvec : List Nat) (hklen : kvec.length = m.NumSubspaces) (hk16 : ∀ x ∈ kvec, x < 16) :
    ∃ (min max : ℚ) (indices : List Nat) (approx : ℚ),
      (∀ s k, s < m.NumSubspaces → k < 16 →
        ∃ f, protoDot m q s k = some f ∧ min ≤ f ∧ f ≤ max) ∧
      (∃ s k, s < m.NumSubspaces ∧ k < 16 ∧ protoDot m q s k = some min) ∧
      (∃ s k, s < m.NumSubspaces ∧ k < 16 ∧ protoDot m q s k = some max) ∧
      Maddness.LookupTableIndices m kvec = some indices ∧
      Maddness.DotProduct m indices idx = some approx ∧
      |approx - exactDotLoop m q kvec 0| ≤ (m.NumSubspaces : ℚ) * (max - min) / 255 := by
  obtain ⟨ht, _, _⟩ := TrainMaddness_inv na data queries N m htrain
  obtain ⟨t, htab, hget⟩ := ht.tables idx q hq
  have hfit := makeLookupTable_fits m q t ht.subspaces_pos htab
  obtain ⟨lut, lo, hi, h1, h2, h3, h4, h5, h6, h7, h8, h9⟩ := table_entries m q ht.subspaces_pos
    ht.width_pos hfit ht.hashes_len (trained_protos ht) hne
  rw [h1] at htab
  cases htab
  have h0lt : 0 < m.Hashes.length := by rw [ht.hashes_len]; exact ht.subspaces_pos
  have h16 := (trained_protos ht 0 _ (get?_some_of_lt m.Hashes 0 h0lt)).1
  have hdata : ∀ s k, s < m.NumSubspaces → k < 16 → ∃ f, protoDot m q s k = some f ∧ lo ≤ f ∧
      f ≤ hi ∧ lut.Data.get? (s * 16 + k) = some (toUint8 ((f - lo) * (255 / (hi - lo)))) := h9
  obtain ⟨S, hS, hS0, hS1⟩ := sum_error m q lut.Data lo hi h2 hdata kvec 0 0
    (by omega) hN hk16 (by omega)
  rw [Nat.zero_add] at hS
  have hpos : 0 < hi - lo := by linarith
  have hscale : lut.Scale ≠ 0 := by
    rw [h3]
    exact ne_of_gt (div_pos (by norm_num) hpos)
  refine ⟨lo, hi, Maddness.indicesLoop 16 kvec 0, (S : ℚ) / lut.Scale + lut.Bias, ?_, h7, h8,
    ?_, ?_, ?_⟩
  · intro s k hs hk
    obtain ⟨f, hf, hl, hh, _⟩ := h9 s k hs hk
    exact ⟨f, hf, hl, hh⟩
  · simp only [Maddness.LookupTableIndices, get?_some_of_lt m.Hashes 0 h0lt, Option.map_some',
      h16]
  · simp only [Maddness.DotProduct, hget, Option.some_bind, hS, if_neg hscale]
  · rw [h3, h4, ← hklen]
    rw [abs_le]
    constructor
    · have : (kvec.length : ℚ) * (hi - lo) / 255 = (kvec.length : ℚ) * ((hi - lo) / 255) := by
        ring
      rw [this]
      linarith
    · have hnn : 0 ≤ (kvec.length : ℚ) * (hi - lo) / 255 := by positivity
      linarith

theorem C7_lut_error_bound_witness :
    ∃ (min max : ℚ) (indices : List Nat) (approx : ℚ),
      (∀ s k, s < smallModel.NumSubspaces → k < 16 →
        ∃ f, protoDot smallModel [1, 1] s k = some f ∧ min ≤ f ∧ f ≤ max) ∧
      (∃ s k, s < smallModel.NumSubspaces ∧ k < 16 ∧ protoDot smallModel [1, 1] s k = some min) ∧
      (∃ s k, s < smallModel.NumSubspaces ∧ k < 16 ∧ protoDot smallModel [1, 1] s k = some max) ∧
      Maddness.LookupTableIndices smallModel [3] = some indices ∧
      Maddness.DotProduct smallModel indices 0 = some approx ∧
      |approx - exactDotLoop smallModel [1, 1] [3] 0|
        ≤ (smallModel.NumSubspaces : ℚ) * (max - min) / 255 :=
  C7_lut_error_bound unitStep [[0, 2], [0, 0], [2, 0]] [[1, 1]] 1 smallModel (by decide!)
    (by decide!) 0 [1, 1] rfl
    ⟨0, 15, 0, 0, by decide!, by decide, by decide!, by decide, by decide!⟩
    [3] (by decide!) (by decide)
/-! ### The checks of TrainMaddness -/

theorem TrainMaddness_eq_guard (na : Nextafter32) (data queries : List (List ℚ)) (N : Int) :
    TrainMaddness na data queries N =
      (trainGuard data queries N).bind fun m =>
        (Maddness.trainAllHashes na m data).bind fun m1 =>
          Maddness.makeLookupTables m1 queries := by
  unfold TrainMaddness trainGuard
  cases data with
  | nil => rfl
  | cons ex0 rest =>
    simp only
    split_ifs <;> rfl

theorem trainGuard_none (data queries : List (List ℚ)) (N : Int)
    (h : data = [] ∨ queries = [] ∨
      ∃ ex0 rest, data = ex0 :: rest ∧
        (ex0.length = 0 ∨ N ≤ 0 ∨ (ex0.length : Int) < N ∨ (ex0.length : Int) % N ≠ 0)) :
    trainGuard data queries N = none := by
  unfold trainGuard
  rcases h with h | h | ⟨ex0, rest, h, h1⟩
  · rw [h]
  · cases data with
    | nil => rfl
    | cons ex0 rest =>
      simp only
      rw [if_pos (by rw [h]; rfl)]
  · rw [h]
    simp only
    split_ifs with h2 h3 h4 h5 h6
    · rfl
    · rfl
    · rfl
    · rfl
    · rfl
    · exfalso
      rcases h1 with h1 | h1 | h1 | h1
      · exact h3 h1
      · omega
      · omega
      · exact h1 (not_not.mp h6)

/-- C13 (fatal precondition failures). `TrainMaddness` is its head of checks
followed by the training of the hashes and the construction of the lookup
tables; when `dataExamples` is empty, `queryVectors` is empty, the width `M` of
the first example is 0, or `numSubspaces` is not a positive factor of `M`
(`N ≤ 0`, `N > M` or `M mod N ≠ 0`), the checks already fail, so `TrainMaddness`
fails without reaching `trainAllHashes` or `makeLookupTables`. -/
theorem C13_trainMaddness_preconditions (na : Nextafter32) (data queries : List (List ℚ))
    (N : Int)
    (h : data = [] ∨ queries = [] ∨
      ∃ ex0 rest, data = ex0 :: rest ∧
        (ex0.length = 0 ∨ N ≤ 0 ∨ (ex0.length : Int) < N ∨ (ex0.length : Int) % N ≠ 0)) :
    (TrainMaddness na data queries N =
      (trainGuard data queries N).bind fun m =>
        (Maddness.trainAllHashes na m data).bind fun m1 =>
          Maddness.makeLookupTables m1 queries) ∧
      trainGuard data queries N = none ∧ TrainMaddness na data queries N = none := by
  have h1 := TrainMaddness_eq_guard na data queries N
  have h2 := trainGuard_none data queries N h
  refine ⟨h1, h2, ?_⟩
  rw [h1, h2]
  rfl

theorem C13_trainMaddness_preconditions_witness :
    (TrainMaddness unitStep [[1, 2, 3], [4, 5, 6]] [[1, 1, 1]] 2 =
      (trainGuard [[1, 2, 3], [4, 5, 6]] [[1, 1, 1]] 2).bind fun m =>
        (Maddness.trainAllHashes unitStep m [[1, 2, 3], [4, 5, 6]]).bind fun m1 =>
          Maddness.makeLookupTables m1 [[1, 1, 1]]) ∧
      trainGuard [[1, 2, 3], [4, 5, 6]] [[1, 1, 1]] 2 = none ∧
      TrainMaddness unitStep [[1, 2, 3], [4, 5, 6]] [[1, 1, 1]] 2 = none :=
  C13_trainMaddness_preconditions unitStep [[1, 2, 3], [4, 5, 6]] [[1, 1, 1]] 2
    (Or.inr (Or.inr ⟨[1, 2, 3], [[4, 5, 6]], rfl, Or.inr (Or.inr (Or.inr (by decide)))⟩))

/-! ### Row order and OptimalSplitThreshold (C19) -/

/-- C19 (the order of the vectors does not change the result of
`OptimalSplitThreshold`) fails on the code: on the rows `[0,0], [0,1], [1,0]`
and column `0` the result is `(1/2, 1/2)`, on the same rows in reverse order it
is `(0, 1/2)`. -/
theorem C19_optimalSplitThreshold_depends_on_row_order :
    Vectors.OptimalSplitThreshold unitStep [[0, 0], [0, 1], [1, 0]] 0 = some (1 / 2, 1 / 2) ∧
      Vectors.OptimalSplitThreshold unitStep (List.reverse [[0, 0], [0, 1], [1, 0]]) 0
        = some (0, 1 / 2) := by
  decide!

/-! ### Quantize and Reconstruct on a trained model -/

theorem hash_total (h : Hash) (v : List ℚ) (h4 : h.TreeLevels.length = 4)
    (hth : ∀ l lvl, h.TreeLevels.get? l = some lvl →
      lvl.SplitIndex < v.length ∧ lvl.SplitThresholds.length = 2 ^ l) :
    ∃ k, Hash.Hash h v = some k ∧ k < 16 := by
  obtain ⟨i1, reads, h5, _, h7, h8, _, _⟩ := hashLoop_bounded v h.TreeLevels 0 1
    (le_refl 1) (by simp) (by rw [h4]; norm_num)
    (fun l1 lvl hl => by
      rw [Nat.zero_add]
      exact ⟨le_of_eq (hth l1 lvl hl).2.symm, (hth l1 lvl hl).1⟩)
  rw [h4] at h8
  have h16 : i1 ≤ 16 := by simpa using h8
  refine ⟨i1 - 1, ?_, by omega⟩
  simp only [Hash.Hash, h5, Option.map_some']
  congr 1
  omega

theorem trained_levels {na : Nextafter32} {data queries : List (List ℚ)} {m : Maddness}
    (ht : Trained na data queries m) (s : Nat) (h : Hash) (hs : m.Hashes.get? s = some h) :
    h.TreeLevels.length = 4 ∧ ∀ l lvl, h.TreeLevels.get? l = some lvl →
      lvl.SplitIndex < m.SubVectorSize ∧ lvl.SplitThresholds.length = 2 ^ l := by
  have hslt : s < m.NumSubspaces := by rw [← ht.hashes_len]; exact get?_lt_length hs
  obtain ⟨sub, h1, hsub, htr, hget⟩ := ht.hashes s hslt
  rw [hs] at hget
  cases hget
  obtain ⟨hne, hrect, _⟩ := subspaceExamples_good m s data sub ht.data_ne hsub
  obtain ⟨h2, htr2, h4, hl, _, _⟩ := trainHash_shape na ht.width_pos sub hne hrect
  rw [htr] at htr2
  cases htr2
  exact ⟨h4, hl⟩

theorem quantizeLoop_spec (w : Nat) (v : List ℚ) :
    ∀ (hs : List Hash) (i : Nat),
      (∀ h ∈ hs, h.TreeLevels.length = 4 ∧ ∀ l lvl, h.TreeLevels.get? l = some lvl →
        lvl.SplitIndex < w ∧ lvl.SplitThresholds.length = 2 ^ l) →
      (i + hs.length) * w ≤ v.length →
      ∃ q, Maddness.quantizeLoop w v hs i = some q ∧ q.length = hs.length ∧
        ∀ s h, hs.get? s = some h → ∃ b,
          sliceRange v ((i + s) * w) ((i + s) * w + w)
            = some ((v.drop ((i + s) * w)).take w) ∧
          Hash.Hash h ((v.drop ((i + s) * w)).take w) = some b ∧ b < 16 ∧
          q.get? s = some b := by
  intro hs
  induction hs with
  | nil =>
    intro i _ _
    exact ⟨[], rfl, rfl, fun s h hget => by simp at hget⟩
  | cons h rest ih =>
    intro i hshape hlen
    have hlen1 : (i + 1 + rest.length) * w ≤ v.length := by
      have : i + (h :: rest).length = i + 1 + rest.length := by simp; omega
      rw [← this]; exact hlen
    have hiw : i * w + w ≤ v.length := by
      have h1 : (i + 1) * w ≤ (i + 1 + rest.length) * w :=
        Nat.mul_le_mul_right _ (by omega)
      have h2 : (i + 1) * w = i * w + w := by ring
      omega
    obtain ⟨q, hq, hqlen, hqs⟩ := ih (i + 1)
      (fun h1 hh1 => hshape h1 (List.mem_cons_of_mem _ hh1)) hlen1
    have hsl : sliceRange v (i * w) (i * w + w) = some ((v.drop (i * w)).take w) := by
      have := sliceRange_some v (i * w) (i * w + w) (by omega) hiw
      rw [this, Nat.add_sub_cancel_left]
    have hsublen : ((v.drop (i * w)).take w).length = w := by
      rw [List.length_take, List.length_drop]
      omega
    obtain ⟨h4, hl⟩ := hshape h (List.mem_cons_self _ _)
    obtain ⟨b, hb, hb16⟩ := hash_total h ((v.drop (i * w)).take w) h4
      (fun l lvl hget => by rw [hsublen]; exact hl l lvl hget)
    refine ⟨b :: q, ?_, by simp [hqlen], ?_⟩
    · simp only [Maddness.quantizeLoop, hsl, Option.some_bind, hb, hq, Option.map_some']
    · intro s h1 hget
      cases s with
      | zero =>
        simp only [List.get?_cons_zero, Option.some.injEq] at hget
        subst hget
        rw [Nat.add_zero]
        exact ⟨b, hsl, hb, hb16, rfl⟩
      | succ s =>
        rw [List.get?_cons_succ] at hget
        obtain ⟨b1, e1, e2, e3, e4⟩ := hqs s h1 hget
        have he : i + 1 + s = i + (s + 1) := by omega
        rw [he] at e1 e2
        exact ⟨b1, e1, e2, e3, by rw [List.get?_cons_succ]; exact e4⟩

theorem reconstructLoop_spec (w : Nat) (q : List Nat) (hq : ∀ k ∈ q, k < 16) :
    ∀ (hs : List Hash) (i : Nat),
      (∀ h ∈ hs, h.Prototypes.length = 16 ∧ ∀ p ∈ h.Prototypes, p.length = w) →
      i + hs.length ≤ q.length →
      ∃ sel : List (List ℚ), Maddness.reconstructLoop q hs i = some sel.flatten ∧
        sel.length = hs.length ∧ (∀ p ∈ sel, p.length = w) ∧
        ∀ s h, hs.get? s = some h → ∃ k p, q.get? (i + s) = some k ∧
          h.Prototypes.get? k = some p ∧ sel.get? s = some p := by
  intro hs
  induction hs with
  | nil =>
    intro i _ _
    exact ⟨[], rfl, rfl, fun p hp => by simp at hp, fun s h hget => by simp at hget⟩
  | cons h rest ih =>
    intro i hshape hlen
    have hlen0 : i + (rest.length + 1) ≤ q.length := by simpa using hlen
    obtain ⟨sel, hsel, hsellen, hselw, hsels⟩ := ih (i + 1)
      (fun h1 hh1 => hshape h1 (List.mem_cons_of_mem _ hh1)) (by omega)
    have hi : i < q.length := by omega
    have hqi := get?_some_of_lt q i hi
    have hk : q.get ⟨i, hi⟩ < 16 := hq _ (List.get_mem q i hi)
    obtain ⟨h16, hpw⟩ := hshape h (List.mem_cons_self _ _)
    have hk1 : q.get ⟨i, hi⟩ < h.Prototypes.length := by rw [h16]; exact hk
    have hp := get?_some_of_lt h.Prototypes _ hk1
    refine ⟨h.Prototypes.get ⟨_, hk1⟩ :: sel, ?_, by simp [hsellen], ?_, ?_⟩
    · simp only [Maddness.reconstructLoop, hqi, Option.some_bind, hp, hsel, Option.map_some',
        List.flatten_cons]
    · intro p hmem
      rcases List.mem_cons.mp hmem with h1 | h1
      · rw [h1]; exact hpw _ (List.get_mem _ _ _)
      · exact hselw p h1
    · intro s h1 hget
      cases s with
      | zero =>
        simp only [List.get?_cons_zero, Option.some.injEq] at hget
        subst hget
        exact ⟨_, _, hqi, hp, rfl⟩
      | succ s =>
        rw [List.get?_cons_succ] at hget
        obtain ⟨k, p, e1, e2, e3⟩ := hsels s h1 hget
        have he : i + 1 + s = i + (s + 1) := by omega
        rw [he] at e1
        exact ⟨k, p, e1, e2, by rw [List.get?_cons_succ]; exact e3⟩

/-- C11 (Quantize). For every model `m` returned by `TrainMaddness` and every
vector `v` of length `m.VectorSize = N * w`, `Quantize(v)` returns exactly `N`
values; value `s` is `Hashes[s].Hash` applied to the slice
`v[s*w .. (s+1)*w)`, and it is below 16. -/
theorem C11_quantize (na : Nextafter32) (data queries : List (List ℚ)) (N : Int)
    (m : Maddness) (ht : TrainMaddness na data queries N = some m)
    (v : List ℚ) (hv : v.length = m.VectorSize) :
    (m.NumSubspaces : Int) = N ∧ m.VectorSize = m.NumSubspaces * m.SubVectorSize ∧
    ∃ q, Maddness.Quantize m v = some q ∧ q.length = m.NumSubspaces ∧
      ∀ s, s < m.NumSubspaces → ∃ h b,
        m.Hashes.get? s = some h ∧
        sliceRange v (s * m.SubVectorSize) (s * m.SubVectorSize + m.SubVectorSize)
          = some ((v.drop (s * m.SubVectorSize)).take m.SubVectorSize) ∧
        Hash.Hash h ((v.drop (s * m.SubVectorSize)).take m.SubVectorSize) = some b ∧
        q.get? s = some b ∧ b < 16 := by
  obtain ⟨htr, hN, _⟩ := TrainMaddness_inv na data queries N m ht
  refine ⟨hN.symm, htr.size_eq, ?_⟩
  obtain ⟨q, hq, hqlen, hqs⟩ := quantizeLoop_spec m.SubVectorSize v m.Hashes 0
    (fun h hh => by
      obtain ⟨s, hs⟩ := List.get?_of_mem hh
      exact trained_levels htr s h hs)
    (by rw [Nat.zero_add, htr.hashes_len, hv, htr.size_eq])
  refine ⟨q, hq, by rw [hqlen, htr.hashes_len], ?_⟩
  intro s hs
  have hs1 : s < m.Hashes.length := by rw [htr.hashes_len]; exact hs
  have hget := get?_some_of_lt m.Hashes s hs1
  obtain ⟨b, e1, e2, e3, e4⟩ := hqs s _ hget
  rw [Nat.zero_add] at e1 e2
  exact ⟨_, b, hget, e1, e2, e4, e3⟩

set_option maxRecDepth 100000 in
theorem C11_quantize_witness :
    (Maddness.Quantize testModel [16, 32, 139, 103, 9, 8, 7, 6] = some [15, 15, 15, 15] ∧
      Maddness.Quantize testModel [1, 2, 5, 2, 0, 1, 2, 3] = some [0, 0, 0, 0]) ∧
    (testModel.NumSubspaces : Int) = 4 ∧
    testModel.VectorSize = testModel.NumSubspaces * testModel.SubVectorSize ∧
    ∃ q, Maddness.Quantize testModel [16, 32, 139, 103, 9, 8, 7, 6] = some q ∧
      q.length = testModel.NumSubspaces ∧
      ∀ s, s < testModel.NumSubspaces → ∃ h b,
        testModel.Hashes.get? s = some h ∧
        sliceRange [16, 32, 139, 103, 9, 8, 7, 6] (s * testModel.SubVectorSize)
            (s * testModel.SubVectorSize + testModel.SubVectorSize)
          = some ((List.drop (s * testModel.SubVectorSize)
              [16, 32, 139, 103, 9, 8, 7, 6]).take testModel.SubVectorSize) ∧
        Hash.Hash h ((List.drop (s * testModel.SubVectorSize)
            [16, 32, 139, 103, 9, 8, 7, 6]).take testModel.SubVectorSize) = some b ∧
        q.get? s = some b ∧ b < 16 :=
  ⟨by decide!,
    C11_quantize unitStep testExamples testQueries 4 testModel (by decide!)
      [16, 32, 139, 103, 9, 8, 7, 6] (by decide!)⟩

/-- C12 (Reconstruct). For every model `m` returned by `TrainMaddness` and every
list `q` of `N` prototype indices below 16, `Reconstruct(q)` returns a vector of
length `m.VectorSize` that is the concatenation, for `s = 0 .. N-1` in this
order, of `Hashes[s].Prototypes[q[s]]`. -/
theorem C12_reconstruct (na : Nextafter32) (data queries : List (List ℚ)) (N : Int)
    (m : Maddness) (ht : TrainMaddness na data queries N = some m)
    (q : List Nat) (hlen : q.length = m.NumSubspaces) (hq : ∀ k ∈ q, k < 16) :
    ∃ (out : List ℚ) (sel : List (List ℚ)), Maddness.Reconstruct m q = some out ∧
      out.length = m.VectorSize ∧ out = sel.flatten ∧ sel.length = m.NumSubspaces ∧
      ∀ s, s < m.NumSubspaces → ∃ h k p,
        m.Hashes.get? s = some h ∧ q.get? s = some k ∧ h.Prototypes.get? k = some p ∧
        sel.get? s = some p := by
  obtain ⟨htr, _, _⟩ := TrainMaddness_inv na data queries N m ht
  obtain ⟨sel, hsel, hsellen, hselw, hsels⟩ := reconstructLoop_spec m.SubVectorSize q hq
    m.Hashes 0
    (fun h hh => by
      obtain ⟨s, hs⟩ := List.get?_of_mem hh
      exact trained_protos htr s h hs)
    (by rw [Nat.zero_add, htr.hashes_len, hlen])
  refine ⟨sel.flatten, sel, hsel, ?_, rfl, by rw [hsellen, htr.hashes_len], ?_⟩
  · rw [flatten_length m.SubVectorSize sel hselw, hsellen, htr.hashes_len, htr.size_eq]
  · intro s hs
    have hs1 : s < m.Hashes.length := by rw [htr.hashes_len]; exact hs
    have hget := get?_some_of_lt m.Hashes s hs1
    obtain ⟨k, p, e1, e2, e3⟩ := hsels s _ hget
    rw [Nat.zero_add] at e1
    exact ⟨_, k, p, hget, e1, e2, e3⟩

theorem C12_reconstruct_witness :
    ∃ (out : List ℚ) (sel : List (List ℚ)), Maddness.Reconstruct smallModel [3] = some out ∧
      out.length = smallModel.VectorSize ∧ out = sel.flatten ∧
      sel.length = smallModel.NumSubspaces ∧
      ∀ s, s < smallModel.NumSubspaces → ∃ h k p,
        smallModel.Hashes.get? s = some h ∧ [3].get? s = some k ∧
        h.Prototypes.get? k = some p ∧ sel.get? s = some p :=
  C12_reconstruct unitStep [[0, 2], [0, 0], [2, 0]] [[1, 1]] 1 smallModel (by decide!)
    [3] (by decide!) (by decide)

/-! ### TrainMaddness returns a model -/

theorem subspaceLoop_some (lo hi : Nat) (hle : lo ≤ hi) :
    ∀ data : List (List ℚ), (∀ ex ∈ data, hi ≤ ex.length) →
      Maddness.subspaceLoop lo hi data
        = some (data.map fun ex => (ex.drop lo).take (hi - lo)) := by
  intro data
  induction data with
  | nil => intro _; rfl
  | cons ex rest ih =>
    intro hall
    have h1 := sliceRange_some ex lo hi hle (hall ex (List.mem_cons_self _ _))
    have h2 := ih (fun e he => hall e (List.mem_cons_of_mem _ he))
    simp only [Maddness.subspaceLoop, h1, Option.some_bind, h2, Option.map_some', List.map_cons]

theorem subspaceExamples_some (m : Maddness) (s : Nat) (data : List (List ℚ))
    (hall : ∀ ex ∈ data, s * m.SubVectorSize + m.SubVectorSize ≤ ex.length) :
    Maddness.subspaceExamples m s data
      = some (data.map fun ex => (ex.drop (s * m.SubVectorSize)).take m.SubVectorSize) := by
  unfold Maddness.subspaceExamples
  simp only
  rw [subspaceLoop_some _ _ (by omega) data hall, Nat.add_sub_cancel_left]

theorem hashesLoop_some (na : Nextafter32) (m : Maddness) (data : List (List ℚ))
    (hne : data ≠ []) (hw : 1 ≤ m.SubVectorSize) :
    ∀ count i, (∀ ex ∈ data, (i + count) * m.SubVectorSize ≤ ex.length) →
      ∃ hs, Maddness.hashesLoop na m data count i = some hs := by
  intro count
  induction count with
  | zero => intro i _; exact ⟨[], rfl⟩
  | succ count ih =>
    intro i hall
    have hall1 : ∀ ex ∈ data, (i + 1 + count) * m.SubVectorSize ≤ ex.length := by
      intro ex hex
      have he : i + 1 + count = i + (count + 1) := by omega
      rw [he]; exact hall ex hex
    obtain ⟨hs, hhs⟩ := ih (i + 1) hall1
    have hsub := subspaceExamples_some m i data (fun ex hex => by
      have h1 := hall ex hex
      have h2 : (i + 1) * m.SubVectorSize ≤ (i + (count + 1)) * m.SubVectorSize :=
        Nat.mul_le_mul_right _ (by omega)
      have h3 : (i + 1) * m.SubVectorSize = i * m.SubVectorSize + m.SubVectorSize := by ring
      omega)
    obtain ⟨hne1, hrect, _⟩ := subspaceExamples_good m i data _ hne hsub
    obtain ⟨h, hh, _⟩ := trainHash_shape na hw _ hne1 hrect
    refine ⟨h :: hs, ?_⟩
    simp only [Maddness.hashesLoop, Maddness.trainSubspaceHash, hsub, Option.some_bind, hh, hhs,
      Option.map_some']

theorem makeLookupTable_some (m : Maddness) (q : List ℚ) (hn : 1 ≤ m.NumSubspaces)
    (hw : 1 ≤ m.SubVectorSize) (hq : m.NumSubspaces * m.SubVectorSize ≤ q.length)
    (hlen : m.Hashes.length = m.NumSubspaces)
    (hp : ∀ s h, m.Hashes.get? s = some h →
      h.Prototypes.length = 16 ∧ ∀ p ∈ h.Prototypes, p.length = m.SubVectorSize) :
    ∃ t, Maddness.makeLookupTable m q = some t := by
  obtain ⟨rows, hrows, hrowslen, _, _⟩ := dotRowsLoop_spec m q hw hq hlen hp
    m.NumSubspaces 0 none none (by omega)
  cases rows with
  | nil => simp at hrowslen; omega
  | cons row rest =>
    simp only [Maddness.makeLookupTable, Maddness.precomputeDotProducts, hrows, Option.map_some',
      Option.some_bind]
    exact ⟨_, rfl⟩

theorem tablesLoop_some (m : Maddness) (hn : 1 ≤ m.NumSubspaces)
    (hw : 1 ≤ m.SubVectorSize) (hlen : m.Hashes.length = m.NumSubspaces)
    (hp : ∀ s h, m.Hashes.get? s = some h →
      h.Prototypes.length = 16 ∧ ∀ p ∈ h.Prototypes, p.length = m.SubVectorSize) :
    ∀ queries : List (List ℚ),
      (∀ q ∈ queries, m.NumSubspaces * m.SubVectorSize ≤ q.length) →
      ∃ ts, Maddness.tablesLoop m queries = some ts := by
  intro queries
  induction queries with
  | nil => intro _; exact ⟨[], rfl⟩
  | cons q rest ih =>
    intro hall
    obtain ⟨t, ht⟩ := makeLookupTable_some m q hn hw (hall q (List.mem_cons_self _ _)) hlen hp
    obtain ⟨ts, hts⟩ := ih (fun q1 hq1 => hall q1 (List.mem_cons_of_mem _ hq1))
    exact ⟨t :: ts, by
      simp only [Maddness.tablesLoop, ht, Option.some_bind, hts, Option.map_some']⟩

theorem TrainMaddness_some (na : Nextafter32) (M N : Nat) (data queries : List (List ℚ))
    (hdata : data ≠ []) (hrect : Rect M data) (hqs : queries ≠ [])
    (hqrect : Rect M queries) (hM : 0 < M) (hN : 0 < N) (hdvd : N ∣ M) :
    ∃ m, TrainMaddness na data queries (N : Int) = some m ∧ m.NumSubspaces = N ∧
      m.VectorSize = M ∧ m.SubVectorSize = M / N := by
  obtain ⟨w, hw⟩ := hdvd
  have hwpos : 1 ≤ w := by
    rcases Nat.eq_zero_or_pos w with h | h
    · rw [h, Nat.mul_zero] at hw; omega
    · exact h
  have hdiv : M / N = w := by rw [hw]; exact Nat.mul_div_cancel_left w hN
  have hNM : N ≤ M := by rw [hw]; exact Nat.le_mul_of_pos_right N hwpos
  cases data with
  | nil => exact absurd rfl hdata
  | cons ex0 rest =>
    have hex0 : ex0.length = M := hrect ex0 (List.mem_cons_self _ _)
    have hq0 : ¬ queries.length = 0 := by
      intro h; exact hqs (List.length_eq_zero.mp h)
    have hmod : ¬ ((M : Int) % (N : Int) ≠ 0) := by
      rw [not_not, hw]
      push_cast
      exact Int.mul_emod_right _ _
    have c1 : ¬ ((N : Int) < 0 ∨ (M : Int) < (N : Int)) := by omega
    have c2 : ¬ ((N : Int) = 0) := by omega
    let m0 : Maddness :=
      { NumSubspaces := N, VectorSize := M, SubVectorSize := M / N, Hashes := [],
        LookupTables := [] }
    obtain ⟨hs, hhs⟩ := hashesLoop_some na m0 (ex0 :: rest) (List.cons_ne_nil _ _)
      (by show 1 ≤ M / N; rw [hdiv]; exact hwpos) N 0
      (fun ex hex => by
        show (0 + N) * (M / N) ≤ ex.length
        rw [hrect ex hex, hdiv, Nat.zero_add, ← hw])
    obtain ⟨hslen, hsval⟩ := hashesLoop_inv na m0 (ex0 :: rest) N 0 hs hhs
    let m1 : Maddness := { m0 with Hashes := hs }
    have hshape : ∀ s h, m1.Hashes.get? s = some h →
        h.Prototypes.length = 16 ∧ ∀ p ∈ h.Prototypes, p.length = m1.SubVectorSize := by
      intro s h hget
      have hslt : s < N := by rw [← hslen]; exact get?_lt_length hget
      obtain ⟨sub, h1, hsub, htr, hget1⟩ := hsval s hslt
      have hget2 : hs.get? s = some h := hget
      rw [hget2] at hget1
      cases hget1
      obtain ⟨hne1, hrect1, _⟩ := subspaceExamples_good m0 (0 + s) (ex0 :: rest) sub
        (List.cons_ne_nil _ _) hsub
      obtain ⟨h2, htr2, _, _, h16, hp⟩ := trainHash_shape na
        (by show 1 ≤ M / N; rw [hdiv]; exact hwpos) sub hne1 hrect1
      rw [htr] at htr2
      cases htr2
      exact ⟨h16, hp⟩
    obtain ⟨ts, hts⟩ := tablesLoop_some m1 (by show 1 ≤ N; exact hN)
      (by show 1 ≤ M / N; rw [hdiv]; exact hwpos) hslen hshape queries
      (fun q hq => by
        show N * (M / N) ≤ q.length
        rw [hqrect q hq, hdiv, ← hw])
    refine ⟨{ m1 with LookupTables := ts }, ?_, rfl, rfl, rfl⟩
    unfold TrainMaddness
    simp only
    rw [if_neg hq0, hex0, if_neg (by omega), if_neg c1, if_neg c2, if_neg hmod]
    simp only [Int.toNat_ofNat, Maddness.trainAllHashes, Maddness.makeLookupTables]
    rw [show Maddness.hashesLoop na m0 (ex0 :: rest) N 0 = some hs from hhs]
    simp only [Option.map_some', Option.some_bind]
    rw [show Maddness.tablesLoop m1 queries = some ts from hts]
    rfl

/-- C14 (result of training). When the preconditions hold (`dataExamples`
non-empty with rows of width `M > 0`, `queryVectors` non-empty with rows of
width `M`, `N > 0` a factor of `M`), `TrainMaddness` returns a model with
`NumSubspaces = N`, `VectorSize = M`, `SubVectorSize = M/N`, exactly `N` hashes
and one lookup table per query vector; `Hashes[s]` is `TrainHash` of the
examples restricted to the columns `[s*(M/N), (s+1)*(M/N))`, and
`LookupTables[i]` is `makeLookupTable` of `queryVectors[i]`. -/
theorem C14_trainMaddness_result (na : Nextafter32) (M N : Nat)
    (data queries : List (List ℚ))
    (hdata : data ≠ []) (hrect : Rect M data) (hqs : queries ≠ [])
    (hqrect : Rect M queries) (hM : 0 < M) (hN : 0 < N) (hdvd : N ∣ M) :
    ∃ m, TrainMaddness na data queries (N : Int) = some m ∧ m.NumSubspaces = N ∧
      m.VectorSize = M ∧ m.SubVectorSize = M / N ∧ m.Hashes.length = N ∧
      m.LookupTables.length = queries.length ∧
      (∀ s, s < N → ∃ h,
        TrainHash na (data.map fun ex => (ex.drop (s * (M / N))).take (M / N)) = some h ∧
        m.Hashes.get? s = some h) ∧
      ∀ i q, queries.get? i = some q →
        ∃ t, Maddness.makeLookupTable m q = some t ∧ m.LookupTables.get? i = some t := by
  obtain ⟨m, hm, h1, h2, h3⟩ := TrainMaddness_some na M N data queries hdata hrect hqs hqrect
    hM hN hdvd
  obtain ⟨htr, _, _⟩ := TrainMaddness_inv na data queries N m hm
  refine ⟨m, hm, h1, h2, h3, by rw [htr.hashes_len, h1], htr.tables_len, ?_, htr.tables⟩
  intro s hs
  obtain ⟨sub, h, hsub, hh, hget⟩ := htr.hashes s (by rw [h1]; exact hs)
  have hsub1 := subspaceExamples_some m s data (fun ex hex => by
    rw [hrect ex hex, ← h2, htr.size_eq, h1]
    have e1 : (s + 1) * m.SubVectorSize ≤ N * m.SubVectorSize :=
      Nat.mul_le_mul_right _ (by omega)
    have e2 : (s + 1) * m.SubVectorSize = s * m.SubVectorSize + m.SubVectorSize := by ring
    omega)
  rw [hsub1] at hsub
  cases hsub
  rw [h3] at hh
  exact ⟨h, hh, hget⟩

set_option maxRecDepth 100000 in
theorem C14_trainMaddness_result_witness :
    ∃ m, TrainMaddness unitStep testExamples testQueries ((4 : Nat) : Int) = some m ∧
      m.NumSubspaces = 4 ∧ m.VectorSize = 8 ∧ m.SubVectorSize = 8 / 4 ∧ m.Hashes.length = 4 ∧
      m.LookupTables.length = testQueries.length ∧
      (∀ s, s < 4 → ∃ h,
        TrainHash unitStep (testExamples.map fun ex => (ex.drop (s * (8 / 4))).take (8 / 4))
          = some h ∧
        m.Hashes.get? s = some h) ∧
      ∀ i q, testQueries.get? i = some q →
        ∃ t, Maddness.makeLookupTable m q = some t ∧ m.LookupTables.get? i = some t :=
  C14_trainMaddness_result unitStep 8 4 testExamples testQueries (by decide)
    (by unfold Rect testExamples; decide) (by decide) (by unfold Rect testQueries; decide)
    (by decide) (by decide) (by decide)

/-! ### The heap: Swap -/

theorem getD_set_eq (l : List Nat) (i a p : Nat) :
    (l.set i a).getD p 0 = if p = i ∧ i < l.length then a else l.getD p 0 := by
  rw [List.getD_eq_getElem?_getD, List.getD_eq_getElem?_getD, List.getElem?_set]
  by_cases h : i = p
  · subst h
    by_cases h1 : i < l.length
    · simp [h1]
    · have h3 : l[i]? = none := List.getElem?_eq_none (by omega)
      simp [h1, h3]
  · have h2 : ¬ p = i := fun e => h e.symm
    simp [h, h2]

theorem swap_getD (idx : List Nat) (i j p : Nat) (hi : i < idx.length) (hj : j < idx.length) :
    (ArgMaxHeap.Swap idx i j).getD p 0
      = if p = j then idx.getD i 0 else if p = i then idx.getD j 0 else idx.getD p 0 := by
  unfold ArgMaxHeap.Swap
  rw [getD_set_eq, getD_set_eq, List.length_set]
  by_cases h1 : p = j
  · simp [h1, hj]
  · by_cases h2 : p = i
    · subst h2
      simp [h1, hi]
    · simp [h1, h2]

theorem set_perm_cons (x : Nat) :
    ∀ (xs : List Nat) (j : Nat), j < xs.length →
      List.Perm (xs.getD j 0 :: xs.set j x) (x :: xs) := by
  intro xs
  induction xs with
  | nil => intro j hj; simp at hj
  | cons y ys ih =>
    intro j hj
    cases j with
    | zero => exact List.Perm.swap _ _ _
    | succ j =>
      have hj1 : j < ys.length := by simpa using hj
      have h1 := ih j hj1
      have e : (y :: ys).getD (j + 1) 0 = ys.getD j 0 := rfl
      rw [e, List.set_cons_succ]
      exact ((List.Perm.swap _ _ _).trans (List.Perm.cons y h1)).trans (List.Perm.swap _ _ _)

theorem swap_perm :
    ∀ (idx : List Nat) (i j : Nat), i < idx.length → j < idx.length →
      List.Perm (ArgMaxHeap.Swap idx i j) idx := by
  intro idx
  induction idx with
  | nil => intro i j hi _; simp at hi
  | cons x xs ih =>
    intro i j hi hj
    cases i with
    | zero =>
      cases j with
      | zero => exact List.Perm.refl _
      | succ j =>
        have hj1 : j < xs.length := by simpa using hj
        exact set_perm_cons x xs j hj1
    | succ i =>
      have hi1 : i < xs.length := by simpa using hi
      cases j with
      | zero => exact set_perm_cons x xs i hi1
      | succ j =>
        have hj1 : j < xs.length := by simpa using hj
        exact List.Perm.cons x (ih i j hi1 hj1)

theorem heapKey_swap (v : List ℚ) (idx : List Nat) (i j p : Nat) (hi : i < idx.length)
    (hj : j < idx.length) :
    heapKey v (ArgMaxHeap.Swap idx i j) p
      = if p = j then heapKey v idx i else if p = i then heapKey v idx j
        else heapKey v idx p := by
  unfold heapKey
  rw [swap_getD idx i j p hi hj]
  split_ifs <;> rfl

theorem less_eq_key (v : List ℚ) (idx : List Nat) (i j : Nat) :
    ArgMaxHeap.Less v idx i j = true ↔ heapKey v idx j < heapKey v idx i := by
  unfold ArgMaxHeap.Less heapKey
  exact decide_eq_true_iff

/-! ### The heap: down restores the heap order -/

theorem down_succ (v : List ℚ) (fuel : Nat) (idx : List Nat) (i n : Nat) :
    ArgMaxHeap.down v (fuel + 1) idx i n
      = if n ≤ 2 * i + 1 then idx
        else if 2 * i + 1 + 1 < n ∧ ArgMaxHeap.Less v idx (2 * i + 1 + 1) (2 * i + 1) = true then
          (if ArgMaxHeap.Less v idx (2 * i + 1 + 1) i = true then
            ArgMaxHeap.down v fuel (ArgMaxHeap.Swap idx i (2 * i + 1 + 1)) (2 * i + 1 + 1) n
          else idx)
        else
          (if ArgMaxHeap.Less v idx (2 * i + 1) i = true then
            ArgMaxHeap.down v fuel (ArgMaxHeap.Swap idx i (2 * i + 1)) (2 * i + 1) n
          else idx) := by
  simp only [ArgMaxHeap.down]
  split_ifs <;> rfl

theorem siftInv_done (v : List ℚ) (idx : List Nat) (n lo i : Nat)
    (hinv : SiftInv v idx n lo i)
    (hch : ∀ c, c < n → 0 < c → (c - 1) / 2 = i → heapKey v idx c ≤ heapKey v idx i) :
    HeapFrom v idx n lo := by
  intro c hc h0 hlo
  by_cases hp : (c - 1) / 2 = i
  · rw [hp]; exact hch c hc h0 hp
  · exact hinv.1 c hc h0 hlo hp

theorem siftInv_swap (v : List ℚ) (idx : List Nat) (n lo i j : Nat)
    (hinv : SiftInv v idx n lo i) (hn : n ≤ idx.length) (hj : j < n) (hpar : (j - 1) / 2 = i)
    (hj0 : 0 < j) (hlo : lo ≤ i) (hlt : heapKey v idx i < heapKey v idx j)
    (hch : ∀ c, c < n → 0 < c → (c - 1) / 2 = i → heapKey v idx c ≤ heapKey v idx j) :
    SiftInv v (ArgMaxHeap.Swap idx i j) n lo j := by
  have hij : i < j := by omega
  have hi1 : i < idx.length := by omega
  have hj1 : j < idx.length := by omega
  constructor
  · intro c hc h0 hploc hpj
    rw [heapKey_swap v idx i j c hi1 hj1, heapKey_swap v idx i j ((c - 1) / 2) hi1 hj1]
    rw [if_neg hpj]
    by_cases hpi : (c - 1) / 2 = i
    · rw [if_pos hpi]
      by_cases hcj : c = j
      · rw [if_pos hcj]; exact le_of_lt hlt
      · rw [if_neg hcj, if_neg (by omega)]
        exact hch c hc h0 hpi
    · rw [if_neg hpi]
      have hcj : c ≠ j := by
        intro e; rw [e] at hpi; exact hpi hpar
      rw [if_neg hcj]
      by_cases hci : c = i
      · rw [if_pos hci]
        have := hinv.2 j hj hj0 hpar (by omega) (by rw [← hci]; exact hploc)
        rw [hci]
        exact this
      · rw [if_neg hci]
        exact hinv.1 c hc h0 hploc hpi
  · intro c hc h0 hpc _ _
    rw [heapKey_swap v idx i j c hi1 hj1, heapKey_swap v idx i j ((j - 1) / 2) hi1 hj1]
    rw [if_neg (by omega), if_neg (by omega), if_neg (by omega), if_pos hpar]
    have := hinv.1 c hc h0 (by omega) (by omega)
    rw [hpc] at this
    exact this

theorem down_heap (v : List ℚ) (n lo : Nat) :
    ∀ (fuel : Nat) (idx : List Nat) (i : Nat), n ≤ idx.length → lo ≤ i → n ≤ i + fuel →
      SiftInv v idx n lo i →
      HeapFrom v (ArgMaxHeap.down v fuel idx i n) n lo ∧
        List.Perm (ArgMaxHeap.down v fuel idx i n) idx ∧
        ∀ p, n ≤ p → (ArgMaxHeap.down v fuel idx i n).getD p 0 = idx.getD p 0 := by
  intro fuel
  induction fuel with
  | zero =>
    intro idx i _ _ hfuel hinv
    refine ⟨?_, List.Perm.refl _, fun p _ => rfl⟩
    exact siftInv_done v idx n lo i hinv (fun c hc h0 hp => by omega)
  | succ fuel ih =>
    intro idx i hn hlo hfuel hinv
    rw [down_succ]
    have hstep : ∀ j, j < n → 0 < j → (j - 1) / 2 = i →
        (∀ c, c < n → 0 < c → (c - 1) / 2 = i → heapKey v idx c ≤ heapKey v idx j) →
        heapKey v idx i < heapKey v idx j →
        HeapFrom v (ArgMaxHeap.down v fuel (ArgMaxHeap.Swap idx i j) j n) n lo ∧
          List.Perm (ArgMaxHeap.down v fuel (ArgMaxHeap.Swap idx i j) j n) idx ∧
          ∀ p, n ≤ p →
            (ArgMaxHeap.down v fuel (ArgMaxHeap.Swap idx i j) j n).getD p 0 = idx.getD p 0 := by
      intro j hj hj0 hpar hch hlt
      have hinv1 := siftInv_swap v idx n lo i j hinv hn hj hpar hj0 hlo hlt hch
      obtain ⟨a1, a2, a3⟩ := ih (ArgMaxHeap.Swap idx i j) j
        (by rw [Swap_length]; exact hn) (by omega) (by omega) hinv1
      refine ⟨a1, a2.trans (swap_perm idx i j (by omega) (by omega)), ?_⟩
      intro p hp
      rw [a3 p hp, swap_getD idx i j p (by omega) (by omega), if_neg (by omega),
        if_neg (by omega)]
    have hdone : (∀ c, c < n → 0 < c → (c - 1) / 2 = i → heapKey v idx c ≤ heapKey v idx i) →
        HeapFrom v idx n lo ∧ List.Perm idx idx ∧ ∀ p, n ≤ p → idx.getD p 0 = idx.getD p 0 :=
      fun hch => ⟨siftInv_done v idx n lo i hinv hch, List.Perm.refl _, fun p _ => rfl⟩
    split_ifs with h1 h2 h3 h4
    · exact hdone (fun c hc h0 hp => by omega)
    · have hk := (less_eq_key v idx (2 * i + 1 + 1) (2 * i + 1)).mp h2.2
      apply hstep (2 * i + 1 + 1) h2.1 (by omega) (by omega) ?_
        ((less_eq_key v idx _ _).mp h3)
      intro c hc h0 hp
      have hc2 : c = 2 * i + 1 ∨ c = 2 * i + 1 + 1 := by omega
      rcases hc2 with e | e
      · rw [e]; exact le_of_lt hk
      · rw [e]
    · have hk := (less_eq_key v idx (2 * i + 1 + 1) (2 * i + 1)).mp h2.2
      have hk3 : ¬ heapKey v idx i < heapKey v idx (2 * i + 1 + 1) :=
        fun h => h3 ((less_eq_key v idx _ _).mpr h)
      apply hdone
      intro c hc h0 hp
      have hc2 : c = 2 * i + 1 ∨ c = 2 * i + 1 + 1 := by omega
      rcases hc2 with e | e
      · rw [e]; exact le_trans (le_of_lt hk) (not_lt.mp hk3)
      · rw [e]; exact not_lt.mp hk3
    · have hch : ∀ c, c < n → 0 < c → (c - 1) / 2 = i →
          heapKey v idx c ≤ heapKey v idx (2 * i + 1) := by
        intro c hc h0 hp
        have hc2 : c = 2 * i + 1 ∨ c = 2 * i + 1 + 1 := by omega
        rcases hc2 with e | e
        · rw [e]
        · rw [e]
          have : ¬ heapKey v idx (2 * i + 1) < heapKey v idx (2 * i + 1 + 1) := by
            intro hh
            exact h2 ⟨by omega, (less_eq_key v idx _ _).mpr hh⟩
          exact not_lt.mp this
      exact hstep (2 * i + 1) (by omega) (by omega) (by omega) hch
        ((less_eq_key v idx _ _).mp h4)
    · have hk4 : ¬ heapKey v idx i < heapKey v idx (2 * i + 1) :=
        fun h => h4 ((less_eq_key v idx _ _).mpr h)
      apply hdone
      intro c hc h0 hp
      have hc2 : c = 2 * i + 1 ∨ c = 2 * i + 1 + 1 := by omega
      rcases hc2 with e | e
      · rw [e]; exact not_lt.mp hk4
      · rw [e]
        have : ¬ heapKey v idx (2 * i + 1) < heapKey v idx (2 * i + 1 + 1) := by
          intro hh
          exact h2 ⟨by omega, (less_eq_key v idx _ _).mpr hh⟩
        exact le_trans (not_lt.mp this) (not_lt.mp hk4)

/-! ### The heap: Init, Pop and FirstArgsMax -/

theorem foldr_down_heap (v : List ℚ) (n : Nat) :
    ∀ (k : Nat) (idx : List Nat), idx.length = n → HeapFrom v idx n k →
      HeapFrom v ((List.range k).foldr (fun i a => ArgMaxHeap.down v n a i n) idx) n 0 ∧
        List.Perm ((List.range k).foldr (fun i a => ArgMaxHeap.down v n a i n) idx) idx := by
  intro k
  induction k with
  | zero =>
    intro idx _ h
    exact ⟨h, List.Perm.refl _⟩
  | succ k ih =>
    intro idx hlen h
    rw [List.range_succ, List.foldr_append]
    have hinv : SiftInv v idx n k k := by
      constructor
      · intro c hc h0 hlo hne
        exact h c hc h0 (by omega)
      · intro c _ _ _ hk hlo
        omega
    obtain ⟨a1, a2, _⟩ := down_heap v n k n idx k (le_of_eq hlen.symm) (le_refl k)
      (by omega) hinv
    obtain ⟨b1, b2⟩ := ih (ArgMaxHeap.down v n idx k n) (by rw [down_length]; exact hlen) a1
    exact ⟨b1, b2.trans a2⟩

theorem init_heap (v : List ℚ) (idx : List Nat) :
    HeapFrom v (ArgMaxHeap.init v idx) idx.length 0 ∧
      List.Perm (ArgMaxHeap.init v idx) idx := by
  unfold ArgMaxHeap.init
  apply foldr_down_heap v idx.length (idx.length / 2) idx rfl
  intro c hc h0 hlo
  omega

theorem heap_root_max (v : List ℚ) (idx : List Nat) (n : Nat) (h : HeapFrom v idx n 0) :
    ∀ p, p < n → heapKey v idx p ≤ heapKey v idx 0 := by
  intro p
  induction p using Nat.strong_induction_on with
  | _ p ih =>
    intro hp
    rcases Nat.eq_zero_or_pos p with h0 | h0
    · rw [h0]
    · have h1 := h p hp h0 (Nat.zero_le _)
      have h2 := ih ((p - 1) / 2) (by omega) (by omega)
      exact le_trans h1 h2

theorem getD_take_lt (l : List Nat) (n p : Nat) (hp : p < n) :
    (l.take n).getD p 0 = l.getD p 0 := by
  rw [List.getD_eq_getElem?_getD, List.getD_eq_getElem?_getD, List.getElem?_take_of_lt hp]

theorem mem_getD_of_mem (l : List Nat) (a : Nat) (h : a ∈ l) :
    ∃ p, p < l.length ∧ l.getD p 0 = a := by
  obtain ⟨p, hp, e⟩ := List.getElem_of_mem h
  refine ⟨p, hp, ?_⟩
  rw [List.getD_eq_getElem?_getD, List.getElem?_eq_getElem hp, ← e]
  rfl

theorem heapPop_heap (v : List ℚ) (idx : List Nat) (hne : 0 < idx.length)
    (h : HeapFrom v idx idx.length 0) :
    ∃ rest x, ArgMaxHeap.heapPop v idx = some (rest, x) ∧ List.Perm (x :: rest) idx ∧
      HeapFrom v rest rest.length 0 ∧ rest.length + 1 = idx.length ∧
      ∀ a ∈ idx, v.getD a 0 ≤ v.getD x 0 := by
  have hn : idx.length - 1 < idx.length := by omega
  have hinv : SiftInv v (ArgMaxHeap.Swap idx 0 (idx.length - 1)) (idx.length - 1) 0 0 := by
    constructor
    · intro c hc h0 _ hne0
      rw [heapKey_swap v idx 0 _ c hne hn, heapKey_swap v idx 0 _ ((c - 1) / 2) hne hn,
        if_neg (by omega), if_neg (by omega), if_neg (by omega), if_neg hne0]
      exact h c (by omega) h0 (Nat.zero_le _)
    · intro c _ _ _ h0 _
      omega
  obtain ⟨a1, a2, a3⟩ := down_heap v (idx.length - 1) 0 (idx.length - 1)
    (ArgMaxHeap.Swap idx 0 (idx.length - 1)) 0 (by rw [Swap_length]; omega) (le_refl 0)
    (by omega) hinv
  have hlen : (ArgMaxHeap.down v (idx.length - 1) (ArgMaxHeap.Swap idx 0 (idx.length - 1)) 0
      (idx.length - 1)).length = idx.length := by
    rw [down_length, Swap_length]
  have hlast := a3 (idx.length - 1) (le_refl _)
  rw [swap_getD idx 0 _ _ hne hn, if_pos rfl] at hlast
  generalize hs : ArgMaxHeap.down v (idx.length - 1) (ArgMaxHeap.Swap idx 0 (idx.length - 1)) 0
    (idx.length - 1) = sifted at a1 a2 a3 hlen hlast
  have hget : sifted.get? (sifted.length - 1) = some (idx.getD 0 0) := by
    rw [hlen, List.get?_eq_getElem?, ← hlast, List.getD_eq_getElem?_getD,
      List.getElem?_eq_getElem (by omega)]
    rfl
  have hdrop : sifted.drop (idx.length - 1) = [idx.getD 0 0] := by
    rw [List.drop_eq_getElem_cons (by omega), List.drop_of_length_le (by omega)]
    congr 1
    rw [← hlast, List.getD_eq_getElem?_getD, List.getElem?_eq_getElem (by omega)]
    rfl
  have hsplit : sifted = sifted.take (idx.length - 1) ++ [idx.getD 0 0] := by
    rw [← hdrop, List.take_append_drop]
  have hperm : List.Perm (idx.getD 0 0 :: sifted.take (idx.length - 1)) idx := by
    refine List.Perm.trans ?_ (a2.trans (swap_perm idx 0 _ hne hn))
    rw [hsplit, List.take_left' (by rw [List.length_take]; omega)] 
    exact (List.perm_append_singleton _ _).symm
  have hrestlen : (sifted.take (idx.length - 1)).length = idx.length - 1 := by
    rw [List.length_take]; omega
  refine ⟨sifted.take (idx.length - 1), idx.getD 0 0, ?_, hperm, ?_, by omega, ?_⟩
  · unfold ArgMaxHeap.heapPop
    simp only
    rw [hs, hget, hlen]
    rfl
  · rw [hrestlen]
    intro c hc h0 hlo
    unfold heapKey
    rw [getD_take_lt _ _ _ hc, getD_take_lt _ _ _ (by omega)]
    exact a1 c hc h0 hlo
  · intro a ha
    obtain ⟨p, hp, e⟩ := mem_getD_of_mem idx a ha
    have := heap_root_max v idx idx.length h p hp
    unfold heapKey at this
    rw [e] at this
    exact this

theorem popLoop_heap (v : List ℚ) :
    ∀ (k : Nat) (idx : List Nat), k ≤ idx.length → HeapFrom v idx idx.length 0 →
      ∃ out rest, ArgMaxHeap.popLoop v k idx = some out ∧ out.length = k ∧
        List.Perm (out ++ rest) idx ∧
        out.Pairwise (fun a b => v.getD b 0 ≤ v.getD a 0) ∧
        ∀ a ∈ out, ∀ b ∈ rest, v.getD b 0 ≤ v.getD a 0 := by
  intro k
  induction k with
  | zero =>
    intro idx _ _
    exact ⟨[], idx, rfl, rfl, List.Perm.refl _, List.Pairwise.nil,
      fun a ha => by simp at ha⟩
  | succ k ih =>
    intro idx hk h
    obtain ⟨rest1, x, hpop, hperm, hheap, hlen, hmax⟩ := heapPop_heap v idx (by omega) h
    obtain ⟨out, rest, hout, houtlen, hperm1, hpair, hsep⟩ := ih rest1 (by omega) hheap
    have hmem : ∀ b, b ∈ out ++ rest → v.getD b 0 ≤ v.getD x 0 := by
      intro b hb
      have hb1 : b ∈ rest1 := hperm1.subset hb
      exact hmax b (hperm.subset (List.mem_cons_of_mem _ hb1))
    refine ⟨x :: out, rest, ?_, by simp [houtlen], ?_, ?_, ?_⟩
    · simp only [ArgMaxHeap.popLoop, hpop, Option.some_bind, hout, Option.map_some']
    · rw [List.cons_append]
      exact (List.Perm.cons x hperm1).trans hperm
    · exact List.Pairwise.cons (fun b hb => hmem b (List.mem_append_left _ hb)) hpair
    · intro a ha b hb
      rcases List.mem_cons.mp ha with e | e
      · rw [e]; exact hmem b (List.mem_append_right _ hb)
      · exact hsep a e b hb

theorem FirstArgsMax_sorted (v : List ℚ) (n : Nat) :
    ∃ out rest, ArgMaxHeap.FirstArgsMax (NewArgMaxHeap v) n = some out ∧
      out.length = min n v.length ∧
      List.Perm (out ++ rest) (List.range v.length) ∧
      out.Pairwise (fun a b => v.getD b 0 ≤ v.getD a 0) ∧
      ∀ a ∈ out, ∀ b ∈ rest, v.getD b 0 ≤ v.getD a 0 := by
  obtain ⟨hheap, hperm⟩ := init_heap v (List.range v.length)
  have hlen : (ArgMaxHeap.init v (List.range v.length)).length = v.length := by
    rw [hperm.length_eq, List.length_range]
  rw [← hperm.length_eq] at hheap
  obtain ⟨out, rest, hout, houtlen, hperm1, hpair, hsep⟩ := popLoop_heap v
    (min n v.length) (ArgMaxHeap.init v (List.range v.length))
    (by rw [hlen]; exact Nat.min_le_right _ _) hheap
  refine ⟨out, rest, ?_, houtlen, hperm1.trans hperm, hpair, hsep⟩
  unfold ArgMaxHeap.FirstArgsMax NewArgMaxHeap
  simp only
  rw [hlen]
  have e : (if v.length < n then v.length else n) = min n v.length := by
    split_ifs with h
    · exact (Nat.min_eq_right (le_of_lt h)).symm
    · exact (Nat.min_eq_left (by omega)).symm
  rw [e]
  exact hout

/-! ### FirstArgsMax returns the arguments of the largest values -/

theorem FirstArgsMax_top (v : List ℚ) (n : Nat) :
    ∃ out, ArgMaxHeap.FirstArgsMax (NewArgMaxHeap v) n = some out ∧
      out.length = min n v.length ∧ out.Nodup ∧ (∀ i ∈ out, i < v.length) ∧
      out.Pairwise (fun a b => v.getD b 0 ≤ v.getD a 0) ∧
      (∀ i, i < v.length → i ∉ out → ∀ a ∈ out, v.getD i 0 ≤ v.getD a 0) ∧
      (v.length ≤ n → ∀ i, i < v.length → i ∈ out) := by
  obtain ⟨out, rest, h1, h2, h3, h4, h5⟩ := FirstArgsMax_sorted v n
  have hnodup : (out ++ rest).Nodup := h3.nodup_iff.mpr (List.nodup_range _)
  have hmem : ∀ i, i < v.length → i ∈ out ∨ i ∈ rest := by
    intro i hi
    exact List.mem_append.mp (h3.mem_iff.mpr (List.mem_range.mpr hi))
  refine ⟨out, h1, h2, (List.nodup_append.mp hnodup).1, ?_, h4, ?_, ?_⟩
  · intro i hi
    exact List.mem_range.mp (h3.mem_iff.mp (List.mem_append_left _ hi))
  · intro i hi hni a ha
    rcases hmem i hi with h | h
    · exact absurd h hni
    · exact h5 a ha i h
  · intro hle i hi
    have hl := h3.length_eq
    rw [List.length_append, List.length_range, h2, Nat.min_eq_right hle] at hl
    have hrest : rest = [] := List.length_eq_zero.mp (by omega)
    rcases hmem i hi with h | h
    · exact h
    · rw [hrest] at h
      simp at h

/-- C15 (FirstArgsMax). For every vector `v` of length `M` and every `n`,
`NewArgMaxHeap(v).FirstArgsMax(n)` returns exactly `min(n, M)` pairwise distinct
indices below `M`, listed in non-increasing order of their values in `v`; every
index that is not returned has a value less than or equal to the value of every
returned index; and for `n ≥ M` every index is returned. On `[1,4,2,5,3]` the
result for `n = 5` is `[3,1,4,2,0]`, and for `n = 0..4` its prefixes. -/
theorem C15_firstArgsMax (v : List ℚ) (n : Nat) :
    (∃ out, ArgMaxHeap.FirstArgsMax (NewArgMaxHeap v) n = some out ∧
      out.length = min n v.length ∧ out.Nodup ∧ (∀ i ∈ out, i < v.length) ∧
      out.Pairwise (fun a b => v.getD b 0 ≤ v.getD a 0) ∧
      (∀ i, i < v.length → i ∉ out → ∀ a ∈ out, v.getD i 0 ≤ v.getD a 0) ∧
      (v.length ≤ n → ∀ i, i < v.length → i ∈ out)) ∧
    ArgMaxHeap.FirstArgsMax (NewArgMaxHeap [1, 4, 2, 5, 3]) 100 = some [3, 1, 4, 2, 0] ∧
    ∀ k, k ≤ 5 → ArgMaxHeap.FirstArgsMax (NewArgMaxHeap [1, 4, 2, 5, 3]) k
      = some ([3, 1, 4, 2, 0].take k) := by
  refine ⟨FirstArgsMax_top v n, by decide!, ?_⟩
  intro k hk
  interval_cases k <;> decide!

theorem C15_firstArgsMax_witness :
    (∃ out, ArgMaxHeap.FirstArgsMax (NewArgMaxHeap [1, 4, 2, 5, 3]) 3 = some out ∧
      out.length = min 3 [(1 : ℚ), 4, 2, 5, 3].length ∧ out.Nodup ∧
      (∀ i ∈ out, i < [(1 : ℚ), 4, 2, 5, 3].length) ∧
      out.Pairwise (fun a b => [(1 : ℚ), 4, 2, 5, 3].getD b 0 ≤ [(1 : ℚ), 4, 2, 5, 3].getD a 0) ∧
      (∀ i, i < [(1 : ℚ), 4, 2, 5, 3].length → i ∉ out →
        ∀ a ∈ out, [(1 : ℚ), 4, 2, 5, 3].getD i 0 ≤ [(1 : ℚ), 4, 2, 5, 3].getD a 0) ∧
      ([(1 : ℚ), 4, 2, 5, 3].length ≤ 3 → ∀ i, i < [(1 : ℚ), 4, 2, 5, 3].length → i ∈ out)) ∧
    ArgMaxHeap.FirstArgsMax (NewArgMaxHeap [1, 4, 2, 5, 3]) 100 = some [3, 1, 4, 2, 0] ∧
    ∀ k, k ≤ 5 → ArgMaxHeap.FirstArgsMax (NewArgMaxHeap [1, 4, 2, 5, 3]) k
      = some ([3, 1, 4, 2, 0].take k) :=
  C15_firstArgsMax [1, 4, 2, 5, 3] 3

/-! ### Ties in FirstArgsMax (C16) -/

/-- C16 as stated fails on the code: on `[0,0,0]` the indices 1 and 2 hold equal
values and `FirstArgsMax(2)` returns `[0,2]`, index 2 without index 1; on
`[0,0,1,1]` the maxima are at 2 and 3 and `FirstArgsMax(1)` returns `[3]`, not
the lowest index of the maxima; on `[1,1,1]` `FirstArgsMax(3)` returns
`[0,2,1]`, index 2 before index 1. -/
theorem C16_counterexample :
    ArgMaxHeap.FirstArgsMax (NewArgMaxHeap [0, 0, 0]) 2 = some [0, 2] ∧
      ([(0 : ℚ), 0, 0].getD 1 0 = [(0 : ℚ), 0, 0].getD 2 0 ∧ 2 ∈ [0, 2] ∧ 1 ∉ [0, 2]) ∧
      ArgMaxHeap.FirstArgsMax (NewArgMaxHeap [0, 0, 1, 1]) 1 = some [3] ∧
      ArgMaxHeap.FirstArgsMax (NewArgMaxHeap [1, 1, 1]) 3 = some [0, 2, 1] := by
  decide!

/-- C16, amended. For every vector `v`, every `k` and every two indices `i`,
`j` of `v` with `v[i] > v[j]` (strictly), `FirstArgsMax(k)` never returns `j`
without `i`, and when it returns both, `i` stands before `j`. (Indices that
hold equal values are returned in no particular index order.) -/
theorem C16_firstArgsMax_strict_order (v : List ℚ) (k i j : Nat) (hi : i < v.length)
    (hlt : v.getD j 0 < v.getD i 0) :
    ∃ out, ArgMaxHeap.FirstArgsMax (NewArgMaxHeap v) k = some out ∧
      (j ∈ out → i ∈ out) ∧
      ∀ p q, out.get? p = some i → out.get? q = some j → p < q := by
  obtain ⟨out, h1, _, _, _, h5, h6, _⟩ := FirstArgsMax_top v k
  refine ⟨out, h1, ?_, ?_⟩
  · intro hj
    by_contra hni
    exact absurd (h6 i hi hni j hj) (not_le.mpr hlt)
  · intro p q hp hq
    by_contra hpq
    have hne : p ≠ q := by
      intro e
      rw [e, hq] at hp
      have hji : j = i := Option.some.inj hp
      rw [hji] at hlt
      exact lt_irrefl _ hlt
    have hqp : q < p := by omega
    have hpl : p < out.length := get?_lt_length hp
    have hql : q < out.length := get?_lt_length hq
    have := (List.pairwise_iff_get.mp h5) ⟨q, hql⟩ ⟨p, hpl⟩ hqp
    rw [get?_some_of_lt out p hpl] at hp
    rw [get?_some_of_lt out q hql] at hq
    rw [Option.some.inj hp, Option.some.inj hq] at this
    exact absurd this (not_le.mpr hlt)

theorem C16_firstArgsMax_strict_order_witness :
    ∃ out, ArgMaxHeap.FirstArgsMax (NewArgMaxHeap [0, 0, 1, 1]) 3 = some out ∧
      (1 ∈ out → 2 ∈ out) ∧
      ∀ p q, out.get? p = some 2 → out.get? q = some 1 → p < q :=
  C16_firstArgsMax_strict_order [0, 0, 1, 1] 3 2 1 (by decide) (by decide!)

/-! ### HeuristicSelectIndices -/

theorem sumOfVariances_cons (b : Bucket) (bs : List Bucket) (var : List ℚ) (j : Nat)
    (h : Vectors.ColumnWiseVariance b.Vectors = some var) :
    sumOfVariances (b :: bs) j = var.getD j 0 + sumOfVariances bs j := by
  unfold sumOfVariances
  rw [List.map_cons, List.sum_cons, h]
  rfl

theorem varianceLoop_sum {M : Nat} (hM : 0 < M) (bs : List Bucket) (hg : GoodBuckets M bs) :
    ∀ acc : List ℚ, acc.length = M →
      ∃ s, Buckets.varianceLoop bs acc = some s ∧ s.length = M ∧
        ∀ j, j < M → s.getD j 0 = acc.getD j 0 + sumOfVariances bs j := by
  induction bs with
  | nil =>
    intro acc h
    exact ⟨acc, rfl, h, fun j _ => by simp [sumOfVariances]⟩
  | cons b bs ih =>
    intro acc h
    obtain ⟨var, hvar, hlen⟩ := ColumnWiseVariance_some hM b.Vectors
      (hg b (List.mem_cons_self _ _)).1 (hg b (List.mem_cons_self _ _)).2
    have hadd := Add_eq_some acc var (by omega) (by omega)
    obtain ⟨s, hs, hslen, hsval⟩ := ih (fun b hb => hg b (List.mem_cons_of_mem _ hb))
      (Vector.rangeUpdate (fun a x => a + x) acc var) (by simp [rangeUpdate_length, h])
    refine ⟨s, ?_, hslen, ?_⟩
    · simp only [Buckets.varianceLoop, hvar, Option.some_bind, hadd, hs]
    · intro j hj
      rw [hsval j hj, rangeUpdate_getD _ acc var j (by omega) (by omega),
        sumOfVariances_cons b bs var j hvar]
      ring

theorem HeuristicSelectIndices_top {M : Nat} (hM : 0 < M) (bs : List Bucket) (hne : bs ≠ [])
    (hg : GoodBuckets M bs) :
    ∃ out, Buckets.HeuristicSelectIndices bs = some out ∧
      out.length = min 4 M ∧ out.Nodup ∧ (∀ i ∈ out, i < M) ∧
      out.Pairwise (fun a b => sumOfVariances bs b ≤ sumOfVariances bs a) ∧
      ∀ i, i < M → i ∉ out → ∀ a ∈ out, sumOfVariances bs i ≤ sumOfVariances bs a := by
  cases bs with
  | nil => exact absurd rfl hne
  | cons b0 rest =>
    obtain ⟨var, hvar, hlen⟩ := ColumnWiseVariance_some hM b0.Vectors
      (hg b0 (List.mem_cons_self _ _)).1 (hg b0 (List.mem_cons_self _ _)).2
    obtain ⟨s, hs, hslen, hsval⟩ := varianceLoop_sum hM rest
      (fun b hb => hg b (List.mem_cons_of_mem _ hb)) var hlen
    have hkey : ∀ j, j < M → s.getD j 0 = sumOfVariances (b0 :: rest) j := by
      intro j hj
      rw [hsval j hj, sumOfVariances_cons b0 rest var j hvar]
    obtain ⟨out, h1, h2, h3, h4, h5, h6, _⟩ := FirstArgsMax_top s 4
    rw [hslen] at h2 h4 h6
    refine ⟨out, ?_, h2, h3, h4, ?_, ?_⟩
    · simp only [Buckets.HeuristicSelectIndices, hvar, Option.some_bind, hs, h1]
    · refine List.Pairwise.imp_of_mem ?_ h5
      intro a b ha hb hab
      rw [← hkey a (h4 a ha), ← hkey b (h4 b hb)]
      exact hab
    · intro i hi hni a ha
      rw [← hkey a (h4 a ha), ← hkey i hi]
      exact h6 i hi hni a ha

/-- C17 (HeuristicSelectIndices). For every non-empty list of non-empty
buckets whose rows all have width `M > 0`, `HeuristicSelectIndices` returns
`min(4, M)` pairwise distinct column indices below `M`, in non-increasing order
of the element-wise sum of the buckets' `ColumnWiseVariance` vectors, and every
column that is not returned has a summed variance less than or equal to that of
every returned column. The function only reads the rows of the buckets: the
vectors that it updates are the ones that `ColumnWiseVariance` allocates. -/
theorem C17_heuristicSelectIndices (M : Nat) (hM : 0 < M) (bs : List Bucket) (hne : bs ≠ [])
    (hg : GoodBuckets M bs) :
    ∃ out, Buckets.HeuristicSelectIndices bs = some out ∧
      out.length = min 4 M ∧ out.Nodup ∧ (∀ i ∈ out, i < M) ∧
      out.Pairwise (fun a b => sumOfVariances bs b ≤ sumOfVariances bs a) ∧
      ∀ i, i < M → i ∉ out → ∀ a ∈ out, sumOfVariances bs i ≤ sumOfVariances bs a :=
  HeuristicSelectIndices_top hM bs hne hg

theorem C17_heuristicSelectIndices_witness :
    (Buckets.HeuristicSelectIndices testBuckets = some [4, 2, 1, 3] ∧
      (List.range 5).map (sumOfVariances testBuckets) = [10, 15, 18, 11, 100]) ∧
    ∃ out, Buckets.HeuristicSelectIndices testBuckets = some out ∧
      out.length = min 4 5 ∧ out.Nodup ∧ (∀ i ∈ out, i < 5) ∧
      out.Pairwise
        (fun a b => sumOfVariances testBuckets b ≤ sumOfVariances testBuckets a) ∧
      ∀ i, i < 5 → i ∉ out →
        ∀ a ∈ out, sumOfVariances testBuckets i ≤ sumOfVariances testBuckets a :=
  ⟨by decide!,
    C17_heuristicSelectIndices 5 (by decide) testBuckets (by decide)
      (by
        intro b hb
        simp only [testBuckets, List.mem_cons, List.mem_singleton, List.not_mem_nil,
          or_false] at hb
        rcases hb with h | h <;> rw [h] <;> simp [Rect])⟩

/-! ### CumulativeSSE in closed form -/

theorem colSum_append (a b : List (List ℚ)) (j : Nat) :
    colSum (a ++ b) j = colSum a j + colSum b j := by
  simp [colSum, List.map_append, List.sum_append]

theorem colSq_append (a b : List (List ℚ)) (j : Nat) :
    colSq (a ++ b) j = colSq a j + colSq b j := by
  simp [colSq, List.map_append, List.sum_append]

theorem colSum_reverse (a : List (List ℚ)) (j : Nat) : colSum a.reverse j = colSum a j := by
  simp [colSum, List.map_reverse, List.sum_reverse]

theorem colSq_reverse (a : List (List ℚ)) (j : Nat) : colSq a.reverse j = colSq a j := by
  simp [colSq, List.map_reverse, List.sum_reverse]

theorem sseRaw_reverse (M : Nat) (a : List (List ℚ)) : sseRaw M a.reverse = sseRaw M a := by
  unfold sseRaw
  apply Finset.sum_congr rfl
  intro j _
  rw [colSum_reverse, colSq_reverse, List.length_reverse]

theorem sum_sq_dev (rows : List (List ℚ)) (j : Nat) (m : ℚ) :
    (rows.map fun r => (r.getD j 0 - m) ^ 2).sum
      = colSq rows j - 2 * m * colSum rows j + (rows.length : ℚ) * m ^ 2 := by
  induction rows with
  | nil => simp [colSq, colSum]
  | cons r rows ih =>
    simp only [List.map_cons, List.sum_cons, colSq, colSum, List.length_cons] at ih ⊢
    rw [ih]
    push_cast
    ring

theorem sseRaw_eq_SSE (M : Nat) (rows : List (List ℚ)) (hne : rows ≠ []) (hr : Rect M rows) :
    sseRaw M rows = SSE rows := by
  cases rows with
  | nil => exact absurd rfl hne
  | cons r0 rest =>
    have hw : ((r0 :: rest).headD []).length = M := hr r0 (List.mem_cons_self _ _)
    unfold sseRaw SSE
    rw [hw]
    apply Finset.sum_congr rfl
    intro j _
    rw [sum_sq_dev, colMean]
    have hn : ((r0 :: rest).length : ℚ) ≠ 0 := by
      simp only [List.length_cons]
      push_cast
      positivity
    field_simp
    ring

theorem rowSSE_spec (i : Nat) :
    ∀ (k : Nat) (sum sq : List ℚ) (out : ℚ), k ≤ sum.length → k ≤ sq.length →
      Vectors.rowSSE sum sq k i out
        = out + ∑ j ∈ Finset.range k,
            (sq.getD j 0 - sum.getD j 0 * sum.getD j 0 / ((i + 1 : Nat) : ℚ)) := by
  intro k
  induction k with
  | zero =>
    intro sum sq out _ _
    cases sum <;> cases sq <;> simp [Vectors.rowSSE]
  | succ k ih =>
    intro sum sq out hs hq
    cases sum with
    | nil => simp at hs
    | cons s sum =>
      cases sq with
      | nil => simp at hq
      | cons q sq =>
        simp only [List.length_cons] at hs hq
        rw [Vectors.rowSSE, ih sum sq _ (by omega) (by omega), Finset.sum_range_succ']
        simp only [List.getD_cons_succ, List.getD_cons_zero]
        ring

theorem sseLoop_spec {M : Nat} (hM : 0 < M) :
    ∀ (vs pre : List (List ℚ)) (sum sq : List ℚ), Rect M vs →
      sum.length = M → sq.length = M →
      (∀ j, j < M → sum.getD j 0 = colSum pre j) →
      (∀ j, j < M → sq.getD j 0 = colSq pre j) →
      ∃ out, Vectors.sseLoop vs pre.length sum sq = some out ∧ out.length = vs.length ∧
        ∀ k, k < vs.length → out.getD k 0 = sseRaw M (pre ++ vs.take (k + 1)) := by
  intro vs
  induction vs with
  | nil =>
    intro pre sum sq _ _ _ _ _
    exact ⟨[], rfl, rfl, fun k hk => by simp at hk⟩
  | cons v vs ih =>
    intro pre sum sq hr hs hq hsum hsq
    have hv : v.length = M := rect_head hr
    have hb : Vector.boundsOK sum v = true := boundsOK_eq_true sum v (by omega) (by omega)
    have hsum1 : ∀ j, j < M →
        (Vector.rangeUpdate (fun a x => a + x) sum v).getD j 0 = colSum (pre ++ [v]) j := by
      intro j hj
      rw [rangeUpdate_getD _ sum v j (by omega) (by omega), hsum j hj, colSum_append]
      simp [colSum]
    have hsq1 : ∀ j, j < M →
        (Vector.rangeUpdate (fun a x => a + x * x) sq v).getD j 0 = colSq (pre ++ [v]) j := by
      intro j hj
      rw [rangeUpdate_getD _ sq v j (by omega) (by omega), hsq j hj, colSq_append]
      simp [colSq]
    obtain ⟨out, hout, hlen, hval⟩ := ih (pre ++ [v])
      (Vector.rangeUpdate (fun a x => a + x) sum v)
      (Vector.rangeUpdate (fun a x => a + x * x) sq v) (rect_tail hr)
      (by rw [rangeUpdate_length]; exact hs) (by rw [rangeUpdate_length]; exact hq) hsum1 hsq1
    have hlen1 : (pre ++ [v]).length = pre.length + 1 := by simp
    rw [hlen1] at hout
    refine ⟨Vectors.rowSSE (Vector.rangeUpdate (fun a x => a + x) sum v)
      (Vector.rangeUpdate (fun a x => a + x * x) sq v) v.length pre.length 0 :: out, ?_,
      by simp [hlen], ?_⟩
    · simp only [Vectors.sseLoop, hb, if_true, hout, Option.map_some']
    · intro k hk
      cases k with
      | zero =>
        rw [List.getD_cons_zero, rowSSE_spec pre.length v.length _ _ 0
          (by rw [rangeUpdate_length]; omega) (by rw [rangeUpdate_length]; omega), hv]
        unfold sseRaw
        rw [zero_add]
        apply Finset.sum_congr rfl
        intro j hj
        have hj1 : j < M := Finset.mem_range.mp hj
        rw [hsum1 j hj1, hsq1 j hj1]
        simp
      | succ k =>
        rw [List.getD_cons_succ, hval k (by simpa using hk)]
        simp

theorem CumulativeSSE_spec {M : Nat} (hM : 0 < M) (rows : List (List ℚ)) (hne : rows ≠ [])
    (hr : Rect M rows) :
    ∃ out, Vectors.CumulativeSSE rows = some out ∧ out.length = rows.length ∧
      ∀ k, k < rows.length → out.getD k 0 = sseRaw M (rows.take (k + 1)) := by
  cases rows with
  | nil => exact absurd rfl hne
  | cons v0 rest =>
    have hv : v0.length = M := rect_head hr
    have hsum : ∀ j, j < M → v0.getD j 0 = colSum [v0] j := by
      intro j _
      simp [colSum]
    have hsq : ∀ j, j < M → (v0.map fun x => x * x).getD j 0 = colSq [v0] j := by
      intro j hj
      have hj1 : j < v0.length := by omega
      simp [colSq, List.getD_eq_getElem?_getD, List.getElem?_map, List.getElem?_eq_getElem hj1]
    obtain ⟨out, hout, hlen, hval⟩ := sseLoop_spec hM rest [v0] v0 (v0.map fun x => x * x)
      (rect_tail hr) hv (by simp [hv]) hsum hsq
    have h0 : ¬ v0.length = 0 := by omega
    have h1 : [v0].length = 1 := rfl
    rw [h1] at hout
    refine ⟨0 :: out, ?_, by simp [hlen], ?_⟩
    · simp only [Vectors.CumulativeSSE, h0, if_false, hout, Option.map_some']
    · intro k hk
      cases k with
      | zero =>
        rw [List.getD_cons_zero]
        unfold sseRaw
        symm
        apply Finset.sum_eq_zero
        intro j _
        simp [colSq, colSum]
      | succ k =>
        rw [List.getD_cons_succ, hval k (by simpa using hk)]
        simp

/-! ### ArgMin returns the first minimum -/

theorem argMinLoop_spec :
    ∀ (rest : List ℚ) (i mi : Nat) (mv : ℚ),
      (Vector.argMinLoop rest i mi mv = mi ∧ ∀ x ∈ rest, mv ≤ x) ∨
      (i ≤ Vector.argMinLoop rest i mi mv ∧
        Vector.argMinLoop rest i mi mv - i < rest.length ∧
        rest.getD (Vector.argMinLoop rest i mi mv - i) 0 < mv ∧
        (∀ k, k < rest.length →
          rest.getD (Vector.argMinLoop rest i mi mv - i) 0 ≤ rest.getD k 0) ∧
        ∀ k, k < Vector.argMinLoop rest i mi mv - i →
          rest.getD (Vector.argMinLoop rest i mi mv - i) 0 < rest.getD k 0) := by
  intro rest
  induction rest with
  | nil =>
    intro i mi mv
    exact Or.inl ⟨rfl, fun x hx => by simp at hx⟩
  | cons val rest ih =>
    intro i mi mv
    by_cases hlt : val < mv
    · have e : Vector.argMinLoop (val :: rest) i mi mv = Vector.argMinLoop rest (i + 1) i val := by
        simp only [Vector.argMinLoop, if_pos hlt]
      rw [e]
      right
      rcases ih (i + 1) i val with ⟨h1, h2⟩ | ⟨h1, h2, h3, h4, h5⟩
      · rw [h1, Nat.sub_self]
        refine ⟨le_refl _, by simp, by simpa using hlt, ?_, fun k hk => by omega⟩
        intro k hk
        cases k with
        | zero => simp
        | succ k =>
          rw [List.getD_cons_zero, List.getD_cons_succ, List.getD_eq_getElem?_getD,
            List.getElem?_eq_getElem (by simpa using hk)]
          exact h2 _ (List.getElem_mem _)
      · generalize Vector.argMinLoop rest (i + 1) i val = r at h1 h2 h3 h4 h5
        have hr : r - i = (r - (i + 1)) + 1 := by omega
        rw [hr, List.getD_cons_succ]
        refine ⟨by omega, by simp; omega, lt_trans h3 hlt, ?_, ?_⟩
        · intro k hk
          cases k with
          | zero => rw [List.getD_cons_zero]; exact le_of_lt h3
          | succ k => rw [List.getD_cons_succ]; exact h4 k (by simpa using hk)
        · intro k hk
          cases k with
          | zero => rw [List.getD_cons_zero]; exact h3
          | succ k => rw [List.getD_cons_succ]; exact h5 k (by omega)
    · have e : Vector.argMinLoop (val :: rest) i mi mv
          = Vector.argMinLoop rest (i + 1) mi mv := by
        simp only [Vector.argMinLoop, if_neg hlt]
      rw [e]
      have hle : mv ≤ val := not_lt.mp hlt
      rcases ih (i + 1) mi mv with ⟨h1, h2⟩ | ⟨h1, h2, h3, h4, h5⟩
      · left
        refine ⟨h1, ?_⟩
        intro x hx
        rcases List.mem_cons.mp hx with h | h
        · rw [h]; exact hle
        · exact h2 x h
      · right
        generalize Vector.argMinLoop rest (i + 1) mi mv = r at h1 h2 h3 h4 h5
        have hr : r - i = (r - (i + 1)) + 1 := by omega
        rw [hr, List.getD_cons_succ]
        refine ⟨by omega, by simp; omega, h3, ?_, ?_⟩
        · intro k hk
          cases k with
          | zero => rw [List.getD_cons_zero]; exact le_of_lt (lt_of_lt_of_le h3 hle)
          | succ k => rw [List.getD_cons_succ]; exact h4 k (by simpa using hk)
        · intro k hk
          cases k with
          | zero => rw [List.getD_cons_zero]; exact lt_of_lt_of_le h3 hle
          | succ k => rw [List.getD_cons_succ]; exact h5 k (by omega)

theorem ArgMin_spec (l : List ℚ) (hne : l ≠ []) :
    ∃ n, Vector.ArgMin l = some n ∧ n < l.length ∧
      (∀ k, k < l.length → l.getD n 0 ≤ l.getD k 0) ∧
      ∀ k, k < n → l.getD n 0 < l.getD k 0 := by
  cases l with
  | nil => exact absurd rfl hne
  | cons x rest =>
    refine ⟨Vector.argMinLoop (x :: rest) 0 0 x, rfl, ?_⟩
    rcases argMinLoop_spec (x :: rest) 0 0 x with ⟨h1, h2⟩ | ⟨_, h2, _, h4, h5⟩
    · rw [h1]
      refine ⟨by simp, ?_, fun k hk => by omega⟩
      intro k hk
      rw [List.getD_cons_zero, List.getD_eq_getElem?_getD, List.getElem?_eq_getElem hk]
      exact h2 _ (List.getElem_mem _)
    · rw [Nat.sub_zero] at h2 h4 h5
      exact ⟨h2, h4, h5⟩

/-! ### Splitting never increases the error sum of squares -/

theorem column_split_le (qa sa qb sb : ℚ) (n m : Nat) (hn : 0 < n) (hm : 0 < m) :
    (qa - sa * sa / (n : ℚ)) + (qb - sb * sb / (m : ℚ))
      ≤ (qa + qb) - (sa + sb) * (sa + sb) / ((n + m : Nat) : ℚ) := by
  have hn1 : (0 : ℚ) < n := by exact_mod_cast hn
  have hm1 : (0 : ℚ) < m := by exact_mod_cast hm
  have hnm : (0 : ℚ) < (n : ℚ) + m := by positivity
  have key : (sa + sb) * (sa + sb) / ((n : ℚ) + m) ≤ sa * sa / n + sb * sb / m := by
    rw [div_add_div _ _ (ne_of_gt hn1) (ne_of_gt hm1), div_le_div_iff₀ hnm (by positivity)]
    nlinarith [sq_nonneg (sa * m - sb * n), mul_pos hn1 hm1, mul_pos hnm (mul_pos hn1 hm1)]
  push_cast
  linarith

theorem sseRaw_split_le (M : Nat) (a b : List (List ℚ)) (ha : a ≠ []) (hb : b ≠ []) :
    sseRaw M a + sseRaw M b ≤ sseRaw M (a ++ b) := by
  unfold sseRaw
  rw [← Finset.sum_add_distrib]
  apply Finset.sum_le_sum
  intro j _
  rw [colSum_append, colSq_append, List.length_append]
  exact column_split_le _ _ _ _ _ _ (List.length_pos.mpr ha) (List.length_pos.mpr hb)

/-! ### The loss vector of OptimalSplitThreshold -/

theorem get?_eq_some_getD {α : Type} (l : List α) (n : Nat) (d : α) (h : n < l.length) :
    l.get? n = some (l.getD n d) := by
  rw [List.get?_eq_getElem?, List.getD_eq_getElem?_getD, List.getElem?_eq_getElem h]
  rfl

theorem take_succ_ne_nil {α : Type} (l : List α) (k : Nat) (h : 0 < l.length) :
    l.take (k + 1) ≠ [] := by
  intro e
  have := congrArg List.length e
  rw [List.length_take, List.length_nil] at this
  omega

theorem drop_succ_ne_nil {α : Type} (l : List α) (k : Nat) (h : k + 1 < l.length) :
    l.drop (k + 1) ≠ [] := by
  intro e
  have := congrArg List.length e
  rw [List.length_drop, List.length_nil] at this
  omega

theorem lossVector_spec {M : Nat} (hM : 0 < M) (sorted : List (List ℚ))
    (hlen : 2 ≤ sorted.length) (hr : Rect M sorted) :
    ∃ head tail0 front, Vectors.CumulativeSSE sorted = some head ∧
      Vectors.CumulativeSSE sorted.reverse = some tail0 ∧
      Vector.Add (head.take (head.length - 1)) ((Vector.Reverse tail0).drop 1) = some front ∧
      (front ++ head.drop (head.length - 1)).length = sorted.length ∧
      (∀ k, k + 1 < sorted.length →
        (front ++ head.drop (head.length - 1)).getD k 0 = splitLoss sorted k) ∧
      (front ++ head.drop (head.length - 1)).getD (sorted.length - 1) 0 = SSE sorted := by
  have hsne : sorted ≠ [] := by
    intro h; rw [h] at hlen; simp at hlen
  have hrrev : Rect M sorted.reverse := rect_of_perm hr (List.reverse_perm _)
  obtain ⟨head, hhead, hheadlen, hheadval⟩ := CumulativeSSE_spec hM sorted hsne hr
  obtain ⟨tail0, htail, htaillen, htailval⟩ := CumulativeSSE_spec hM sorted.reverse
    (by simpa using hsne) hrrev
  rw [List.length_reverse] at htaillen htailval
  have hadd := Add_eq_some (head.take (head.length - 1)) ((Vector.Reverse tail0).drop 1)
    (by simp [Vector.Reverse]; omega) (by simp [Vector.Reverse]; omega)
  have hfrontlen : (Vector.rangeUpdate (fun a x => a + x) (head.take (head.length - 1))
      ((Vector.Reverse tail0).drop 1)).length = sorted.length - 1 := by
    rw [rangeUpdate_length]; simp; omega
  have htakelen : (head.take (head.length - 1)).length = sorted.length - 1 := by
    simp; omega
  have hdroplen : ((Vector.Reverse tail0).drop 1).length = sorted.length - 1 := by
    simp [Vector.Reverse]; omega
  refine ⟨head, tail0, _, hhead, htail, hadd, ?_, ?_, ?_⟩
  · rw [List.length_append, hfrontlen, List.length_drop]; omega
  · intro k hk
    rw [List.getD_eq_getElem?_getD, List.getElem?_append_left (by rw [hfrontlen]; omega),
      ← List.getD_eq_getElem?_getD,
      rangeUpdate_getD _ _ _ k (by rw [hdroplen, htakelen]) (by rw [htakelen]; omega)]
    have h1 : (head.take (head.length - 1)).getD k 0 = SSE (sorted.take (k + 1)) := by
      rw [List.getD_eq_getElem?_getD, List.getElem?_take_of_lt (by omega),
        ← List.getD_eq_getElem?_getD, hheadval k (by omega)]
      apply sseRaw_eq_SSE
      · exact take_succ_ne_nil sorted k (by omega)
      · intro v hv
        exact hr v (List.mem_of_mem_take hv)
    have h2 : ((Vector.Reverse tail0).drop 1).getD k 0 = SSE (sorted.drop (k + 1)) := by
      unfold Vector.Reverse
      rw [List.getD_eq_getElem?_getD, List.getElem?_drop,
        List.getElem?_reverse (by omega), ← List.getD_eq_getElem?_getD,
        htailval _ (by omega)]
      have e : tail0.length - 1 - (1 + k) + 1 = sorted.length - (k + 1) := by omega
      rw [e, List.take_reverse, sseRaw_reverse]
      have e2 : sorted.length - (sorted.length - (k + 1)) = k + 1 := by omega
      rw [e2]
      apply sseRaw_eq_SSE
      · exact drop_succ_ne_nil sorted k hk
      · intro v hv
        exact hr v (List.mem_of_mem_drop hv)
    rw [h1, h2]
    rfl
  · rw [List.getD_eq_getElem?_getD, List.getElem?_append_right (by rw [hfrontlen]),
      hfrontlen, Nat.sub_self, List.getElem?_drop, Nat.add_zero, ← List.getD_eq_getElem?_getD,
      hheadlen, hheadval _ (by omega)]
    have e : sorted.length - 1 + 1 = sorted.length := by omega
    rw [e, List.take_length]
    exact sseRaw_eq_SSE M sorted hsne hr

theorem splitLoss_le_SSE {M : Nat} (sorted : List (List ℚ)) (hr : Rect M sorted) (k : Nat)
    (hk : k + 1 < sorted.length) : splitLoss sorted k ≤ SSE sorted := by
  have ha : sorted.take (k + 1) ≠ [] := take_succ_ne_nil sorted k (by omega)
  have hb : sorted.drop (k + 1) ≠ [] := drop_succ_ne_nil sorted k hk
  have hne : sorted ≠ [] := by
    intro h; rw [h] at hk; simp at hk
  unfold splitLoss
  rw [← sseRaw_eq_SSE M _ ha (fun v hv => hr v (List.mem_of_mem_take hv)),
    ← sseRaw_eq_SSE M _ hb (fun v hv => hr v (List.mem_of_mem_drop hv)),
    ← sseRaw_eq_SSE M sorted hne hr]
  have := sseRaw_split_le M _ _ ha hb
  rw [List.take_append_drop] at this
  exact this

theorem OptimalSplitThreshold_spec {M : Nat} (vs : List (List ℚ))
    (hlen : 2 ≤ vs.length) (hr : Rect M vs) (c : Nat) (hc : c < M) :
    ∃ sorted head tail0 front n,
      Vectors.SortByColumn vs c = some sorted ∧
      sorted = vs.insertionSort (Vectors.colLE c) ∧
      Vectors.CumulativeSSE sorted = some head ∧
      Vectors.CumulativeSSE sorted.reverse = some tail0 ∧
      Vector.Add (head.take (head.length - 1)) ((Vector.Reverse tail0).drop 1) = some front ∧
      Vector.ArgMin (front ++ head.drop (head.length - 1)) = some n ∧
      n + 1 < sorted.length ∧ sorted.length = vs.length ∧
      (front ++ head.drop (head.length - 1)).length = sorted.length ∧
      (∀ k, k + 1 < sorted.length →
        (front ++ head.drop (head.length - 1)).getD k 0 = splitLoss sorted k) ∧
      (front ++ head.drop (head.length - 1)).getD (sorted.length - 1) 0 = SSE sorted ∧
      (∀ k, k < sorted.length → (front ++ head.drop (head.length - 1)).getD n 0
        ≤ (front ++ head.drop (head.length - 1)).getD k 0) ∧
      (∀ k, k < n → (front ++ head.drop (head.length - 1)).getD n 0
        < (front ++ head.drop (head.length - 1)).getD k 0) ∧
      ∀ na : Nextafter32, Vectors.OptimalSplitThreshold na vs c
        = some (((sorted.getD n []).getD c 0 + (sorted.getD (n + 1) []).getD c 0) / 2,
            (front ++ head.drop (head.length - 1)).getD n 0) := by
  have hM : 0 < M := by omega
  have hsort : Vectors.SortByColumn vs c = some (vs.insertionSort (Vectors.colLE c)) := by
    unfold Vectors.SortByColumn
    have hall : vs.all (fun v => decide (c < v.length)) = true := by
      rw [List.all_eq_true]
      intro v hv
      rw [decide_eq_true_iff, hr v hv]
      exact hc
    rw [if_neg (by omega), if_pos hall]
  have hperm : (vs.insertionSort (Vectors.colLE c)).Perm vs := List.perm_insertionSort _ _
  obtain ⟨sorted, hsdef⟩ : ∃ s, s = vs.insertionSort (Vectors.colLE c) := ⟨_, rfl⟩
  rw [← hsdef] at hsort hperm
  have hrs : Rect M sorted := rect_of_perm hr hperm
  have hslen : sorted.length = vs.length := hperm.length_eq
  have hlen2 : 2 ≤ sorted.length := by omega
  obtain ⟨head, tail0, front, hhead, htail, hadd, hlosslen, hlossval, hlast⟩ :=
    lossVector_spec hM sorted hlen2 hrs
  obtain ⟨n, hn, hnlt, hmin, hfirst⟩ := ArgMin_spec (front ++ head.drop (head.length - 1))
    (by intro h; rw [h] at hlosslen; simp at hlosslen; omega)
  rw [hlosslen] at hnlt hmin
  have hn1 : n + 1 < sorted.length := by
    by_contra hcon
    have hnl : n = sorted.length - 1 := by omega
    have h0 := hfirst 0 (by omega)
    rw [hnl, hlast, hlossval 0 (by omega)] at h0
    exact absurd (splitLoss_le_SSE sorted hrs 0 (by omega)) (not_le.mpr h0)
  refine ⟨sorted, head, tail0, front, n, hsort, hsdef, hhead, htail, hadd, hn, hn1, hslen,
    hlosslen, hlossval, hlast, hmin, hfirst, ?_⟩
  intro na
  have hrowN : (sorted.getD n []).length = M := by
    have := get?_eq_some_getD sorted n [] hnlt
    exact hrs _ (List.get?_mem this)
  have hrowN1 : (sorted.getD (n + 1) []).length = M := by
    have := get?_eq_some_getD sorted (n + 1) [] hn1
    exact hrs _ (List.get?_mem this)
  have hne1 : ¬ sorted.length = 1 := by omega
  unfold Vectors.OptimalSplitThreshold
  simp only [Vectors.Copy, Vectors.Reverse, hsort, Option.some_bind, if_neg hne1, hhead, htail,
    Option.map_some', hadd, hn, get?_eq_some_getD sorted n [] hnlt,
    get?_eq_some_getD (sorted.getD n []) c 0 (by omega), if_pos (show n < sorted.length - 1 by omega),
    get?_eq_some_getD sorted (n + 1) [] hn1,
    get?_eq_some_getD (sorted.getD (n + 1) []) c 0 (by omega),
    get?_eq_some_getD (front ++ head.drop (head.length - 1)) n 0 (by omega)]

/-! ### OptimalSplitThreshold returns the best contiguous split -/

/-- C18 (best contiguous split, exact arithmetic). For every matrix `vs` with
`N ≥ 2` rows of width `M` and every column `j < M`, with `sorted` the stable
ascending sort of `vs` by column `j`, `OptimalSplitThreshold` returns the loss
`SSE(sorted[0..n]) + SSE(sorted[n+1..N-1])` that is minimal over `n` in
`[0, N-2]`, for the lowest such `n`, and the threshold
`(sorted[n][j] + sorted[n+1][j]) / 2`. -/
theorem C18_optimalSplitThreshold_best_split (na : Nextafter32) (M : Nat)
    (vs : List (List ℚ)) (hlen : 2 ≤ vs.length) (hr : Rect M vs) (j : Nat) (hj : j < M) :
    ∃ sorted n, Vectors.SortByColumn vs j = some sorted ∧
      sorted = vs.insertionSort (Vectors.colLE j) ∧ sorted.length = vs.length ∧
      n + 2 ≤ sorted.length ∧
      (∀ k, k + 2 ≤ sorted.length → splitLoss sorted n ≤ splitLoss sorted k) ∧
      (∀ k, k < n → splitLoss sorted n < splitLoss sorted k) ∧
      Vectors.OptimalSplitThreshold na vs j
        = some (((sorted.getD n []).getD j 0 + (sorted.getD (n + 1) []).getD j 0) / 2,
            splitLoss sorted n) := by
  obtain ⟨sorted, head, tail0, front, n, h1, h2, _, _, _, _, h7, h8, _, h10, _, h12, h13, h14⟩ :=
    OptimalSplitThreshold_spec vs hlen hr j hj
  refine ⟨sorted, n, h1, h2, h8, by omega, ?_, ?_, ?_⟩
  · intro k hk
    rw [← h10 n h7, ← h10 k (by omega)]
    exact h12 k (by omega)
  · intro k hk
    rw [← h10 n h7, ← h10 k (by omega)]
    exact h13 k hk
  · rw [h14 na, h10 n h7]

theorem C18_optimalSplitThreshold_best_split_witness :
    (Vectors.OptimalSplitThreshold unitStep [[2], [4], [6], [8]] 0 = some (5, 4) ∧
      Vectors.OptimalSplitThreshold unitStep [[1], [5], [6]] 0 = some (3, 1 / 2)) ∧
    ∃ sorted n, Vectors.SortByColumn [[2], [4], [6], [8]] 0 = some sorted ∧
      sorted = List.insertionSort (Vectors.colLE 0) [[2], [4], [6], [8]] ∧
      sorted.length = [[(2 : ℚ)], [4], [6], [8]].length ∧
      n + 2 ≤ sorted.length ∧
      (∀ k, k + 2 ≤ sorted.length → splitLoss sorted n ≤ splitLoss sorted k) ∧
      (∀ k, k < n → splitLoss sorted n < splitLoss sorted k) ∧
      Vectors.OptimalSplitThreshold unitStep [[2], [4], [6], [8]] 0
        = some (((sorted.getD n []).getD 0 0 + (sorted.getD (n + 1) []).getD 0 0) / 2,
            splitLoss sorted n) :=
  ⟨by decide!,
    C18_optimalSplitThreshold_best_split unitStep 1 [[2], [4], [6], [8]] (by decide)
      (by simp [Rect]) 0 (by decide)⟩

/-- C20 (the last position is never the arg-min). For every matrix with
`N ≥ 2` rows of width `M` (exact arithmetic) and every column `j < M`, the
`ArgMin` of the combined loss vector that `OptimalSplitThreshold` builds is
strictly less than `N - 1`; the threshold is the midpoint of two adjacent
sorted values, and the result does not depend on `math.Nextafter32`. -/
theorem C20_last_position_never_taken (na : Nextafter32) (M : Nat) (vs : List (List ℚ))
    (hlen : 2 ≤ vs.length) (hr : Rect M vs) (j : Nat) (hj : j < M) :
    ∃ sorted head tail0 front n,
      Vectors.SortByColumn vs j = some sorted ∧
      Vectors.CumulativeSSE sorted = some head ∧
      Vectors.CumulativeSSE (Vectors.Reverse sorted) = some tail0 ∧
      Vector.Add (head.take (head.length - 1)) ((Vector.Reverse tail0).drop 1) = some front ∧
      Vector.ArgMin (front ++ head.drop (head.length - 1)) = some n ∧
      sorted.length = vs.length ∧ n < sorted.length - 1 ∧
      Vectors.OptimalSplitThreshold na vs j
        = some (((sorted.getD n []).getD j 0 + (sorted.getD (n + 1) []).getD j 0) / 2,
            (front ++ head.drop (head.length - 1)).getD n 0) ∧
      ∀ na1 : Nextafter32,
        Vectors.OptimalSplitThreshold na1 vs j = Vectors.OptimalSplitThreshold na vs j := by
  obtain ⟨sorted, head, tail0, front, n, h1, _, h3, h4, h5, h6, h7, h8, _, _, _, _, _, h14⟩ :=
    OptimalSplitThreshold_spec vs hlen hr j hj
  refine ⟨sorted, head, tail0, front, n, h1, h3, h4, h5, h6, h8, by omega, h14 na, ?_⟩
  intro na1
  rw [h14 na1, h14 na]

theorem C20_last_position_never_taken_witness :
    ∃ sorted head tail0 front n,
      Vectors.SortByColumn [[1], [5], [6]] 0 = some sorted ∧
      Vectors.CumulativeSSE sorted = some head ∧
      Vectors.CumulativeSSE (Vectors.Reverse sorted) = some tail0 ∧
      Vector.Add (head.take (head.length - 1)) ((Vector.Reverse tail0).drop 1) = some front ∧
      Vector.ArgMin (front ++ head.drop (head.length - 1)) = some n ∧
      sorted.length = [[(1 : ℚ)], [5], [6]].length ∧ n < sorted.length - 1 ∧
      Vectors.OptimalSplitThreshold unitStep [[1], [5], [6]] 0
        = some (((sorted.getD n []).getD 0 0 + (sorted.getD (n + 1) []).getD 0 0) / 2,
            (front ++ head.drop (head.length - 1)).getD n 0) ∧
      ∀ na1 : Nextafter32,
        Vectors.OptimalSplitThreshold na1 [[1], [5], [6]] 0
          = Vectors.OptimalSplitThreshold unitStep [[1], [5], [6]] 0 :=
  C20_last_position_never_taken unitStep 1 [[1], [5], [6]] (by decide) (by simp [Rect]) 0
    (by decide)

/-! ### ArgMin, SplitByThreshold and SortByColumn -/

/-- C28 (ArgMin). For every non-empty vector `v`, `ArgMin(v)` returns an index
`i` below `len(v)` such that `v[i] ≤ v[k]` for every `k`, and `v[k] > v[i]` for
every `k < i`: the lowest index of the minimum. -/
theorem C28_argMin_first_minimum (v : List ℚ) (hne : v ≠ []) :
    ∃ i, Vector.ArgMin v = some i ∧ i < v.length ∧
      (∀ k, k < v.length → v.getD i 0 ≤ v.getD k 0) ∧
      ∀ k, k < i → v.getD i 0 < v.getD k 0 :=
  ArgMin_spec v hne

theorem C28_argMin_first_minimum_witness :
    (Vector.ArgMin [3, 2, 1, 4] = some 2 ∧ Vector.ArgMin [3, 1, 2, 1] = some 1) ∧
    ∃ i, Vector.ArgMin [3, 2, 1, 4] = some i ∧ i < [(3 : ℚ), 2, 1, 4].length ∧
      (∀ k, k < [(3 : ℚ), 2, 1, 4].length →
        [(3 : ℚ), 2, 1, 4].getD i 0 ≤ [(3 : ℚ), 2, 1, 4].getD k 0) ∧
      ∀ k, k < i → [(3 : ℚ), 2, 1, 4].getD i 0 < [(3 : ℚ), 2, 1, 4].getD k 0 :=
  ⟨by decide!, C28_argMin_first_minimum [3, 2, 1, 4] (by decide)⟩

theorem notBelow_eq (j : Nat) (t : ℚ) :
    notBelow j t = fun r => decide (t ≤ r.getD j 0) := by
  funext r
  unfold notBelow below
  by_cases h : r.getD j 0 < t
  · have h2 : ¬ t ≤ r.getD j 0 := not_le.mpr h
    rw [decide_eq_true h, decide_eq_false h2]
    rfl
  · have h2 : t ≤ r.getD j 0 := not_lt.mp h
    rw [decide_eq_false h, decide_eq_true h2]
    rfl

/-- C26 (SplitByThreshold). For every matrix `vs` whose rows have an entry at
column `j`, and every threshold `t`, `SplitByThreshold(j, t)` returns as `lt`
exactly the rows with `row[j] < t` and as `gte` exactly the rows with
`row[j] ≥ t`, each in the order of `vs`; so `len(lt) + len(gte) = len(vs)`. -/
theorem C26_splitByThreshold_partition (vs : List (List ℚ)) (j : Nat) (t : ℚ)
    (h : ∀ v ∈ vs, j < v.length) :
    ∃ lt gte, Vectors.SplitByThreshold vs j t = some (lt, gte) ∧
      lt = vs.filter (fun r => decide (r.getD j 0 < t)) ∧
      gte = vs.filter (fun r => decide (t ≤ r.getD j 0)) ∧
      lt.Sublist vs ∧ gte.Sublist vs ∧ lt.length + gte.length = vs.length := by
  have hspec := SplitByThreshold_spec vs j t h
  refine ⟨_, _, hspec, rfl, by rw [notBelow_eq], List.filter_sublist _, List.filter_sublist _,
    ?_⟩
  clear hspec h
  induction vs with
  | nil => rfl
  | cons v vs ih =>
    by_cases hb : below j t v = true
    · have hn : ¬ (notBelow j t v = true) := by simp [notBelow, hb]
      rw [List.filter_cons_of_pos hb, List.filter_cons_of_neg hn]
      simp only [List.length_cons]
      omega
    · have hn : notBelow j t v = true := by simpa [notBelow] using hb
      rw [List.filter_cons_of_neg hb, List.filter_cons_of_pos hn]
      simp only [List.length_cons]
      omega

theorem C26_splitByThreshold_partition_witness :
    (Vectors.SplitByThreshold [[0, 9], [2, 6], [1, 7], [3, 4]] 0 (3 / 2)
        = some ([[0, 9], [1, 7]], [[2, 6], [3, 4]]) ∧
      Vectors.SplitByThreshold [[0, 9], [2, 6], [1, 7], [3, 4]] 0 0
        = some ([], [[0, 9], [2, 6], [1, 7], [3, 4]]) ∧
      Vectors.SplitByThreshold [[0, 9], [2, 6], [1, 7], [3, 4]] 0 4
        = some ([[0, 9], [2, 6], [1, 7], [3, 4]], [])) ∧
    ∃ lt gte, Vectors.SplitByThreshold [[0, 9], [2, 6], [1, 7], [3, 4]] 0 (3 / 2)
        = some (lt, gte) ∧
      lt = List.filter (fun r => decide (r.getD 0 0 < (3 / 2 : ℚ)))
        [[0, 9], [2, 6], [1, 7], [3, 4]] ∧
      gte = List.filter (fun r => decide ((3 / 2 : ℚ) ≤ r.getD 0 0))
        [[0, 9], [2, 6], [1, 7], [3, 4]] ∧
      lt.Sublist [[0, 9], [2, 6], [1, 7], [3, 4]] ∧
      gte.Sublist [[0, 9], [2, 6], [1, 7], [3, 4]] ∧
      lt.length + gte.length = [[(0 : ℚ), 9], [2, 6], [1, 7], [3, 4]].length :=
  ⟨by decide!,
    C26_splitByThreshold_partition [[0, 9], [2, 6], [1, 7], [3, 4]] 0 (3 / 2)
      (by
        intro v hv
        simp only [List.mem_cons, List.mem_singleton, List.not_mem_nil, or_false] at hv
        rcases hv with e | e | e | e <;> rw [e] <;> decide)⟩

theorem filter_orderedInsert_key (j : Nat) (x : ℚ) (a : List ℚ) :
    ∀ l : List (List ℚ),
      (List.orderedInsert (Vectors.colLE j) a l).filter (fun r => decide (r.getD j 0 = x))
        = (a :: l).filter (fun r => decide (r.getD j 0 = x)) := by
  intro l
  induction l with
  | nil => rfl
  | cons b l ih =>
    by_cases hab : Vectors.colLE j a b
    · rw [List.orderedInsert, if_pos hab]
    · rw [List.orderedInsert, if_neg hab]
      have hlt : b.getD j 0 < a.getD j 0 := not_le.mp hab
      by_cases hb : b.getD j 0 = x
      · have ha : ¬ a.getD j 0 = x := by
          intro e; rw [hb, e] at hlt; exact lt_irrefl _ hlt
        rw [List.filter_cons_of_pos (by simpa using hb), ih,
          List.filter_cons_of_neg (by simpa using ha), List.filter_cons_of_neg (by simpa using ha),
          List.filter_cons_of_pos (by simpa using hb)]
      · rw [List.filter_cons_of_neg (by simpa using hb), ih]
        by_cases ha : a.getD j 0 = x
        · rw [List.filter_cons_of_pos (by simpa using ha),
            List.filter_cons_of_pos (by simpa using ha),
            List.filter_cons_of_neg (by simpa using hb)]
        · rw [List.filter_cons_of_neg (by simpa using ha),
            List.filter_cons_of_neg (by simpa using ha),
            List.filter_cons_of_neg (by simpa using hb)]

theorem filter_insertionSort_key (j : Nat) (x : ℚ) :
    ∀ l : List (List ℚ),
      (l.insertionSort (Vectors.colLE j)).filter (fun r => decide (r.getD j 0 = x))
        = l.filter (fun r => decide (r.getD j 0 = x)) := by
  intro l
  induction l with
  | nil => rfl
  | cons a l ih =>
    rw [List.insertionSort, filter_orderedInsert_key]
    by_cases ha : a.getD j 0 = x
    · rw [List.filter_cons_of_pos (by simpa using ha), List.filter_cons_of_pos (by simpa using ha),
        ih]
    · rw [List.filter_cons_of_neg (by simpa using ha), List.filter_cons_of_neg (by simpa using ha),
        ih]

theorem sorted_insertionSort_col (j : Nat) (l : List (List ℚ)) :
    (l.insertionSort (Vectors.colLE j)).Pairwise (fun a b => a.getD j 0 ≤ b.getD j 0) := by
  haveI : IsTotal (List ℚ) (Vectors.colLE j) := ⟨fun a b => le_total (a.getD j 0) (b.getD j 0)⟩
  haveI : IsTrans (List ℚ) (Vectors.colLE j) :=
    ⟨fun a b c (h1 : a.getD j 0 ≤ b.getD j 0) (h2 : b.getD j 0 ≤ c.getD j 0) => le_trans h1 h2⟩
  exact List.sorted_insertionSort (Vectors.colLE j) l

/-- C25 (SortByColumn). For every matrix `vs` whose rows all have an entry at
column `j`, `SortByColumn(j)` returns a permutation of the rows of `vs` along
which the values at column `j` are non-decreasing, and for every value `x` the
rows with `row[j] = x` stand in the result in the same order as in `vs`. -/
theorem C25_sortByColumn_stable (vs : List (List ℚ)) (j : Nat)
    (h : ∀ v ∈ vs, j < v.length) :
    ∃ sorted, Vectors.SortByColumn vs j = some sorted ∧ sorted.Perm vs ∧
      sorted.Pairwise (fun a b => a.getD j 0 ≤ b.getD j 0) ∧
      ∀ x : ℚ, sorted.filter (fun r => decide (r.getD j 0 = x))
        = vs.filter (fun r => decide (r.getD j 0 = x)) := by
  unfold Vectors.SortByColumn
  by_cases h1 : vs.length ≤ 1
  · refine ⟨vs, by rw [if_pos h1], List.Perm.refl _, ?_, fun x => rfl⟩
    cases vs with
    | nil => exact List.Pairwise.nil
    | cons a rest =>
      cases rest with
      | nil => exact List.pairwise_singleton _ _
      | cons b rest => simp at h1
  · have hall : vs.all (fun v => decide (j < v.length)) = true := by
      simpa [List.all_eq_true] using h
    exact ⟨vs.insertionSort (Vectors.colLE j), by rw [if_neg h1, if_pos hall],
      List.perm_insertionSort _ _, sorted_insertionSort_col j vs,
      fun x => filter_insertionSort_key j x vs⟩

theorem C25_sortByColumn_stable_witness :
    Vectors.SortByColumn [[1, 1], [2, 3], [3, 2], [4, 4], [5, 1], [6, 5]] 1
        = some [[1, 1], [5, 1], [3, 2], [2, 3], [4, 4], [6, 5]] ∧
    ∃ sorted, Vectors.SortByColumn [[1, 1], [2, 3], [3, 2], [4, 4], [5, 1], [6, 5]] 1
        = some sorted ∧
      sorted.Perm [[1, 1], [2, 3], [3, 2], [4, 4], [5, 1], [6, 5]] ∧
      sorted.Pairwise (fun a b => a.getD 1 0 ≤ b.getD 1 0) ∧
      ∀ x : ℚ, sorted.filter (fun r => decide (r.getD 1 0 = x))
        = List.filter (fun r => decide (r.getD 1 0 = x))
          [[1, 1], [2, 3], [3, 2], [4, 4], [5, 1], [6, 5]] :=
  ⟨by decide!,
    C25_sortByColumn_stable [[1, 1], [2, 3], [3, 2], [4, 4], [5, 1], [6, 5]] 1
      (by
        intro v hv
        simp only [List.mem_cons, List.mem_singleton, List.not_mem_nil, or_false] at hv
        rcases hv with e | e | e | e | e | e <;> rw [e] <;> decide)⟩

/-! ### CumulativeSSE: prefix sums of squared errors -/

theorem take_succ_length {α : Type} (l : List α) (i : Nat) (h : i < l.length) :
    (l.take (i + 1)).length = i + 1 := by
  rw [List.length_take]
  omega

/-- C22 (CumulativeSSE, exact arithmetic). For every non-empty matrix `vs` of
`N` rows of width `M > 0`, `CumulativeSSE` returns a vector of length `N` whose
element `i` is the sum over the columns `j` of the squared deviations of
`x[0][j], ..., x[i][j]` from their mean, which equals the sum over `j` of
`sum_{k ≤ i} x[k][j]² - (sum_{k ≤ i} x[k][j])² / (i+1)`. -/
theorem C22_cumulativeSSE_prefix_errors (M : Nat) (hM : 0 < M) (vs : List (List ℚ))
    (hne : vs ≠ []) (hr : Rect M vs) :
    ∃ out, Vectors.CumulativeSSE vs = some out ∧ out.length = vs.length ∧
      ∀ i, i < vs.length →
        out.get? i = some (SSE (vs.take (i + 1))) ∧
        SSE (vs.take (i + 1)) = ∑ j ∈ Finset.range M,
          (colSq (vs.take (i + 1)) j
            - colSum (vs.take (i + 1)) j * colSum (vs.take (i + 1)) j / ((i + 1 : Nat) : ℚ)) := by
  obtain ⟨out, h1, h2, h3⟩ := CumulativeSSE_spec hM vs hne hr
  refine ⟨out, h1, h2, ?_⟩
  intro i hi
  have hne1 : vs.take (i + 1) ≠ [] := by
    intro e
    have := congrArg List.length e
    rw [take_succ_length vs i hi, List.length_nil] at this
    omega
  have hr1 : Rect M (vs.take (i + 1)) := fun v hv => hr v (List.mem_of_mem_take hv)
  have heq := sseRaw_eq_SSE M (vs.take (i + 1)) hne1 hr1
  constructor
  · rw [List.get?_eq_getElem?, List.getElem?_eq_getElem (by omega), ← heq, ← h3 i hi,
      List.getD_eq_getElem?_getD, List.getElem?_eq_getElem (by omega)]
    rfl
  · rw [← heq]
    unfold sseRaw
    rw [take_succ_length vs i hi]

theorem C22_cumulativeSSE_prefix_errors_witness :
    Vectors.CumulativeSSE [[2, 1, 1], [4, 1, 5], [6, 1, 9]] = some [0, 10, 40] ∧
    ∃ out, Vectors.CumulativeSSE [[2, 1, 1], [4, 1, 5], [6, 1, 9]] = some out ∧
      out.length = [[(2 : ℚ), 1, 1], [4, 1, 5], [6, 1, 9]].length ∧
      ∀ i, i < [[(2 : ℚ), 1, 1], [4, 1, 5], [6, 1, 9]].length →
        out.get? i = some (SSE (List.take (i + 1) [[2, 1, 1], [4, 1, 5], [6, 1, 9]])) ∧
        SSE (List.take (i + 1) [[2, 1, 1], [4, 1, 5], [6, 1, 9]]) = ∑ j ∈ Finset.range 3,
          (colSq (List.take (i + 1) [[2, 1, 1], [4, 1, 5], [6, 1, 9]]) j
            - colSum (List.take (i + 1) [[2, 1, 1], [4, 1, 5], [6, 1, 9]]) j
              * colSum (List.take (i + 1) [[2, 1, 1], [4, 1, 5], [6, 1, 9]]) j
              / ((i + 1 : Nat) : ℚ)) :=
  ⟨by decide!,
    C22_cumulativeSSE_prefix_errors 3 (by decide) [[2, 1, 1], [4, 1, 5], [6, 1, 9]] (by decide)
      (by
        intro v hv
        simp only [List.mem_cons, List.mem_singleton, List.not_mem_nil, or_false] at hv
        rcases hv with e | e | e <;> rw [e] <;> rfl)⟩

theorem sseRaw_replicate (M n : Nat) (x : List ℚ) (hn : 0 < n) :
    sseRaw M (List.replicate n x) = 0 := by
  unfold sseRaw
  apply Finset.sum_eq_zero
  intro j _
  have hn0 : (n : ℚ) ≠ 0 := by exact_mod_cast (Nat.pos_iff_ne_zero.mp hn)
  simp only [colSq, colSum, List.map_replicate, List.sum_replicate, List.length_replicate,
    nsmul_eq_mul]
  field_simp
  ring

/-- C23 (CumulativeSSE boundary, exact arithmetic). For every non-empty matrix
of rows of width `M > 0`, element 0 of `CumulativeSSE` is 0; and for every
matrix made of `n ≥ 1` copies of one row `x` of width `M`, `CumulativeSSE` is
the zero vector of length `n`. -/
theorem C23_cumulativeSSE_boundary (M : Nat) (hM : 0 < M) :
    (∀ vs : List (List ℚ), vs ≠ [] → Rect M vs →
      ∃ out, Vectors.CumulativeSSE vs = some out ∧ out.get? 0 = some 0) ∧
    ∀ (x : List ℚ) (n : Nat), x.length = M → 0 < n →
      Vectors.CumulativeSSE (List.replicate n x) = some (List.replicate n 0) := by
  constructor
  · intro vs hne hr
    cases vs with
    | nil => exact absurd rfl hne
    | cons v0 rest =>
      obtain ⟨out, h1, _, _⟩ := CumulativeSSE_spec hM (v0 :: rest) hne hr
      refine ⟨out, h1, ?_⟩
      have hv : v0.length = M := rect_head hr
      have h0 : ¬ v0.length = 0 := by omega
      simp only [Vectors.CumulativeSSE, h0, if_false, Option.map_eq_some'] at h1
      obtain ⟨out1, _, e⟩ := h1
      rw [← e]
      rfl
  · intro x n hx hn
    have hne : List.replicate n x ≠ [] := by
      intro e
      have := congrArg List.length e
      rw [List.length_replicate, List.length_nil] at this
      omega
    have hr : Rect M (List.replicate n x) := by
      intro v hv
      rw [List.eq_of_mem_replicate hv]
      exact hx
    obtain ⟨out, h1, h2, h3⟩ := CumulativeSSE_spec hM (List.replicate n x) hne hr
    rw [List.length_replicate] at h2 h3
    rw [h1]
    congr 1
    rw [List.eq_replicate_iff]
    refine ⟨h2, ?_⟩
    intro b hb
    obtain ⟨k, hk, e⟩ := List.getElem_of_mem hb
    have h4 := h3 k (by omega)
    rw [List.getD_eq_getElem?_getD, List.getElem?_eq_getElem hk, List.take_replicate,
      sseRaw_replicate M _ x (by omega)] at h4
    rw [← e]
    exact h4

theorem C23_cumulativeSSE_boundary_witness :
    Vectors.CumulativeSSE [[1], [1], [1]] = some [0, 0, 0] ∧
    ((∀ vs : List (List ℚ), vs ≠ [] → Rect 1 vs →
      ∃ out, Vectors.CumulativeSSE vs = some out ∧ out.get? 0 = some 0) ∧
    ∀ (x : List ℚ) (n : Nat), x.length = 1 → 0 < n →
      Vectors.CumulativeSSE (List.replicate n x) = some (List.replicate n 0)) :=
  ⟨by decide!, C23_cumulativeSSE_boundary 1 (by decide)⟩

/-! ### ColumnWiseVariance -/

theorem getD_map_lt (f : ℚ → ℚ) (l : List ℚ) (j : Nat) (h : j < l.length) :
    (l.map f).getD j 0 = f (l.getD j 0) := by
  rw [List.getD_eq_getElem?_getD, List.getD_eq_getElem?_getD, List.getElem?_map,
    List.getElem?_eq_getElem h]
  rfl

theorem getD_replicate_zero (n j : Nat) : (List.replicate n (0 : ℚ)).getD j 0 = 0 := by
  rw [List.getD_eq_getElem?_getD]
  by_cases h : j < n
  · rw [List.getElem?_eq_getElem (by rw [List.length_replicate]; exact h), List.getElem_replicate]
    rfl
  · rw [List.getElem?_eq_none (by rw [List.length_replicate]; omega)]
    rfl

theorem sumLoop_value {M : Nat} (hM : 0 < M) (vs : List (List ℚ)) (hr : Rect M vs) :
    ∀ sum sq : List ℚ, sum.length = M → sq.length = M →
      ∃ s q, Vectors.sumLoop vs sum sq = some (s, q) ∧ s.length = M ∧ q.length = M ∧
        ∀ j, j < M → s.getD j 0 = sum.getD j 0 + colSum vs j ∧
          q.getD j 0 = sq.getD j 0 + colSq vs j := by
  induction vs with
  | nil =>
    intro sum sq hs hq
    exact ⟨sum, sq, rfl, hs, hq, fun j _ => by simp [colSum, colSq]⟩
  | cons v vs ih =>
    intro sum sq hs hq
    have hv : v.length = M := rect_head hr
    have h1 := Add_eq_some sum v (by omega) (by omega)
    have h2 := AddSquares_eq_some sq v (by omega) (by omega)
    obtain ⟨s, q, hsq, hsl, hql, hval⟩ := ih (rect_tail hr)
      (Vector.rangeUpdate (fun a x => a + x) sum v)
      (Vector.rangeUpdate (fun a x => a + x * x) sq v)
      (by rw [rangeUpdate_length]; exact hs) (by rw [rangeUpdate_length]; exact hq)
    refine ⟨s, q, ?_, hsl, hql, ?_⟩
    · simp only [Vectors.sumLoop, h1, h2, Option.some_bind, hsq]
    · intro j hj
      obtain ⟨e1, e2⟩ := hval j hj
      rw [e1, e2, rangeUpdate_getD _ sum v j (by omega) (by omega),
        rangeUpdate_getD _ sq v j (by omega) (by omega)]
      simp only [colSum, colSq, List.map_cons, List.sum_cons]
      constructor <;> ring

theorem ColumnWiseVariance_value {M : Nat} (hM : 0 < M) (vs : List (List ℚ)) (hne : vs ≠ [])
    (hr : Rect M vs) :
    ∃ var, Vectors.ColumnWiseVariance vs = some var ∧ var.length = M ∧
      ∀ j, j < M → var.getD j 0
        = colSq vs j / (vs.length : ℚ)
          - colSum vs j / (vs.length : ℚ) * (colSum vs j / (vs.length : ℚ)) := by
  cases vs with
  | nil => exact absurd rfl hne
  | cons v0 rest =>
    have hv : v0.length = M := rect_head hr
    obtain ⟨s, q, hsq, hs, hq, hval⟩ := sumLoop_value hM (v0 :: rest) hr
      (List.replicate v0.length 0) (List.replicate v0.length 0) (by simp [hv]) (by simp [hv])
    have h3 := Sub_eq_some (Vector.DivScalar q ((v0 :: rest).length : ℚ))
      (Vector.Square (Vector.DivScalar s ((v0 :: rest).length : ℚ)))
      (by simp [Square_length, DivScalar_length, hs, hM])
      (by simp [Square_length, DivScalar_length, hs, hq])
    refine ⟨Vector.rangeUpdate (fun a x => a - x)
      (Vector.DivScalar q ((v0 :: rest).length : ℚ))
      (Vector.Square (Vector.DivScalar s ((v0 :: rest).length : ℚ))), ?_, ?_, ?_⟩
    · simp only [Vectors.ColumnWiseVariance, hsq, Option.some_bind]
      exact h3
    · simp [rangeUpdate_length, DivScalar_length, hq]
    · intro j hj
      obtain ⟨e1, e2⟩ := hval j hj
      rw [getD_replicate_zero, zero_add] at e1 e2
      rw [rangeUpdate_getD _ _ _ j
        (by simp [Vector.Square, Vector.DivScalar, hs, hq])
        (by simp [Vector.DivScalar, hq]; omega)]
      unfold Vector.Square Vector.DivScalar
      rw [getD_map_lt _ q j (by omega), getD_map_lt _ _ j (by rw [List.length_map]; omega),
        getD_map_lt _ s j (by omega), e1, e2]

/-- C24 (ColumnWiseVariance, exact arithmetic). For every non-empty matrix of
`N` rows of width `M > 0`, `ColumnWiseVariance` returns a vector of length `M`
whose element `j` is `(1/N) * sum_k x[k][j]² - ((1/N) * sum_k x[k][j])²`, which
equals the population variance `(1/N) * sum_k (x[k][j] - mean_j)²`. The function
only reads the rows: it updates the two vectors that it allocates. -/
theorem C24_columnWiseVariance (M : Nat) (hM : 0 < M) (vs : List (List ℚ)) (hne : vs ≠ [])
    (hr : Rect M vs) :
    ∃ var, Vectors.ColumnWiseVariance vs = some var ∧ var.length = M ∧
      ∀ j, j < M →
        var.get? j = some (1 / (vs.length : ℚ) * colSq vs j
          - (1 / (vs.length : ℚ) * colSum vs j) ^ 2) ∧
        1 / (vs.length : ℚ) * colSq vs j - (1 / (vs.length : ℚ) * colSum vs j) ^ 2
          = 1 / (vs.length : ℚ) * (vs.map fun r => (r.getD j 0 - colMean vs j) ^ 2).sum := by
  obtain ⟨var, h1, h2, h3⟩ := ColumnWiseVariance_value hM vs hne hr
  refine ⟨var, h1, h2, ?_⟩
  intro j hj
  have hn : (vs.length : ℚ) ≠ 0 := by
    have : 0 < vs.length := List.length_pos.mpr hne
    exact_mod_cast (Nat.pos_iff_ne_zero.mp this)
  constructor
  · rw [List.get?_eq_getElem?, List.getElem?_eq_getElem (by omega)]
    congr 1
    have := h3 j hj
    rw [List.getD_eq_getElem?_getD, List.getElem?_eq_getElem (by omega)] at this
    simp only [Option.getD_some] at this
    rw [this]
    ring
  · rw [sum_sq_dev, colMean]
    field_simp
    ring

theorem C24_columnWiseVariance_witness :
    Vectors.ColumnWiseVariance [[-9, 3, 0], [0, 6, 6], [9, 9, 18]] = some [54, 6, 56] ∧
    ∃ var, Vectors.ColumnWiseVariance [[-9, 3, 0], [0, 6, 6], [9, 9, 18]] = some var ∧
      var.length = 3 ∧
      ∀ j, j < 3 →
        var.get? j = some (1 / ([[(-9 : ℚ), 3, 0], [0, 6, 6], [9, 9, 18]].length : ℚ)
            * colSq [[-9, 3, 0], [0, 6, 6], [9, 9, 18]] j
          - (1 / ([[(-9 : ℚ), 3, 0], [0, 6, 6], [9, 9, 18]].length : ℚ)
            * colSum [[-9, 3, 0], [0, 6, 6], [9, 9, 18]] j) ^ 2) ∧
        1 / ([[(-9 : ℚ), 3, 0], [0, 6, 6], [9, 9, 18]].length : ℚ)
            * colSq [[-9, 3, 0], [0, 6, 6], [9, 9, 18]] j
          - (1 / ([[(-9 : ℚ), 3, 0], [0, 6, 6], [9, 9, 18]].length : ℚ)
            * colSum [[-9, 3, 0], [0, 6, 6], [9, 9, 18]] j) ^ 2
          = 1 / ([[(-9 : ℚ), 3, 0], [0, 6, 6], [9, 9, 18]].length : ℚ)
            * (List.map (fun r => (r.getD j 0
                - colMean [[-9, 3, 0], [0, 6, 6], [9, 9, 18]] j) ^ 2)
              [[-9, 3, 0], [0, 6, 6], [9, 9, 18]]).sum :=
  ⟨by decide!,
    C24_columnWiseVariance 3 (by decide) [[-9, 3, 0], [0, 6, 6], [9, 9, 18]] (by decide)
      (by
        intro v hv
        simp only [List.mem_cons, List.mem_singleton, List.not_mem_nil, or_false] at hv
        rcases hv with e | e | e <;> rw [e] <;> rfl)⟩

/-! ### The bounds of the binary vector operations (C27) -/

theorem rangeUpdate_getD_le (f : ℚ → ℚ → ℚ) :
    ∀ (v other : List ℚ) (j : Nat), other.length ≤ v.length →
      (j < other.length →
        (Vector.rangeUpdate f v other).getD j 0 = f (v.getD j 0) (other.getD j 0)) ∧
      (other.length ≤ j → (Vector.rangeUpdate f v other).getD j 0 = v.getD j 0) := by
  intro v
  induction v with
  | nil =>
    intro other j hlen
    cases other with
    | nil => exact ⟨fun h => by simp at h, fun _ => rfl⟩
    | cons x other => simp at hlen
  | cons a v ih =>
    intro other j hlen
    cases other with
    | nil => exact ⟨fun h => by simp at h, fun _ => rfl⟩
    | cons x other =>
      have hlen1 : other.length ≤ v.length := by simpa using hlen
      cases j with
      | zero => exact ⟨fun _ => rfl, fun h => by simp at h⟩
      | succ j =>
        obtain ⟨h1, h2⟩ := ih other j hlen1
        constructor
        · intro hj
          have := h1 (by simpa using hj)
          simpa [Vector.rangeUpdate] using this
        · intro hj
          have := h2 (by simpa using hj)
          simpa [Vector.rangeUpdate] using this

theorem boundsOK_iff (v other : List ℚ) :
    Vector.boundsOK v other = true ↔ 1 ≤ other.length ∧ other.length ≤ v.length := by
  unfold Vector.boundsOK
  rw [Bool.and_eq_true, decide_eq_true_iff, decide_eq_true_iff]
  exact Iff.rfl

theorem dotLoop_eq_sum :
    ∀ (v other : List ℚ) (y : ℚ),
      Vector.dotLoop v other y = y + (List.zipWith (fun a b => a * b) v other).sum := by
  intro v
  induction v with
  | nil =>
    intro other y
    cases other <;> simp [Vector.dotLoop]
  | cons a v ih =>
    intro other y
    cases other with
    | nil => simp [Vector.dotLoop]
    | cons b other =>
      rw [Vector.dotLoop, ih, List.zipWith_cons_cons, List.sum_cons]
      ring

/-- C27 as stated fails on the code: with `self = [1]` and `other = [1, 2]`,
so `len(other) ≥ len(self)`, each of `Add`, `Sub` and `AddSquares` fails on the
index `self[len(other)-1]`; `DotProduct` fails on an empty `self` whatever
`other` is; and `Add` completes on a shorter `other`. -/
theorem C27_counterexample :
    Vector.Add [1] [1, 2] = none ∧ Vector.Sub [1] [1, 2] = none ∧
      Vector.AddSquares [1] [1, 2] = none ∧ Vector.DotProduct [] [1] = none ∧
      Vector.Add [1, 2] [5] = some [6, 2] ∧ Vector.DotProduct [1] [1, 2] = some 1 := by
  decide!

/-- C27, amended. `Add`, `Sub` and `AddSquares` on `self` and `other` complete
exactly when `1 ≤ len(other) ≤ len(self)`; they combine the first `len(other)`
elements of `self` with `other` element-wise and keep the other elements of
`self`. `DotProduct` completes exactly when `1 ≤ len(self) ≤ len(other)` and
returns the sum of `self[i] * other[i]` over `i < len(self)`. Every other
combination of lengths is a fatal out-of-range failure. -/
theorem C27_binary_ops_bounds (self other : List ℚ) :
    (1 ≤ other.length ∧ other.length ≤ self.length →
      (∃ r, Vector.Add self other = some r ∧ r.length = self.length ∧
        (∀ i, i < other.length → r.getD i 0 = self.getD i 0 + other.getD i 0) ∧
        ∀ i, other.length ≤ i → r.getD i 0 = self.getD i 0) ∧
      (∃ r, Vector.Sub self other = some r ∧ r.length = self.length ∧
        (∀ i, i < other.length → r.getD i 0 = self.getD i 0 - other.getD i 0) ∧
        ∀ i, other.length ≤ i → r.getD i 0 = self.getD i 0) ∧
      ∃ r, Vector.AddSquares self other = some r ∧ r.length = self.length ∧
        (∀ i, i < other.length →
          r.getD i 0 = self.getD i 0 + other.getD i 0 * other.getD i 0) ∧
        ∀ i, other.length ≤ i → r.getD i 0 = self.getD i 0) ∧
    (¬ (1 ≤ other.length ∧ other.length ≤ self.length) →
      Vector.Add self other = none ∧ Vector.Sub self other = none ∧
        Vector.AddSquares self other = none) ∧
    (1 ≤ self.length ∧ self.length ≤ other.length →
      Vector.DotProduct self other
        = some (List.zipWith (fun a b => a * b) self other).sum) ∧
    (¬ (1 ≤ self.length ∧ self.length ≤ other.length) →
      Vector.DotProduct self other = none) := by
  refine ⟨?_, ?_, ?_, ?_⟩
  · intro h
    have hb := (boundsOK_iff self other).mpr h
    refine ⟨⟨_, by rw [Vector.Add, if_pos hb], rangeUpdate_length _ _ _, ?_, ?_⟩,
      ⟨_, by rw [Vector.Sub, if_pos hb], rangeUpdate_length _ _ _, ?_, ?_⟩,
      ⟨_, by rw [Vector.AddSquares, if_pos hb], rangeUpdate_length _ _ _, ?_, ?_⟩⟩
    · exact fun i hi => (rangeUpdate_getD_le _ self other i h.2).1 hi
    · exact fun i hi => (rangeUpdate_getD_le _ self other i h.2).2 hi
    · exact fun i hi => (rangeUpdate_getD_le _ self other i h.2).1 hi
    · exact fun i hi => (rangeUpdate_getD_le _ self other i h.2).2 hi
    · exact fun i hi => (rangeUpdate_getD_le _ self other i h.2).1 hi
    · exact fun i hi => (rangeUpdate_getD_le _ self other i h.2).2 hi
  · intro h
    have hb : ¬ Vector.boundsOK self other = true := fun e => h ((boundsOK_iff self other).mp e)
    exact ⟨by rw [Vector.Add, if_neg hb], by rw [Vector.Sub, if_neg hb],
      by rw [Vector.AddSquares, if_neg hb]⟩
  · intro h
    have hb := (boundsOK_iff other self).mpr h
    rw [Vector.DotProduct, if_pos hb, dotLoop_eq_sum, zero_add]
  · intro h
    have hb : ¬ Vector.boundsOK other self = true := fun e => h ((boundsOK_iff other self).mp e)
    rw [Vector.DotProduct, if_neg hb]

theorem C27_binary_ops_bounds_witness :
    (∃ r, Vector.Add [1, 2, 3] [10, 20] = some r ∧ r.length = [(1 : ℚ), 2, 3].length ∧
        (∀ i, i < [(10 : ℚ), 20].length →
          r.getD i 0 = [(1 : ℚ), 2, 3].getD i 0 + [(10 : ℚ), 20].getD i 0) ∧
        ∀ i, [(10 : ℚ), 20].length ≤ i → r.getD i 0 = [(1 : ℚ), 2, 3].getD i 0) ∧
      (∃ r, Vector.Sub [1, 2, 3] [10, 20] = some r ∧ r.length = [(1 : ℚ), 2, 3].length ∧
        (∀ i, i < [(10 : ℚ), 20].length →
          r.getD i 0 = [(1 : ℚ), 2, 3].getD i 0 - [(10 : ℚ), 20].getD i 0) ∧
        ∀ i, [(10 : ℚ), 20].length ≤ i → r.getD i 0 = [(1 : ℚ), 2, 3].getD i 0) ∧
      ∃ r, Vector.AddSquares [1, 2, 3] [10, 20] = some r ∧
        r.length = [(1 : ℚ), 2, 3].length ∧
        (∀ i, i < [(10 : ℚ), 20].length →
          r.getD i 0
            = [(1 : ℚ), 2, 3].getD i 0 + [(10 : ℚ), 20].getD i 0 * [(10 : ℚ), 20].getD i 0) ∧
        ∀ i, [(10 : ℚ), 20].length ≤ i → r.getD i 0 = [(1 : ℚ), 2, 3].getD i 0 :=
  (C27_binary_ops_bounds [1, 2, 3] [10, 20]).1 ⟨by decide, by decide⟩

/-! ### OptimalSplitThreshold on a single row (C21) -/

theorem SSE_replicate (M n : Nat) (x : List ℚ) (hx : x.length = M) (hn : 0 < n) :
    SSE (List.replicate n x) = 0 := by
  have hne : List.replicate n x ≠ [] := by
    intro e
    have := congrArg List.length e
    rw [List.length_replicate, List.length_nil] at this
    omega
  have hr : Rect M (List.replicate n x) := by
    intro v hv
    rw [List.eq_of_mem_replicate hv]
    exact hx
  rw [← sseRaw_eq_SSE M _ hne hr, sseRaw_replicate M n x hn]

theorem OptimalSplitThreshold_single (na : Nextafter32) (r : List ℚ) (j : Nat)
    (hj : j < r.length) :
    Vectors.SortByColumn [r] j = some [r] ∧
      Vectors.CumulativeSSE [r, r] = some [0, 0] ∧
      Vectors.OptimalSplitThreshold na [r] j = some (r.getD j 0, 0) := by
  have hM : 0 < r.length := by omega
  have hrect : Rect r.length [r, r] := by
    intro v hv
    simp only [List.mem_cons, List.mem_singleton, List.not_mem_nil, or_false, or_self] at hv
    rw [hv]
  have hsort : Vectors.SortByColumn [r] j = some [r] := by
    unfold Vectors.SortByColumn
    rw [if_pos (by simp)]
  obtain ⟨head, tail0, front, hhead, htail, hadd, hlosslen, hlossval, hlast⟩ :=
    lossVector_spec hM [r, r] (by simp) hrect
  have h0 : (front ++ head.drop (head.length - 1)).getD 0 0 = 0 := by
    rw [hlossval 0 (by simp)]
    unfold splitLoss
    have e1 : List.take (0 + 1) [r, r] = List.replicate 1 r := rfl
    have e2 : List.drop (0 + 1) [r, r] = List.replicate 1 r := rfl
    rw [e1, e2, SSE_replicate r.length 1 r rfl (by omega)]
    ring
  have h1 : (front ++ head.drop (head.length - 1)).getD 1 0 = 0 := by
    have e : [r, r] = List.replicate 2 r := rfl
    have := hlast
    rw [e, SSE_replicate r.length 2 r rfl (by omega)] at this
    exact this
  obtain ⟨n, hn, hnlt, _, hfirst⟩ := ArgMin_spec (front ++ head.drop (head.length - 1))
    (by intro h; rw [h] at hlosslen; simp at hlosslen)
  have hn0 : n = 0 := by
    by_contra hne
    have hlen2 : (front ++ head.drop (head.length - 1)).length = 2 := hlosslen
    have hn1 : n = 1 := by omega
    have := hfirst 0 (by omega)
    rw [hn1, h1, h0] at this
    exact lt_irrefl _ this
  subst hn0
  have hcsse : Vectors.CumulativeSSE [r, r] = some [0, 0] := by
    obtain ⟨out, e1, e2, e3⟩ := CumulativeSSE_spec hM [r, r] (by simp) hrect
    rw [e1]
    congr 1
    have hrep : ∀ k, List.take (k + 1) [r, r] = List.replicate (min (k + 1) 2) r := by
      intro k
      have e : [r, r] = List.replicate 2 r := rfl
      rw [e, List.take_replicate]
    have hz : ∀ b ∈ out, b = 0 := by
      intro b hb
      obtain ⟨k, hk, e⟩ := List.getElem_of_mem hb
      have h4 := e3 k (by rw [← e2]; exact hk)
      rw [List.getD_eq_getElem?_getD, List.getElem?_eq_getElem hk, hrep,
        sseRaw_replicate r.length _ r (by omega)] at h4
      rw [← e]
      exact h4
    have : out = List.replicate 2 0 := List.eq_replicate_iff.mpr ⟨e2, hz⟩
    rw [this]
    rfl
  refine ⟨hsort, hcsse, ?_⟩
  have hlen1 : ([r] : List (List ℚ)).length = 1 := rfl
  have hdup : [r] ++ List.take 1 [r] = [r, r] := rfl
  unfold Vectors.OptimalSplitThreshold
  simp only [Vectors.Copy, Vectors.Reverse, hsort, Option.some_bind, hlen1, if_true, hdup, hhead,
    htail, Option.map_some', hadd, hn,
    get?_eq_some_getD [r, r] 0 [] (by simp),
    get?_eq_some_getD [r, r] 1 [] (by simp),
    get?_eq_some_getD (front ++ head.drop (head.length - 1)) 0 0 (by rw [hlosslen]; simp)]
  have hrow0 : List.getD [r, r] 0 [] = r := rfl
  have hrow1 : List.getD [r, r] (0 + 1) [] = r := rfl
  have hlt : 0 < [r, r].length - 1 := by simp
  simp only [hrow0, hrow1, get?_eq_some_getD r j 0 hj, Option.some_bind, if_pos hlt,
    Option.map_some', h0]
  congr 2
  ring

/-- C21 as stated fails on the code: on the single row `[6]` the threshold is
`6`, the value of the row itself, not a value strictly greater than `6`; the
step to the next representable value is not taken. -/
theorem C21_counterexample :
    Vectors.OptimalSplitThreshold unitStep [[6]] 0 = some (6, 0) ∧
      unitStep.up 6 ≠ 6 ∧ ¬ ((6 : ℚ) < 6) := by
  decide!

/-- C21, amended. For every single-row matrix `[r]` and every column `j` of
`r`, `OptimalSplitThreshold` duplicates the row, the combined losses of
`[r, r]` are all `0`, `ArgMin` is `0`, and the result is the threshold `r[j]`
itself (the midpoint of the two copies) with loss `0`, whatever
`math.Nextafter32` is. -/
theorem C21_single_row_threshold (na : Nextafter32) (r : List ℚ) (j : Nat)
    (hj : j < r.length) :
    Vectors.SortByColumn [r] j = some [r] ∧
      Vectors.CumulativeSSE [r, r] = some [0, 0] ∧
      Vectors.OptimalSplitThreshold na [r] j = some (r.getD j 0, 0) :=
  OptimalSplitThreshold_single na r j hj

theorem C21_single_row_threshold_witness :
    Vectors.SortByColumn [[6, 3]] 1 = some [[6, 3]] ∧
      Vectors.CumulativeSSE [[6, 3], [6, 3]] = some [0, 0] ∧
      Vectors.OptimalSplitThreshold unitStep [[6, 3]] 1 = some (List.getD [6, 3] 1 0, 0) :=
  C21_single_row_threshold unitStep [6, 3] 1 (by decide)

/-! ### The reads of the lookup table stay in range (C30) -/

theorem sumLoop_total (data : List Nat) :
    ∀ (idxs : List Nat) (acc : Nat), (∀ i ∈ idxs, i < data.length) →
      ∃ s, Maddness.sumLoop data idxs acc = some s := by
  intro idxs
  induction idxs with
  | nil => intro acc _; exact ⟨acc, rfl⟩
  | cons i rest ih =>
    intro acc hall
    have hi : i < data.length := hall i (List.mem_cons_self _ _)
    obtain ⟨s, hs⟩ := ih ((acc + data.get ⟨i, hi⟩) % 65536)
      (fun k hk => hall k (List.mem_cons_of_mem _ hk))
    exact ⟨s, by
      simp only [Maddness.sumLoop, get?_some_of_lt data i hi, Option.some_bind, hs]⟩

theorem precompute_shape (m : Maddness) (q : List ℚ) (hn : 1 ≤ m.NumSubspaces)
    (hw : 1 ≤ m.SubVectorSize) (hq : m.NumSubspaces * m.SubVectorSize ≤ q.length)
    (hlen : m.Hashes.length = m.NumSubspaces)
    (hp : ∀ s h, m.Hashes.get? s = some h →
      h.Prototypes.length = 16 ∧ ∀ p ∈ h.Prototypes, p.length = m.SubVectorSize) :
    (∃ r, Maddness.precomputeDotProducts m q = some r ∧
      r.1.flatten.length = m.NumSubspaces * 16) ∧
    ∀ lut, Maddness.makeLookupTable m q = some (some lut) →
      lut.Data.length = m.NumSubspaces * 16 ∧ lut.Scale ≠ 0 := by
  obtain ⟨rows, hrows, hrowslen, h16, _⟩ := dotRowsLoop_spec m q hw hq hlen hp
    m.NumSubspaces 0 none none (by omega)
  have hflatlen : rows.flatten.length = m.NumSubspaces * 16 := by
    rw [flatten_length 16 rows h16, hrowslen]
  have hflat : rows.flatten ≠ [] := by
    intro h0
    rw [h0] at hflatlen
    simp at hflatlen
    omega
  obtain ⟨lo, hlo, _, _⟩ := foldl_lowerMin_none rows.flatten hflat
  obtain ⟨hi, hhi, _, _⟩ := foldl_raiseMax_none rows.flatten hflat
  constructor
  · have hpre : Maddness.precomputeDotProducts m q
        = some (rows, if hi - lo = 0 then none else some (lo, 255 / (hi - lo))) := by
      simp only [Maddness.precomputeDotProducts, hrows, Option.map_some', hlo, hhi]
    exact ⟨_, hpre, hflatlen⟩
  · intro lut h
    simp only [Maddness.makeLookupTable, Maddness.precomputeDotProducts, hrows, Option.map_some',
      Option.some_bind, hlo, hhi] at h
    cases rows with
    | nil => simp at hflat
    | cons r0 rs =>
      simp only [Option.some.injEq] at h
      by_cases hsub : hi - lo = 0
      · rw [if_pos hsub] at h
        cases h
      · rw [if_neg hsub] at h
        simp only [Option.map_some', Option.some.injEq] at h
        rw [← h]
        constructor
        · show (List.map _ (r0 :: rs)).flatten.length = m.NumSubspaces * 16
          rw [← hflatlen]
          have : ∀ rows1 : List (List ℚ),
              (List.map (fun fdRow => List.map
                (fun v => toUint8 ((v - lo) * (255 / (hi - lo)))) fdRow) rows1).flatten.length
                = rows1.flatten.length := by
            intro rows1
            induction rows1 with
            | nil => rfl
            | cons a rest ih =>
              rw [List.map_cons, List.flatten_cons, List.flatten_cons, List.length_append,
                List.length_append, ih, List.length_map]
          exact this (r0 :: rs)
        · show (255 : ℚ) / (hi - lo) ≠ 0
          exact div_ne_zero (by norm_num) hsub

/-- C30 (table reads in range). For every model `m` returned by
`TrainMaddness` with at most 4096 subspaces, every vector `v` of length
`m.VectorSize` and every query index `i`, each element of
`LookupTableIndices(Quantize(v))` is below `N * 16`; the table of dot products
of query `i` has `N * 16` entries, and when `LookupTables[i]` has finite
parameters its `Data` has `N * 16` entries, every read `lutData[lutIndex]` of
`DotProduct` is in range and `DotProduct` returns a value. -/
theorem C30_table_reads_in_range (na : Nextafter32) (data queries : List (List ℚ)) (N : Int)
    (m : Maddness) (ht : TrainMaddness na data queries N = some m)
    (hN : m.NumSubspaces ≤ 4096) (v : List ℚ) (hv : v.length = m.VectorSize) :
    ∃ q indices, Maddness.Quantize m v = some q ∧
      Maddness.LookupTableIndices m q = some indices ∧
      indices.length = m.NumSubspaces ∧ (∀ x ∈ indices, x < m.NumSubspaces * 16) ∧
      ∀ i qv, queries.get? i = some qv →
        (∃ r, Maddness.precomputeDotProducts m qv = some r ∧
          r.1.flatten.length = m.NumSubspaces * 16) ∧
        ∃ entry, m.LookupTables.get? i = some entry ∧
          ∀ lut, entry = some lut →
            lut.Data.length = m.NumSubspaces * 16 ∧
            (∃ sum, Maddness.sumLoop lut.Data indices 0 = some sum) ∧
            ∃ y, Maddness.DotProduct m indices i = some y := by
  obtain ⟨htr, _, _⟩ := TrainMaddness_inv na data queries N m ht
  obtain ⟨q, hq, hqlen, hqs⟩ := quantizeLoop_spec m.SubVectorSize v m.Hashes 0
    (fun h hh => by
      obtain ⟨s, hs⟩ := List.get?_of_mem hh
      exact trained_levels htr s h hs)
    (by rw [Nat.zero_add, htr.hashes_len, hv, htr.size_eq])
  have hpos : 0 < m.Hashes.length := by rw [htr.hashes_len]; exact htr.subspaces_pos
  have hh0 := get?_some_of_lt m.Hashes 0 hpos
  have h16 : (m.Hashes.get ⟨0, hpos⟩).Prototypes.length = 16 :=
    (trained_protos htr 0 _ hh0).1
  obtain ⟨hilen, hival⟩ := indicesLoop_spec 16 q 0
  have hidx : Maddness.LookupTableIndices m q = some (Maddness.indicesLoop 16 q 0) := by
    simp only [Maddness.LookupTableIndices, hh0, Option.map_some', h16]
  have hbound : ∀ x ∈ Maddness.indicesLoop 16 q 0, x < m.NumSubspaces * 16 := by
    intro x hx
    obtain ⟨s, hs⟩ := List.get?_of_mem hx
    have hslt : s < q.length := by rw [← hilen]; exact get?_lt_length hs
    have hs1 : s < m.Hashes.length := by rw [← hqlen]; exact hslt
    obtain ⟨b, _, _, hb16, hqb⟩ := hqs s _ (get?_some_of_lt m.Hashes s hs1)
    have := hival s b hqb
    rw [hs, Nat.zero_add] at this
    have hx1 : x = (s * 16 + b) % 65536 := Option.some.inj this
    have hsN : s < m.NumSubspaces := by rw [← htr.hashes_len]; exact hs1
    omega
  refine ⟨q, _, hq, hidx, by rw [hilen, hqlen, htr.hashes_len], hbound, ?_⟩
  intro i qv hqv
  obtain ⟨t, hmk, hget⟩ := htr.tables i qv hqv
  have hfits := makeLookupTable_fits m qv t htr.subspaces_pos hmk
  obtain ⟨hpre, hdata⟩ := precompute_shape m qv htr.subspaces_pos htr.width_pos hfits
    htr.hashes_len (fun s h hs => trained_protos htr s h hs)
  refine ⟨hpre, t, hget, ?_⟩
  intro lut hlut
  rw [hlut] at hmk hget
  obtain ⟨hlen, hscale⟩ := hdata lut hmk
  obtain ⟨sum, hsum⟩ := sumLoop_total lut.Data (Maddness.indicesLoop 16 q 0) 0
    (fun x hx => by rw [hlen]; exact hbound x hx)
  refine ⟨hlen, ⟨sum, hsum⟩, ?_⟩
  exact ⟨(sum : ℚ) / lut.Scale + lut.Bias, by
    simp only [Maddness.DotProduct, hget, Option.some_bind, hsum, if_neg hscale]⟩

set_option maxRecDepth 100000 in
theorem C30_table_reads_in_range_witness :
    ∃ q indices, Maddness.Quantize testModel [16, 32, 139, 103, 9, 8, 7, 6] = some q ∧
      Maddness.LookupTableIndices testModel q = some indices ∧
      indices.length = testModel.NumSubspaces ∧
      (∀ x ∈ indices, x < testModel.NumSubspaces * 16) ∧
      ∀ i qv, testQueries.get? i = some qv →
        (∃ r, Maddness.precomputeDotProducts testModel qv = some r ∧
          r.1.flatten.length = testModel.NumSubspaces * 16) ∧
        ∃ entry, testModel.LookupTables.get? i = some entry ∧
          ∀ lut, entry = some lut →
            lut.Data.length = testModel.NumSubspaces * 16 ∧
            (∃ sum, Maddness.sumLoop lut.Data indices 0 = some sum) ∧
            ∃ y, Maddness.DotProduct testModel indices i = some y :=
  C30_table_reads_in_range unitStep testExamples testQueries 4 testModel (by decide!)
    (by decide!) [16, 32, 139, 103, 9, 8, 7, 6] (by decide!)

/-! ### The level selection of nextHashingTreeLevel (C29) -/

theorem lossLoop_value (na : Nextafter32) {M : Nat} (c : Nat) (hc : c < M) (bs : List Bucket)
    (hg : GoodBuckets M bs) :
    ∀ (ths : List ℚ) (loss : ℚ),
      lossLoop na c bs ths loss
        = some (ths ++ thresholdsOf na bs c, loss + totalLoss na bs c) := by
  induction bs with
  | nil =>
    intro ths loss
    simp [lossLoop, thresholdsOf, totalLoss]
  | cons b bs ih =>
    intro ths loss
    obtain ⟨t, l, htl⟩ := OptimalSplitThreshold_some na b.Vectors
      (hg b (List.mem_cons_self _ _)).1 (hg b (List.mem_cons_self _ _)).2 c hc
    have h2 := ih (goodBuckets_tail hg) (ths ++ [t]) (loss + l)
    simp only [lossLoop, htl, Option.some_bind, h2, thresholdsOf, totalLoss, List.map_cons,
      List.sum_cons, Option.map_some', Option.getD_some, List.append_assoc, List.singleton_append,
      add_assoc]

theorem selectLoop_min (na : Nextafter32) {M : Nat} (bs : List Bucket)
    (hg : GoodBuckets M bs) :
    ∀ (indices : List Nat) (best : Option (ℚ × Nat × List ℚ)), (∀ c ∈ indices, c < M) →
      ∃ r, selectLoop na bs indices best = some r ∧
        ((r = best ∧ (best = none → indices = []) ∧
            ∀ b, best = some b → ∀ c ∈ indices, b.1 ≤ totalLoss na bs c) ∨
          ∃ p c, indices.get? p = some c ∧
            r = some (totalLoss na bs c, c, thresholdsOf na bs c) ∧
            (∀ b, best = some b → totalLoss na bs c < b.1) ∧
            (∀ c1 ∈ indices, totalLoss na bs c ≤ totalLoss na bs c1) ∧
            ∀ q c1, q < p → indices.get? q = some c1 →
              totalLoss na bs c < totalLoss na bs c1) := by
  intro indices
  induction indices with
  | nil =>
    intro best _
    exact ⟨best, rfl, Or.inl ⟨rfl, fun _ => rfl, fun b _ c hc => by simp at hc⟩⟩
  | cons c0 rest ih =>
    intro best hidx
    have hrest : ∀ x ∈ rest, x < M := fun x hx => hidx x (List.mem_cons_of_mem _ hx)
    have hloss := lossLoop_value na c0 (hidx c0 (List.mem_cons_self _ _)) bs hg [] 0
    rw [List.nil_append, zero_add] at hloss
    have hstep : ∀ best1 : Option (ℚ × Nat × List ℚ),
        (∃ r, selectLoop na bs rest best1 = some r ∧
          ((r = best1 ∧ (best1 = none → rest = []) ∧
              ∀ b, best1 = some b → ∀ c ∈ rest, b.1 ≤ totalLoss na bs c) ∨
            ∃ p c, rest.get? p = some c ∧
              r = some (totalLoss na bs c, c, thresholdsOf na bs c) ∧
              (∀ b, best1 = some b → totalLoss na bs c < b.1) ∧
              (∀ c1 ∈ rest, totalLoss na bs c ≤ totalLoss na bs c1) ∧
              ∀ q c1, q < p → rest.get? q = some c1 →
                totalLoss na bs c < totalLoss na bs c1)) := fun best1 => ih best1 hrest
    have htaken : (∀ b, best = some b → totalLoss na bs c0 < b.1) →
        selectLoop na bs (c0 :: rest) best
          = selectLoop na bs rest (some (totalLoss na bs c0, c0, thresholdsOf na bs c0)) := by
      intro hb
      simp only [selectLoop, hloss, Option.some_bind]
      cases best with
      | none => rfl
      | some b0 =>
        have := hb b0 rfl
        simp only [decide_eq_true this, if_true]
    by_cases hbetter : ∀ b, best = some b → totalLoss na bs c0 < b.1
    · rw [htaken hbetter]
      obtain ⟨r, hr, hcase⟩ := hstep (some (totalLoss na bs c0, c0, thresholdsOf na bs c0))
      refine ⟨r, hr, Or.inr ?_⟩
      rcases hcase with ⟨h1, _, h3⟩ | ⟨p, c, h1, h2, h3, h4, h5⟩
      · refine ⟨0, c0, rfl, h1, hbetter, ?_, fun q c1 hq => by omega⟩
        intro c1 hc1
        rcases List.mem_cons.mp hc1 with e | e
        · rw [e]
        · exact h3 _ rfl c1 e
      · have hlt : totalLoss na bs c < totalLoss na bs c0 := h3 _ rfl
        refine ⟨p + 1, c, h1, h2, ?_, ?_, ?_⟩
        · intro b hb
          exact lt_trans hlt (hbetter b hb)
        · intro c1 hc1
          rcases List.mem_cons.mp hc1 with e | e
          · rw [e]; exact le_of_lt hlt
          · exact h4 c1 e
        · intro q c1 hq hget
          cases q with
          | zero =>
            simp only [List.get?_cons_zero, Option.some.injEq] at hget
            rw [← hget]
            exact hlt
          | succ q =>
            rw [List.get?_cons_succ] at hget
            exact h5 q c1 (by omega) hget
    · push_neg at hbetter
      obtain ⟨b0, hb0, hle⟩ := hbetter
      have hkeep : selectLoop na bs (c0 :: rest) best = selectLoop na bs rest best := by
        simp only [selectLoop, hloss, Option.some_bind]
        rw [hb0]
        have hnlt : ¬ totalLoss na bs c0 < b0.1 := not_lt.mpr hle
        simp only [decide_eq_false hnlt]
        rfl
      rw [hkeep]
      obtain ⟨r, hr, hcase⟩ := hstep best
      refine ⟨r, hr, ?_⟩
      rcases hcase with ⟨h1, _, h3⟩ | ⟨p, c, h1, h2, h3, h4, h5⟩
      · left
        refine ⟨h1, fun hn => (by rw [hb0] at hn; cases hn), ?_⟩
        intro b hb c1 hc1
        rcases List.mem_cons.mp hc1 with e | e
        · rw [e]
          rw [hb0] at hb
          cases hb
          exact hle
        · exact h3 b hb c1 e
      · right
        have hlt : totalLoss na bs c < b0.1 := h3 b0 hb0
        refine ⟨p + 1, c, h1, h2, h3, ?_, ?_⟩
        · intro c1 hc1
          rcases List.mem_cons.mp hc1 with e | e
          · rw [e]; exact le_of_lt (lt_of_lt_of_le hlt hle)
          · exact h4 c1 e
        · intro q c1 hq hget
          cases q with
          | zero =>
            simp only [List.get?_cons_zero, Option.some.injEq] at hget
            rw [← hget]
            exact lt_of_lt_of_le hlt hle
          | succ q =>
            rw [List.get?_cons_succ] at hget
            exact h5 q c1 (by omega) hget

theorem nextHashingTreeLevel_min (na : Nextafter32) {M : Nat} (hM : 0 < M) (bs : List Bucket)
    (hne : bs ≠ []) (hg : GoodBuckets M bs) :
    ∃ nb lvl cands p, nextHashingTreeLevel na bs = some (nb, lvl) ∧
      Buckets.HeuristicSelectIndices bs = some cands ∧
      cands.get? p = some lvl.SplitIndex ∧ lvl.SplitIndex < M ∧
      lvl.SplitThresholds = thresholdsOf na bs lvl.SplitIndex ∧
      (∀ c ∈ cands, totalLoss na bs lvl.SplitIndex ≤ totalLoss na bs c) ∧
      (∀ q c, q < p → cands.get? q = some c →
        totalLoss na bs lvl.SplitIndex < totalLoss na bs c) ∧
      nb.length = 2 * bs.length := by
  obtain ⟨indices, hidx, hilen, hiall⟩ := HeuristicSelectIndices_spec hM bs hne hg
  have hine : indices ≠ [] := by
    intro h; rw [h] at hilen; simp at hilen; omega
  obtain ⟨r, hr, hcase⟩ := selectLoop_min na bs hg indices none hiall
  rcases hcase with ⟨_, h2, _⟩ | ⟨p, c, hget, hr2, _, hmin, hfirst⟩
  · exact absurd (h2 rfl) hine
  · have hc : c < M := hiall c (List.get?_mem hget)
    have hlen : (thresholdsOf na bs c).length = bs.length := by
      unfold thresholdsOf
      rw [List.length_map]
    obtain ⟨nb, hnb, hnblen, _, _⟩ := splitLoop_spec na c hc (thresholdsOf na bs c) bs hg 0
      (by omega)
    rw [hr2] at hr
    refine ⟨nb, { SplitIndex := c, SplitThresholds := thresholdsOf na bs c }, indices, p, ?_,
      hidx, hget, hc, rfl, hmin, hfirst, hnblen⟩
    simp only [nextHashingTreeLevel, hidx, Option.some_bind, hr, hnb, Option.map_some']

/-- C29 as stated fails on the code: for the single bucket `[[3]]` the level
has threshold `3` on column `0`; the split of the bucket at `3` has an empty
`lt` part and the `gte` part `[[3]]`, but child `0` is not that empty part: for
every `math.Nextafter32` it is the one-row bucket `[[Nextafter32(3, -Inf)]]`
made by the repair of an empty side. -/
theorem C29_counterexample :
    Vectors.SplitByThreshold [[3]] 0 3 = some ([], [[3]]) ∧
    ∀ na : Nextafter32,
      Vectors.OptimalSplitThreshold na [[3]] 0 = some (3, 0) ∧
      (nextHashingTreeLevel na [{ Level := 0, NodeIndex := 0, Vectors := [[3]] }]).map
          (fun p => (p.1.map fun b => b.Vectors, p.2))
        = some ([[[na.down 3]], [[3]]], { SplitIndex := 0, SplitThresholds := [3] }) := by
  have hsplit : Vectors.SplitByThreshold [[3]] 0 3 = some ([], [[3]]) := by decide!
  refine ⟨hsplit, ?_⟩
  intro na
  have hcand : Buckets.HeuristicSelectIndices
      [{ Level := 0, NodeIndex := 0, Vectors := [[3]] }] = some [0] := by decide!
  have hopt : Vectors.OptimalSplitThreshold na [[3]] 0 = some (3, 0) :=
    (OptimalSplitThreshold_single na [3] 0 (by decide)).2.2
  have hsort : Vectors.SortByColumn [[3]] 0 = some [[3]] := by decide!
  have hloss : lossLoop na 0 [{ Level := 0, NodeIndex := 0, Vectors := [[3]] }] [] 0
      = some ([3], 0) := by
    simp only [lossLoop, hopt, Option.some_bind, List.nil_append, add_zero]
  have hsel : selectLoop na [{ Level := 0, NodeIndex := 0, Vectors := [[3]] }] [0] none
      = some (some (0, 0, [3])) := by
    simp only [selectLoop, hloss, Option.some_bind, if_true]
  have hrepair : repairLt na [[3]] 0 = some [[na.down 3]] := by
    simp only [repairLt, Vectors.Copy, Vector.Copy, hsort, Option.some_bind]
    rfl
  refine ⟨hopt, ?_⟩
  simp only [nextHashingTreeLevel, hcand, Option.some_bind, hsel, splitLoop, hsplit,
    List.length_nil, if_true, hrepair, Option.map_some', List.map_cons, List.map_nil]
  rfl

/-- C29, amended (exact arithmetic). For every non-empty list of non-empty
buckets of rows of width `M > 0`, `nextHashingTreeLevel` returns a level whose
`SplitIndex` `c` is one of the `HeuristicSelectIndices` candidates; the sum
over the buckets of the `OptimalSplitThreshold(c)` losses is less than or equal
to that sum for every candidate, and strictly less than that of every earlier
candidate; `SplitThresholds[b]` is the `OptimalSplitThreshold(c)` threshold of
bucket `b`; and children `2b`, `2b+1` are the `lt` and `gte` parts of bucket
`b` split at that threshold, except that an empty part is replaced by one row:
the copy of a row of the other part whose value at column `c` is moved one
representable step down (for `lt`) or up (for `gte`). -/
theorem C29_level_selection (na : Nextafter32) (M : Nat) (hM : 0 < M) (bs : List Bucket)
    (hne : bs ≠ []) (hg : GoodBuckets M bs) :
    ∃ nb lvl cands p, nextHashingTreeLevel na bs = some (nb, lvl) ∧
      Buckets.HeuristicSelectIndices bs = some cands ∧
      cands.get? p = some lvl.SplitIndex ∧
      (∀ c ∈ cands, totalLoss na bs lvl.SplitIndex ≤ totalLoss na bs c) ∧
      (∀ q c, q < p → cands.get? q = some c →
        totalLoss na bs lvl.SplitIndex < totalLoss na bs c) ∧
      nb.length = 2 * bs.length ∧ lvl.SplitThresholds.length = bs.length ∧
      ∀ k b, bs.get? k = some b → ∃ t l sides c0 c1,
        Vectors.OptimalSplitThreshold na b.Vectors lvl.SplitIndex = some (t, l) ∧
        lvl.SplitThresholds.get? k = some t ∧
        Vectors.SplitByThreshold b.Vectors lvl.SplitIndex t = some sides ∧
        nb.get? (2 * k) = some c0 ∧ nb.get? (2 * k + 1) = some c1 ∧
        RepairedSides na lvl.SplitIndex sides c0.Vectors c1.Vectors := by
  obtain ⟨nb, lvl, cands, p, h1, h2, h3, hc, h4, h5, h6, h7⟩ :=
    nextHashingTreeLevel_min na hM bs hne hg
  refine ⟨nb, lvl, cands, p, h1, h2, h3, h5, h6, h7, ?_, ?_⟩
  · rw [h4]
    unfold thresholdsOf
    rw [List.length_map]
  · intro k b hk
    obtain ⟨t, sides, c0, c1, e1, e2, e3, e4, e5⟩ :=
      nextHashingTreeLevel_repair na bs nb lvl h1 k b hk
    have hb := hg b (List.get?_mem hk)
    obtain ⟨t1, l, htl⟩ := OptimalSplitThreshold_some na b.Vectors hb.1 hb.2 lvl.SplitIndex hc
    have ht : t = t1 := by
      rw [h4] at e1
      unfold thresholdsOf at e1
      rw [List.get?_eq_getElem?, List.getElem?_map, ← List.get?_eq_getElem?, hk, Option.map_some',
        htl] at e1
      exact (Option.some.inj e1).symm
    rw [ht] at e1 e2
    exact ⟨t1, l, sides, c0, c1, htl, e1, e2, e3, e4, e5⟩

theorem C29_level_selection_witness :
    ∃ nb lvl cands p, nextHashingTreeLevel unitStep testBuckets = some (nb, lvl) ∧
      Buckets.HeuristicSelectIndices testBuckets = some cands ∧
      cands.get? p = some lvl.SplitIndex ∧
      (∀ c ∈ cands,
        totalLoss unitStep testBuckets lvl.SplitIndex ≤ totalLoss unitStep testBuckets c) ∧
      (∀ q c, q < p → cands.get? q = some c →
        totalLoss unitStep testBuckets lvl.SplitIndex < totalLoss unitStep testBuckets c) ∧
      nb.length = 2 * testBuckets.length ∧
      lvl.SplitThresholds.length = testBuckets.length ∧
      ∀ k b, testBuckets.get? k = some b → ∃ t l sides c0 c1,
        Vectors.OptimalSplitThreshold unitStep b.Vectors lvl.SplitIndex = some (t, l) ∧
        lvl.SplitThresholds.get? k = some t ∧
        Vectors.SplitByThreshold b.Vectors lvl.SplitIndex t = some sides ∧
        nb.get? (2 * k) = some c0 ∧ nb.get? (2 * k + 1) = some c1 ∧
        RepairedSides unitStep lvl.SplitIndex sides c0.Vectors c1.Vectors :=
  C29_level_selection unitStep 5 (by decide) testBuckets (by decide)
    (by
      intro b hb
      simp only [testBuckets, List.mem_cons, List.mem_singleton, List.not_mem_nil,
        or_false] at hb
      rcases hb with h | h <;> rw [h] <;> simp [Rect])

/-! ## Row order and training (C1) -/

/-- C1 (row-order invariance of training) fails on the code: training on the
three rows `[0,0], [0,1], [1,0]` yields the first-level threshold `1/2` on
column `0`, training on the same rows in reverse order yields the threshold `0`
on column `0`, so the two trained hashes differ. The rows `[0,0]` and `[0,1]`
tie on column `0`; the stable sort keeps them in input order, and the
cumulative SSE, which sums over all columns, then rates the candidate split
points differently. -/
theorem C1_trainHash_depends_on_row_order :
    (TrainHash unitStep [[0, 0], [0, 1], [1, 0]]).map (fun h => h.TreeLevels.head?)
        = some (some { SplitIndex := 0, SplitThresholds := [1 / 2] }) ∧
      (TrainHash unitStep (List.reverse [[0, 0], [0, 1], [1, 0]])).map
          (fun h => h.TreeLevels.head?)
        = some (some { SplitIndex := 0, SplitThresholds := [0] }) ∧
      TrainHash unitStep (List.reverse [[0, 0], [0, 1], [1, 0]])
        ≠ TrainHash unitStep [[0, 0], [0, 1], [1, 0]] := by
  decide!

end Gomaddness
